import Mathlib

/-!
Verification development for the tidygraph-py graph-dataframe join engine.

The Python source keeps a graph (igraph) synchronized with caller-supplied
tables (pandas DataFrames) under relational join semantics.  This file embeds
the data model and the four join functions of
`src/tidygraph/_utils/join.py`, the validation / dispatch layer of
`src/tidygraph/tidygraph.py`, and the reserved-keyword constants of
`src/tidygraph/_utils/const.py` as executable Lean definitions, then settles
the claims about them.

Modelling conventions:
* a pandas cell is `Option Val` with `none` standing for NaN / missing;
  pandas `merge` matches missing keys with missing keys, which the model
  mirrors with plain equality of `Option Val`;
* a DataFrame row is a self-describing association list from column name to
  cell; a table carries the column order separately so that schema-level
  operations (column intersection, dropna of columns) work on empty frames;
* igraph vertex and edge ids are dense `0..n-1`; `get_vertex_dataframe` /
  `get_edge_dataframe` therefore have row position equal to id, and the row
  labels used by the source (`.loc`, `.at`, `.iloc[_].name`) coincide with
  row positions everywhere except for the caller table of `right_join`,
  whose original labels survive its `sort_values`; those labels are tracked
  explicitly there;
* an undirected igraph reports edge endpoints in canonical (min, max) order
  (the repository test suite relies on this: an undirected edge added as
  (c, a) is reported as (a, c)), so `addEdges` normalizes endpoints;
* fallible library calls (`add_edges` on an invalid id, `.loc` on a missing
  label, attribute assignment of the wrong length, the KeyError inside
  `outer_join`'s column-combining loop) are modelled with `Except`.
-/

set_option autoImplicit false
set_option maxHeartbeats 1000000

namespace Tidy

/-- Kernel-reducible suffix test on strings. -/
def strEndsWith (x suf : String) : Bool :=
  suf.data.isSuffixOf x.data

/-- Kernel-reducible head test on strings. -/
def strStartsWith (x pre : String) : Bool :=
  pre.data.isPrefixOf x.data

/-- Kernel-reducible removal of the last `n` characters of a string. -/
def strDropRight (x : String) (n : Nat) : String :=
  ⟨x.data.take (x.data.length - n)⟩

/-- Scalar value stored in a table cell or attribute: strings for names and
caller data, naturals for vertex and edge ids. -/
inductive Val where
  | str : String → Val
  | nat : Nat → Val
  deriving DecidableEq, Repr

/-- Table cell; `none` models pandas NaN / Python None. -/
abbrev Cell := Option Val

/-- Row of a data frame: association list from column name to cell. -/
abbrev Row := List (String × Cell)

/-- Cell lookup in a row; a missing column reads as missing (NaN). -/
def rget (r : Row) (c : String) : Cell :=
  match r.find? (fun e => e.1 == c) with
  | some e => e.2
  | none => none

/-- Pandas column assignment on one row: replace the entry in place when the
column exists, otherwise append it at the end. -/
def rset (r : Row) (c : String) (v : Cell) : Row :=
  if r.any (fun e => e.1 == c) then
    r.map (fun e => if e.1 == c then (c, v) else e)
  else
    r ++ [(c, v)]

/-- Keep only the entries of a row whose column satisfies the predicate. -/
def rkeep (r : Row) (p : String → Bool) : Row :=
  r.filter (fun e => p e.1)

/-- DataFrame: explicit column order plus self-describing rows. -/
structure Table where
  cols : List String
  rows : List Row
  deriving DecidableEq, Repr

/-- Column extraction (`df[c]` as a list of cells, one per row). -/
def Table.col (t : Table) (c : String) : List Cell :=
  t.rows.map (fun r => rget r c)

/-- Pandas column assignment `df[c] = vals`: the column is replaced in place
when present, appended at the end otherwise. -/
def Table.setCol (t : Table) (c : String) (vals : List Cell) : Table :=
  { cols := if t.cols.contains c then t.cols else t.cols ++ [c]
    rows := t.rows.zipWith (fun r v => rset r c v) vals }

/-- Keep only the columns satisfying the predicate (used for
`drop(columns=...)`, underscore-column drops and column-list slicing). -/
def Table.keepCols (t : Table) (p : String → Bool) : Table :=
  { cols := t.cols.filter p
    rows := t.rows.map (fun r => rkeep r p) }

/-- Pandas `drop(columns=cs)`. -/
def Table.dropCols (t : Table) (cs : List String) : Table :=
  t.keepCols (fun c => !cs.contains c)

/-- Pandas `dropna(axis=1, how="all")`: drop every column whose cell is
missing in all rows. -/
def Table.dropAllMissing (t : Table) : Table :=
  t.keepCols (fun c => t.rows.any (fun r => (rget r c).isSome))

/-- Pandas `concat` of two frames: rows are stacked, the column order is the
first frame's columns followed by the new columns of the second; cell lookup
by name makes the NaN padding of missing columns automatic. -/
def Table.append (t u : Table) : Table :=
  { cols := t.cols ++ u.cols.filter (fun c => !t.cols.contains c)
    rows := t.rows ++ u.rows }

/-- Columns common to both schemas, in the left frame's order (pandas merge
with `on=None` joins on these). -/
def commonCols (xs ys : List String) : List String :=
  xs.filter (fun c => ys.contains c)

/-- Join kinds of `pandas.DataFrame.merge` used by the source. -/
inductive MergeHow where
  | inner
  | left
  | right
  | outer
  | leftAnti
  deriving DecidableEq, Repr

/-- Join key of a row: the cells of the `on` columns in order.  Pandas merge
matches missing keys with missing keys, so plain equality of the extracted
cells is the faithful matching relation. -/
def keyOf (onc : List String) (r : Row) : List Cell :=
  onc.map (fun c => rget r c)

/-- Suffix resolution for the left frame's columns: join keys keep their
name, other columns clashing with the right frame gain the left suffix. -/
def lname (onc ycols : List String) (ls : String) (c : String) : String :=
  if onc.contains c then c else if ycols.contains c then c ++ ls else c

/-- Suffix resolution for the right frame's non-key columns. -/
def rname (xcols : List String) (rs : String) (c : String) : String :=
  if xcols.contains c then c ++ rs else c

/-- Left half of a merged row: the left row with suffix-resolved names. -/
def mkLeft (onc ycols : List String) (ls : String) (rx : Row) : Row :=
  rx.map (fun e => (lname onc ycols ls e.1, e.2))

/-- Right half of a merged row: the right row without the join keys, with
suffix-resolved names. -/
def mkRight (onc xcols : List String) (rs : String) (ry : Row) : Row :=
  (ry.filter (fun e => !onc.contains e.1)).map (fun e => (rname xcols rs e.1, e.2))

/-- Merged row for a left row matched with a right row. -/
def rowBoth (onc xcols ycols : List String) (ls rs : String) (ind : Bool)
    (rx ry : Row) : Row :=
  mkLeft onc ycols ls rx ++ mkRight onc xcols rs ry ++
    (if ind then [("_merge", some (Val.str "both"))] else [])

/-- Merged row for an unmatched left row: right columns are missing. -/
def rowLeftOnly (onc xcols ycols : List String) (ls rs : String) (ind : Bool)
    (rx : Row) : Row :=
  mkLeft onc ycols ls rx ++
    (ycols.filter (fun c => !onc.contains c)).map
      (fun c => (rname xcols rs c, (none : Cell))) ++
    (if ind then [("_merge", some (Val.str "left_only"))] else [])

/-- Merged row for an unmatched right row: join keys take the right row's
values, the other left columns are missing. -/
def rowRightOnly (onc xcols ycols : List String) (ls rs : String) (ind : Bool)
    (ry : Row) : Row :=
  xcols.map (fun c =>
      if onc.contains c then (c, rget ry c)
      else (lname onc ycols ls c, (none : Cell))) ++
    mkRight onc xcols rs ry ++
    (if ind then [("_merge", some (Val.str "right_only"))] else [])

/-- Column list of a merge result: the left frame's columns (suffix
resolved, join keys in place), then the right frame's non-key columns. -/
def mergeOutCols (xcols ycols onc : List String) (ls rs : String)
    (ind : Bool) : List String :=
  xcols.map (lname onc ycols ls) ++
    (ycols.filter (fun c => !onc.contains c)).map (rname xcols rs) ++
    (if ind then ["_merge"] else [])

/-- Row list of `x.merge(y, how=..., on=onc, suffixes=(ls, rs))` with
`sort=False`: inner and left are driven by the left rows in order (each
expanded by its matches in right order), right by the right rows, outer is
left-driven rows followed by the unmatched right rows, and the anti join
keeps the unmatched left rows. -/
def mergeRows (x y : Table) (onc : List String) (ls rs : String) (ind : Bool) :
    MergeHow → List Row
  | .inner =>
      x.rows.flatMap (fun rx =>
        (y.rows.filter (fun ry => keyOf onc ry == keyOf onc rx)).map
          (rowBoth onc x.cols y.cols ls rs ind rx))
  | .left =>
      x.rows.flatMap (fun rx =>
        match y.rows.filter (fun ry => keyOf onc ry == keyOf onc rx) with
        | [] => [rowLeftOnly onc x.cols y.cols ls rs ind rx]
        | ms => ms.map (rowBoth onc x.cols y.cols ls rs ind rx))
  | .right =>
      y.rows.flatMap (fun ry =>
        match x.rows.filter (fun rx => keyOf onc rx == keyOf onc ry) with
        | [] => [rowRightOnly onc x.cols y.cols ls rs ind ry]
        | ms => ms.map (fun rx => rowBoth onc x.cols y.cols ls rs ind rx ry))
  | .outer =>
      x.rows.flatMap (fun rx =>
        match y.rows.filter (fun ry => keyOf onc ry == keyOf onc rx) with
        | [] => [rowLeftOnly onc x.cols y.cols ls rs ind rx]
        | ms => ms.map (rowBoth onc x.cols y.cols ls rs ind rx)) ++
        (y.rows.filter (fun ry =>
            !x.rows.any (fun rx => keyOf onc rx == keyOf onc ry))).map
          (rowRightOnly onc x.cols y.cols ls rs ind)
  | .leftAnti =>
      (x.rows.filter (fun rx =>
          !y.rows.any (fun ry => keyOf onc ry == keyOf onc rx))).map
        (rowLeftOnly onc x.cols y.cols ls rs ind)

/-- Shallow embedding of `pandas.DataFrame.merge` as used by the source
(always `sort=False`; `ind` is the `indicator=` flag). -/
def pdMerge (x y : Table) (onc : List String) (ls rs : String) (ind : Bool)
    (how : MergeHow) : Table :=
  { cols := mergeOutCols x.cols y.cols onc ls rs ind
    rows := mergeRows x y onc ls rs ind how }

/-! ### The graph collaborator (igraph subset consumed by the source) -/

/-- Attribute store: ordered map from attribute name to the per-entity cell
list (igraph keeps attributes in insertion order). -/
abbrev AttrStore := List (String × List Cell)

/-- Graph state: directed flag, dense vertex ids `0..nverts-1`, edge list in
edge-id order, and the vertex / edge attribute stores.  An undirected graph
stores each edge with endpoints in (min, max) order; see `addEdges`. -/
structure Graph where
  directed : Bool
  nverts : Nat
  edges : List (Nat × Nat)
  vattrs : AttrStore
  eattrs : AttrStore
  deriving DecidableEq, Repr

/-- Value list of one attribute. -/
def attrCol (s : AttrStore) (c : String) : List Cell :=
  match s.find? (fun e => e.1 == c) with
  | some e => e.2
  | none => []

/-- Names held in the store, in order. -/
def attrNamesOf (s : AttrStore) : List String :=
  s.map Prod.fst

/-- Vertex name cells (the mandatory "name" attribute), indexed by id. -/
def Graph.names (g : Graph) : List Cell :=
  attrCol g.vattrs "name"

/-- Identity Resolver step used by every edge join and by the right join's
sort key: one lookup of `pd.Series(index=names).map`, sending a vertex name
to its id and anything unresolved (missing, or not a name) to missing. -/
def nameToIndex (g : Graph) (c : Cell) : Cell :=
  match c with
  | none => none
  | some v =>
      match (g.names.indexOf? (some v)) with
      | some i => some (Val.nat i)
      | none => none

/-- Snapshot `g.get_vertex_dataframe()`: one row per vertex id, columns in
attribute order; the frame's row label equals the vertex id. -/
def getVertexDf (g : Graph) : Table :=
  { cols := attrNamesOf g.vattrs
    rows := (List.range g.nverts).map (fun i =>
      g.vattrs.map (fun e => (e.1, e.2.getD i none))) }

/-- Snapshot `g.get_edge_dataframe()`: source and target ids then the edge
attributes, one row per edge id. -/
def getEdgeDf (g : Graph) : Table :=
  { cols := ["source", "target"] ++ attrNamesOf g.eattrs
    rows := g.edges.enum.map (fun p =>
      [("source", some (Val.nat p.2.1)), ("target", some (Val.nat p.2.2))] ++
        g.eattrs.map (fun e => (e.1, e.2.getD p.1 none))) }

/-- Snapshot of the active context's frame with the internal join-tracking
column appended (`x["_index"] = x.index.to_series()`). -/
def addIndexCol (t : Table) : Table :=
  { cols := t.cols ++ ["_index"]
    rows := t.rows.enum.map (fun p => p.2 ++ [("_index", some (Val.nat p.1))]) }

/-- Library call `g.add_vertices(k)`: new vertices get missing attributes. -/
def addVertices (g : Graph) (k : Nat) : Graph :=
  { g with
    nverts := g.nverts + k
    vattrs := g.vattrs.map (fun e => (e.1, e.2 ++ List.replicate k none)) }

/-- Endpoint decode for `add_edges` / `delete_edges`: igraph rejects
anything that is not a valid vertex id (a missing cell models the NaN that a
pandas column holds for an unresolved vertex name). -/
def decodeVertex (g : Graph) (c : Cell) : Except String Nat :=
  match c with
  | some (Val.nat i) => if i < g.nverts then .ok i else .error "add_edges: invalid vertex ID"
  | _ => .error "add_edges: invalid vertex ID"

/-- Endpoint resolution loop of `add_edges`: fails on the first invalid
endpoint, normalizing undirected endpoints to (min, max) order. -/
def resolvePairs (g : Graph) : List (Cell × Cell) → Except String (List (Nat × Nat))
  | [] => Except.ok []
  | p :: ps => do
      let s ← decodeVertex g p.1
      let t ← decodeVertex g p.2
      let rest ← resolvePairs g ps
      if g.directed then pure ((s, t) :: rest)
      else pure ((Nat.min s t, Nat.max s t) :: rest)

/-- Library call `g.add_edges(pairs)`: atomic (igraph validates the whole
list before mutating, and a NaN endpoint fails the conversion), pads the
edge attributes of the new edges with missing values, and stores undirected
endpoints in canonical (min, max) order, the order in which the repository
tests observe them. -/
def addEdges (g : Graph) (pairs : List (Cell × Cell)) : Except String Graph := do
  let resolved ← resolvePairs g pairs
  pure { g with
    edges := g.edges ++ resolved
    eattrs := g.eattrs.map (fun e => (e.1, e.2 ++ List.replicate resolved.length none)) }

/-- Library call `g.get_eid(s, t)` wrapped as in `_get_edge_id`: the id of
the first edge joining the endpoints (either orientation when undirected),
and `None` instead of an exception when the endpoints are invalid or no such
edge exists. -/
def getEid (g : Graph) (s t : Cell) : Option Nat :=
  match s, t with
  | some (Val.nat a), some (Val.nat b) =>
      if a < g.nverts && b < g.nverts then
        (g.edges.enum.find? (fun p =>
          (p.2.1 == a && p.2.2 == b) ||
            (!g.directed && p.2.1 == b && p.2.2 == a))).map Prod.fst
      else none
  | _, _ => none

/-- Library call `g.delete_vertices(ids)`: incident edges are removed and
the surviving vertices and edges are compacted and renumbered in order. -/
def deleteVertices (g : Graph) (ids : List Nat) : Graph :=
  let keep := (List.range g.nverts).filter (fun i => !ids.contains i)
  let remap := fun i => keep.indexOf? i
  let keepEdge := fun (e : Nat × Nat) => (remap e.1).isSome && (remap e.2).isSome
  { g with
    nverts := keep.length
    edges := (g.edges.filter keepEdge).map (fun e =>
      ((remap e.1).getD 0, (remap e.2).getD 0))
    vattrs := g.vattrs.map (fun a => (a.1, keep.map (fun i => a.2.getD i none)))
    eattrs := g.eattrs.map (fun a =>
      (a.1, (a.2.enum.filter (fun p =>
          match g.edges[p.1]? with
          | some e => keepEdge e
          | none => false)).map Prod.snd)) }

/-- Edge-id resolution loop of `delete_edges`. -/
def resolveEids (g : Graph) : List (Cell × Cell) → Except String (List Nat)
  | [] => Except.ok []
  | p :: ps =>
      match getEid g p.1 p.2 with
      | some i => (resolveEids g ps).map (fun rest => i :: rest)
      | none => Except.error "delete_edges: no such edge"

/-- Library call `g.delete_edges(pairs)` with endpoint tuples: each pair is
resolved to an edge id (igraph raises when a pair names no edge), and the
resolved ids are deleted as a set, the remaining edges being renumbered. -/
def deleteEdges (g : Graph) (pairs : List (Cell × Cell)) : Except String Graph := do
  let ids ← resolveEids g pairs
  pure { g with
    edges := (g.edges.enum.filter (fun p => !ids.contains p.1)).map Prod.snd
    eattrs := g.eattrs.map (fun a =>
      (a.1, (a.2.enum.filter (fun p => !ids.contains p.1)).map Prod.snd)) }

/-! ### Reserved keywords (`_utils/const.py`) -/

/-- `ReservedGraphKeywords.NODES`. -/
def reservedNodes : List String := ["vertex ID"]

/-- `ReservedGraphKeywords.EDGES`. -/
def reservedEdges : List String := ["node ID", "from", "to", "source", "target"]

/-- `RESERVED_JOIN_KEYWORD`. -/
def reservedJoinKeyword : String := "_index"

/-- Active context (`activate.ActiveType`). -/
inductive ActiveType where
  | NODES
  | EDGES
  deriving DecidableEq, Repr

/-- Reserved attribute names of the active context. -/
def reservedFor (active : ActiveType) : List String :=
  match active with
  | .NODES => reservedNodes
  | .EDGES => reservedEdges

/-- Attribute names currently stored for the active context. -/
def attrNames (g : Graph) (active : ActiveType) : List String :=
  match active with
  | .NODES => attrNamesOf g.vattrs
  | .EDGES => attrNamesOf g.eattrs

/-- Count of entities in the active context. -/
def contextCount (g : Graph) (active : ActiveType) : Nat :=
  match active with
  | .NODES => g.nverts
  | .EDGES => g.edges.length

/-- Assignment `target[col] = data[col].to_numpy()`: igraph accepts a value
sequence only when its length matches the entity count; the attribute is
replaced in place when present, appended otherwise. -/
def setAttr (s : AttrStore) (c : String) (vals : List Cell) : AttrStore :=
  if s.any (fun e => e.1 == c) then
    s.map (fun e => if e.1 == c then (c, vals) else e)
  else
    s ++ [(c, vals)]

/-- Write the whole store of the active context. -/
def putStore (g : Graph) (active : ActiveType) (s : AttrStore) : Graph :=
  match active with
  | .NODES => { g with vattrs := s }
  | .EDGES => { g with eattrs := s }

/-- Read the whole store of the active context. -/
def getStore (g : Graph) (active : ActiveType) : AttrStore :=
  match active with
  | .NODES => g.vattrs
  | .EDGES => g.eattrs

/-- Attribute Reconciler `_apply_attributes`: delete every previously stored
attribute of the active context, then assign each non-reserved column of the
final merged table; a column whose length does not match the entity count
makes igraph raise. -/
def applyAttributes (active : ActiveType) (g : Graph) (data : Table) :
    Except String Graph := do
  let n := contextCount g active
  let s ← data.cols.foldlM (fun (s : AttrStore) c =>
    if (reservedFor active).contains c then pure s
    else
      let vals := data.col c
      if vals.length == n then pure (setAttr s c vals)
      else Except.error "attribute assignment length mismatch") ([] : AttrStore)
  pure (putStore g active s)

/-! ### Explosion Classifier helpers -/

/-- Indicator test `row["_merge"] == tag`. -/
def mergeIs (r : Row) (tag : String) : Bool :=
  rget r "_merge" == some (Val.str tag)

/-- Natural-number view of a cell. -/
def cellNat (c : Cell) : Option Nat :=
  match c with
  | some (Val.nat i) => some i
  | _ => none

/-- Internal join-tracking id of a merged row (`row["_index"]`). -/
def indexVal (r : Row) : Option Nat :=
  cellNat (rget r "_index")

/-- Group keys of `x_merged[x_merged["_merge"] == "both"].groupby("_index")`
whose group size exceeds one, in ascending order (pandas groupby sorts its
keys). -/
def explosionIdx (m : Table) : List Nat :=
  let vals := m.rows.filterMap (fun r =>
    if mergeIs r "both" then indexVal r else none)
  (List.range (vals.foldl Nat.max 0 + 1)).filter (fun i => vals.count i > 1)

/-- Set `x_merged.at[p, "_merge"] = "right_only"` for every row position in
`ps`. -/
def markRows (m : Table) (ps : List Nat) : Table :=
  { m with rows := m.rows.enum.map (fun p =>
      if ps.contains p.1 then rset p.2 "_merge" (some (Val.str "right_only"))
      else p.2) }

/-- One iteration of the node explosion loop: look up the exploded key in
the left snapshot (`x.loc[index]["name"]`), and reclassify the last
`len(new_filtered) - len(old_filtered)` matching merged rows as new
(`"right_only"`). -/
def explosionStepNode (x : Table) (m : Table) (i : Nat) : Table :=
  let nameV := rget (x.rows.getD i []) "name"
  let posns := (m.rows.enum.filter (fun p => rget p.2 "name" == nameV)).map Prod.fst
  let old := (x.rows.filter (fun r => rget r "name" == nameV)).length
  let d := posns.length - old
  markRows m (posns.drop (posns.length - d))

/-- One iteration of the edge explosion loop, keyed on the (source, target)
pair of `x.loc[index]`. -/
def explosionStepEdge (x : Table) (m : Table) (i : Nat) : Table :=
  let xi := x.rows.getD i []
  let sv := rget xi "source"
  let tv := rget xi "target"
  let posns := (m.rows.enum.filter (fun p =>
    rget p.2 "source" == sv && rget p.2 "target" == tv)).map Prod.fst
  let old := (x.rows.filter (fun r =>
    rget r "source" == sv && rget r "target" == tv)).length
  let d := posns.length - old
  markRows m (posns.drop (posns.length - d))

/-- Label lookup `y.loc[i]` on a frame whose original labels survived
`sort_values`; a missing label raises (pandas KeyError). -/
def yLoc (ylab : List (Nat × Row)) (i : Nat) : Except String Row :=
  match ylab.find? (fun p => p.1 == i) with
  | some p => Except.ok p.2
  | none => Except.error "loc KeyError"

/-- One iteration of the node explosion loop of `right_join`, which reads
the exploded key from `y.loc[index]["name"]` even though `index` is an
identity value of the left snapshot x. -/
def explosionStepRightNode (ylab : List (Nat × Row)) (x : Table) (m : Table)
    (i : Nat) : Except String Table := do
  let yr ← yLoc ylab i
  let nameV := rget yr "name"
  let posns := (m.rows.enum.filter (fun p => rget p.2 "name" == nameV)).map Prod.fst
  let old := (x.rows.filter (fun r => rget r "name" == nameV)).length
  let d := posns.length - old
  pure (markRows m (posns.drop (posns.length - d)))

/-- One iteration of the edge explosion loop of `right_join`, keyed on
`y.loc[index][["source", "target"]]`. -/
def explosionStepRightEdge (ylab : List (Nat × Row)) (x : Table) (m : Table)
    (i : Nat) : Except String Table := do
  let yr ← yLoc ylab i
  let sv := rget yr "source"
  let tv := rget yr "target"
  let posns := (m.rows.enum.filter (fun p =>
    rget p.2 "source" == sv && rget p.2 "target" == tv)).map Prod.fst
  let old := (x.rows.filter (fun r =>
    rget r "source" == sv && rget r "target" == tv)).length
  let d := posns.length - old
  pure (markRows m (posns.drop (posns.length - d)))

/-! ### Shared join plumbing -/

/-- Swap of the endpoint column names,
`rename(columns={"source": "target", "target": "source"})`. -/
def swapName (c : String) : String :=
  if c == "source" then "target" else if c == "target" then "source" else c

/-- Mirrored copy of a frame (endpoint columns renamed into each other). -/
def Table.mirror (t : Table) : Table :=
  { cols := t.cols.map swapName
    rows := t.rows.map (fun r => r.map (fun e => (swapName e.1, e.2))) }

/-- Identity Resolver augmentation of an edge-context caller table
(lines 36-41 of join.py): resolve the "from" / "to" vertex names into the
id columns "source" / "target" and drop the name columns. -/
def augmentEdgesY (g : Graph) (y : Table) : Table :=
  let y1 := y.setCol "source" ((y.col "from").map (nameToIndex g))
  let y2 := y1.setCol "target" ((y1.col "to").map (nameToIndex g))
  y2.dropCols ["from", "to"]

/-- Split of the processed merge result into continuing rows followed by the
new (`"right_only"`) rows, returning the reordered frame and the new rows
(lines 99-103 pattern; the kept rows are already in label order, so
`sort_index` leaves them unchanged). -/
def splitNew (t : Table) : Table × List Row :=
  let newRows := t.rows.filter (fun r => mergeIs r "right_only")
  let kept := t.rows.filter (fun r => !mergeIs r "right_only")
  ({ t with rows := kept ++ newRows }, newRows)

/-- Drop of the internal bookkeeping columns
(`[col for col in x_merged if col.startswith("_")]`). -/
def dropUnderscoreCols (t : Table) : Table :=
  t.keepCols (fun c => !strStartsWith c "_")

/-- Common post-processing tail shared by the four joins (lines 98-104
pattern): drop the all-missing columns, split off the new rows, and drop
the underscore bookkeeping columns; the first component is the final merged
frame handed to the Attribute Reconciler, the second the new rows driving
the structural mutation. -/
def finishTable (xm : Table) : Table × List Row :=
  let xm2 := xm.dropAllMissing
  let split := splitNew xm2
  (dropUnderscoreCols split.1, split.2)

/-- Endpoint pair of a merged row, as handed to `add_edges` /
`delete_edges`. -/
def endpointsOf (r : Row) : Cell × Cell :=
  (rget r "source", rget r "target")

/-- Strict comparison of sort keys with missing keys last, as
`sort_values(..., na_position="last")` orders them. -/
def keyLt (a b : Option Nat) : Bool :=
  match a, b with
  | some x, some y => x < y
  | some _, none => true
  | none, _ => false

/-- Stable insertion into a sorted labeled-row list. -/
def insertSorted (key : Row → Option Nat) (p : Nat × Row) :
    List (Nat × Row) → List (Nat × Row)
  | [] => [p]
  | q :: qs =>
      if keyLt (key q.2) (key p.2) then q :: insertSorted key p qs
      else p :: q :: qs

/-- Stable sort of labeled rows by an optional key
(`sort_values("_sort_index")`; the inputs the source meets are tiny, where
the numpy sort behaves stably, and pandas keeps missing keys at the end in
input order). -/
def sortByKey (key : Row → Option Nat) (l : List (Nat × Row)) :
    List (Nat × Row) :=
  l.foldr (insertSorted key) []


/-- One iteration of the suffixed-column recombination loop of the
undirected outer join (lines 67-71): coalesce `base.x` with `base.y` into
`base` and drop the suffixed pair; pandas raises a KeyError when either
column is gone. -/
def combineStep (t : Table) (c : String) : Except String Table := do
  let base := strDropRight c 2
  if !(t.cols.contains c) || !(t.cols.contains (base ++ ".y")) then
    throw "KeyError"
  else
    let vals := t.rows.map (fun r =>
      match rget r c with
      | some v => some v
      | none => rget r (base ++ ".y"))
    pure ((t.setCol base vals).dropCols [c, base ++ ".y"])

/-- Fold of `combineStep` over the columns ending in ".x", the list being
computed before the loop starts, as the source does. -/
def combineXCols (t : Table) : Except String Table :=
  (t.cols.filter (fun c => strEndsWith c ".x")).foldlM combineStep t

/-! ### The four join engines (`_utils/join.py`) -/

/-- Structural mutation tail of `outer_join` in the node context
(lines 105-106 then `_apply_attributes`). -/
def outerNodeTail (g : Graph) (fin : Table × List Row) : Except String Graph :=
  applyAttributes .NODES (addVertices g fin.2.length) fin.1

/-- Structural mutation tail of `outer_join` in the edge context
(lines 107-109 then `_apply_attributes`). -/
def outerEdgeTail (g : Graph) (fin : Table × List Row) : Except String Graph :=
  addEdges g (fin.2.map endpointsOf) >>= fun g2 =>
    applyAttributes .EDGES g2 fin.1

/-- Structural mutation tail of `inner_join` in the node context
(lines 185-189). -/
def innerNodeTail (g : Graph) (toRemove : List Row) (fin : Table × List Row) :
    Except String Graph :=
  let g1 := if toRemove.isEmpty then g
    else deleteVertices g (toRemove.filterMap indexVal)
  let g2 := if fin.2.isEmpty then g1 else addVertices g1 fin.2.length
  applyAttributes .NODES g2 fin.1

/-- Structural mutation tail of `inner_join` in the edge context
(lines 190-199). -/
def innerEdgeTail (g : Graph) (toRemove : List Row) (fin : Table × List Row) :
    Except String Graph :=
  (if toRemove.isEmpty then pure g
    else deleteEdges g (toRemove.map endpointsOf)) >>= fun g1 =>
  (if fin.2.isEmpty then pure g1
    else addEdges g1 (fin.2.map endpointsOf)) >>= fun g2 =>
  applyAttributes .EDGES g2 fin.1

/-- Structural mutation tail of `left_join` in the node context
(lines 271-272). -/
def leftNodeTail (g : Graph) (fin : Table × List Row) : Except String Graph :=
  let g2 := if !fin.2.isEmpty then addVertices g fin.2.length else g
  applyAttributes .NODES g2 fin.1

/-- Structural mutation tail of `left_join` in the edge context
(lines 273-275). -/
def leftEdgeTail (g : Graph) (fin : Table × List Row) : Except String Graph :=
  (if !fin.2.isEmpty then addEdges g (fin.2.map endpointsOf)
    else pure g) >>= fun g2 =>
  applyAttributes .EDGES g2 fin.1

/-- Structural mutation tail of `right_join` in the node context
(lines 364-367): the vertex addition is unconditional. -/
def rightNodeTail (g : Graph) (toRemove : List Row) (fin : Table × List Row) :
    Except String Graph :=
  let g1 := if toRemove.isEmpty then g
    else deleteVertices g (toRemove.filterMap indexVal)
  applyAttributes .NODES (addVertices g1 fin.2.length) fin.1

/-- Structural mutation tail of `right_join` in the edge context
(lines 368-376): the edge addition is unconditional. -/
def rightEdgeTail (g : Graph) (toRemove : List Row) (fin : Table × List Row) :
    Except String Graph :=
  (if toRemove.isEmpty then pure g
    else deleteEdges g (toRemove.map endpointsOf)) >>= fun g1 =>
  addEdges g1 (fin.2.map endpointsOf) >>= fun g2 =>
  applyAttributes .EDGES g2 fin.1

/-- Merged-table computation of `outer_join` (lines 30-96): the
mirror-and-patch logic of the undirected edge branch, the plain outer merge
of the directed edge branch, and the node branch, each followed by the
explosion reclassification. -/
def outerMerged (active : ActiveType) (g : Graph) (y0 : Table)
    (onv : Option (List String)) (ls rs : String) : Except String Table :=
  let x := addIndexCol
    (if active == ActiveType.EDGES then getEdgeDf g else getVertexDf g)
  if active == ActiveType.EDGES then
    let y := augmentEdgesY g y0
    let onc := ["source", "target"]
    if !g.directed then
      let yWithMirror := y.append y.mirror
      let xm0 := pdMerge x yWithMirror onc ls rs true .left
      let xm1 := (explosionIdx xm0).foldl (explosionStepEdge x) xm0
      let xmm := (xm1.append xm1.mirror).dropCols ["_merge"]
      let ym := pdMerge y xmm onc ls rs true .left
      let newY0 : Table :=
        { ym with rows := ym.rows.filter (fun r => mergeIs r "left_only") }
      combineXCols newY0 >>= fun newY1 =>
      let newY2 := newY1.keepCols (fun c => y.cols.contains c)
      let newY3 := newY2.setCol "_merge"
        (List.replicate newY2.rows.length (some (Val.str "right_only")))
      pure (xm1.append newY3)
    else
      let xm0 := pdMerge x y onc ls rs true .outer
      pure ((explosionIdx xm0).foldl (explosionStepEdge x) xm0)
  else
    let onc := onv.getD (commonCols x.cols y0.cols)
    let xm0 := pdMerge x y0 onc ls rs true .outer
    pure ((explosionIdx xm0).foldl (explosionStepNode x) xm0)

/-- Shallow embedding of `outer_join`. -/
def outer_join (active : ActiveType) (g : Graph) (y0 : Table)
    (onv : Option (List String)) (ls rs : String) : Except String Graph :=
  outerMerged active g y0 onv ls rs >>= fun xm =>
  let fin := finishTable xm
  match active with
  | .NODES => outerNodeTail g fin
  | .EDGES => outerEdgeTail g fin

/-- Snapshot of the active context before the join-tracking column is
appended. -/
def baseTable (active : ActiveType) (g : Graph) : Table :=
  if active == ActiveType.EDGES then getEdgeDf g else getVertexDf g

/-- Active snapshot with the join-tracking column: the x frame of every
join. -/
def xTable (active : ActiveType) (g : Graph) : Table :=
  addIndexCol (baseTable active g)

/-- Effective caller table of the inner and left joins: identity-resolved
and, for an undirected edge join, doubled with its mirror. -/
def effectiveY (active : ActiveType) (g : Graph) (y0 : Table) : Table :=
  if active == ActiveType.EDGES then
    let y1 := augmentEdgesY g y0
    if !g.directed then y1.append y1.mirror else y1
  else y0

/-- Effective join keys of the inner and left joins. -/
def effectiveOn (active : ActiveType) (g : Graph) (y0 : Table)
    (onv : Option (List String)) : List String :=
  if active == ActiveType.EDGES then ["source", "target"]
  else onv.getD (commonCols (xTable active g).cols y0.cols)


/-- Hygiene of a caller or snapshot row: no entry usurps the internal
bookkeeping column names. -/
def rowHygieneB (r : Row) : Bool :=
  r.all (fun e => e.1 != "_index" && e.1 != "_merge")

/-- Hygiene of a join's inputs: neither the caller table nor the active
snapshot carries the internal bookkeeping names (the dispatcher already
rejects a caller "_index" column, and pandas itself refuses an indicator
merge on a frame with a "_merge" column). -/
def joinHygieneB (active : ActiveType) (g : Graph) (y0 : Table) : Bool :=
  !y0.cols.contains "_index" &&
    !(effectiveY active g y0).cols.contains "_index" &&
    !(effectiveY active g y0).cols.contains "_merge" &&
    (effectiveY active g y0).rows.all rowHygieneB &&
    (baseTable active g).rows.all rowHygieneB

/-- Shallow embedding of `inner_join`. -/
def inner_join (active : ActiveType) (g : Graph) (y0 : Table)
    (onv : Option (List String)) (ls rs : String) : Except String Graph := do
  let x := xTable active g
  let y := effectiveY active g y0
  let onc := effectiveOn active g y0 onv
  let xm0 := pdMerge x y onc ls rs true .inner
  let xm1 :=
    if active == ActiveType.EDGES then
      (explosionIdx xm0).foldl (explosionStepEdge x) xm0
    else
      (explosionIdx xm0).foldl (explosionStepNode x) xm0
  let toRemove := (mergeRows x y onc ls rs true .leftAnti).filter
    (fun r => mergeIs r "left_only")
  let fin := finishTable xm1
  match active with
  | .NODES => innerNodeTail g toRemove fin
  | .EDGES => innerEdgeTail g toRemove fin

/-- Shallow embedding of `left_join`. -/
def left_join (active : ActiveType) (g : Graph) (y0 : Table)
    (onv : Option (List String)) (ls rs : String) : Except String Graph := do
  let x := xTable active g
  let y := effectiveY active g y0
  let onc := effectiveOn active g y0 onv
  let xm0 := pdMerge x y onc ls rs true .left
  let xm1 :=
    if active == ActiveType.EDGES then
      (explosionIdx xm0).foldl (explosionStepEdge x) xm0
    else
      (explosionIdx xm0).foldl (explosionStepNode x) xm0
  let fin := finishTable xm1
  match active with
  | .NODES => leftNodeTail g fin
  | .EDGES => leftEdgeTail g fin

/-- Shallow embedding of `right_join`.  The caller table keeps its original
row labels through `sort_values`, and the explosion loop looks those labels
up with `y.loc`. -/
def right_join (active : ActiveType) (g : Graph) (y0 : Table)
    (onv : Option (List String)) (ls rs : String) : Except String Graph := do
  let x0 := addIndexCol
    (if active == ActiveType.EDGES then getEdgeDf g else getVertexDf g)
  if active == ActiveType.EDGES then do
    let y1 := (y0.setCol "source" ((y0.col "from").map (nameToIndex g))).setCol
      "target" ((y0.col "to").map (nameToIndex g))
    let ylab0 := y1.rows.enum
    let ylab1 := sortByKey
      (fun r => getEid g (rget r "source") (rget r "target")) ylab0
    if !(ylab1.all (fun p =>
        (rget p.2 "source").isSome && (rget p.2 "target").isSome)) then
      throw "Cannot perform edge join on non-existing nodes in the graph"
    let ylab := ylab1.map (fun p =>
      (p.1, rkeep p.2 (fun c => c != "from" && c != "to")))
    let y : Table :=
      { cols := y1.cols.filter (fun c => c != "from" && c != "to")
        rows := ylab.map Prod.snd }
    let onc := ["source", "target"]
    let x := if !g.directed then x0.append x0.mirror else x0
    let xm0 := pdMerge x y onc ls rs true .right
    let toRemove0 := pdMerge x y onc ls rs true .leftAnti
    let xm1 ← (explosionIdx xm0).foldlM (explosionStepRightEdge ylab x) xm0
    let toRemove1 :=
      if !g.directed then
        let ymir := y.mirror.keepCols (fun c => c == "source" || c == "target")
        pdMerge toRemove0 ymir onc ls rs false .leftAnti
      else toRemove0
    let toRemove := toRemove1.rows.filter (fun r => mergeIs r "left_only")
    rightEdgeTail g toRemove (finishTable xm1)
  else do
    let ylab0 := y0.rows.enum
    let ylab := sortByKey (fun r => cellNat (nameToIndex g (rget r "name"))) ylab0
    let y : Table := { cols := y0.cols, rows := ylab.map Prod.snd }
    let onc := onv.getD (commonCols x0.cols y0.cols)
    let xm0 := pdMerge x0 y onc ls rs true .right
    let toRemove0 := pdMerge x0 y onc ls rs true .leftAnti
    let xm1 ← (explosionIdx xm0).foldlM (explosionStepRightNode ylab x0) xm0
    let toRemove := toRemove0.rows.filter (fun r => mergeIs r "left_only")
    rightNodeTail g toRemove (finishTable xm1)

/-- The merged frame of a join call: the value of `x_merged` after the
explosion-reclassification loop (and, for the undirected outer join, the
mirror recombination), exactly as each join kind hands it to the shared
post-processing tail (`finishTable`) and so to the Attribute Reconciler.
Each branch restates the corresponding prefix of the join's source. -/
def mergedOf (active : ActiveType) (g : Graph) (y0 : Table)
    (onv : Option (List String)) (ls rs : String) :
    String → Except String Table
  | "outer" => outerMerged active g y0 onv ls rs
  | "inner" =>
      let x := xTable active g
      let y := effectiveY active g y0
      let onc := effectiveOn active g y0 onv
      let xm0 := pdMerge x y onc ls rs true .inner
      pure (if active == ActiveType.EDGES then
          (explosionIdx xm0).foldl (explosionStepEdge x) xm0
        else
          (explosionIdx xm0).foldl (explosionStepNode x) xm0)
  | "left" =>
      let x := xTable active g
      let y := effectiveY active g y0
      let onc := effectiveOn active g y0 onv
      let xm0 := pdMerge x y onc ls rs true .left
      pure (if active == ActiveType.EDGES then
          (explosionIdx xm0).foldl (explosionStepEdge x) xm0
        else
          (explosionIdx xm0).foldl (explosionStepNode x) xm0)
  | "right" =>
      let x0 := addIndexCol
        (if active == ActiveType.EDGES then getEdgeDf g else getVertexDf g)
      if active == ActiveType.EDGES then
        let y1 := (y0.setCol "source" ((y0.col "from").map (nameToIndex g))).setCol
          "target" ((y0.col "to").map (nameToIndex g))
        let ylab1 := sortByKey
          (fun r => getEid g (rget r "source") (rget r "target")) y1.rows.enum
        if !(ylab1.all (fun p =>
            (rget p.2 "source").isSome && (rget p.2 "target").isSome)) then
          Except.error "Cannot perform edge join on non-existing nodes in the graph"
        else
          let ylab := ylab1.map (fun p =>
            (p.1, rkeep p.2 (fun c => c != "from" && c != "to")))
          let y : Table :=
            { cols := y1.cols.filter (fun c => c != "from" && c != "to")
              rows := ylab.map Prod.snd }
          let x := if !g.directed then x0.append x0.mirror else x0
          let xm0 := pdMerge x y ["source", "target"] ls rs true .right
          (explosionIdx xm0).foldlM (explosionStepRightEdge ylab x) xm0
      else
        let ylab := sortByKey
          (fun r => cellNat (nameToIndex g (rget r "name"))) y0.rows.enum
        let y : Table := { cols := y0.cols, rows := ylab.map Prod.snd }
        let xm0 := pdMerge x0 y (onv.getD (commonCols x0.cols y0.cols))
          ls rs true .right
        (explosionIdx xm0).foldlM (explosionStepRightNode ylab x0) xm0
  | _ => Except.error "unsupported join type"

/-! ### Join Dispatcher and Tidygraph wrapper (`tidygraph.py`) -/

/-- Shallow embedding of `Tidygraph.join` (lines 245-272): reserved-column
and identity-column validation, then dispatch on the join kind, which the
caller passes as a string. -/
def tidyJoin (active : ActiveType) (g : Graph) (y : Table)
    (onv : Option (List String)) (ls rs : String) (how : String) :
    Except String Graph :=
  if y.cols.contains reservedJoinKeyword then
    Except.error "column name _index is reserved for internal use. Please rename the column."
  else if active == ActiveType.EDGES && !(y.cols.contains "from" && y.cols.contains "to") then
    Except.error "when joining to edges, dataframe must contain from and to columns."
  else if active == ActiveType.NODES && !(y.cols.contains "name") then
    Except.error "when joining to nodes, dataframe must contain name column."
  else
    match how with
    | "outer" => outer_join active g y onv ls rs
    | "inner" => inner_join active g y onv ls rs
    | "left" => left_join active g y onv ls rs
    | "right" => right_join active g y onv ls rs
    | _ => Except.error "unsupported join type"

/-- Mutable context selector (`activate.ActiveState`); the class-level
default of `_active` is `ActiveType.NODES`. -/
structure ActiveState where
  active : ActiveType
  deriving DecidableEq, Repr

/-- Fresh `ActiveState`, carrying the class default. -/
def ActiveState.new : ActiveState := ⟨ActiveType.NODES⟩

/-- The `Tidygraph` object: context selector plus graph. -/
structure Tidygraph where
  activeState : ActiveState
  graph : Graph
  deriving DecidableEq, Repr

/-- Shallow embedding of `Tidygraph.__init__`: requires named nodes and
installs a fresh `ActiveState`. -/
def Tidygraph.create (g : Graph) : Except String Tidygraph :=
  if (attrNamesOf g.vattrs).contains "name" then
    .ok { activeState := ActiveState.new, graph := g }
  else
    .error "Tidygraph is designed to work with named nodes."

/-- Shallow embedding of `Tidygraph.activate`. -/
def Tidygraph.activate (tg : Tidygraph) (what : ActiveType) : Tidygraph :=
  { tg with activeState := { active := what } }

/-- Shallow embedding of the `Tidygraph.join` method: the active context of
the instance selects the table being joined. -/
def Tidygraph.join (tg : Tidygraph) (y : Table) (onv : Option (List String))
    (how : String) (ls rs : String) : Except String Tidygraph :=
  (tidyJoin tg.activeState.active tg.graph y onv ls rs how).map
    (fun g2 => { tg with graph := g2 })

/-- Error observation on a fallible call. -/
def isErr {A : Type} (e : Except String A) : Bool :=
  match e with
  | .ok _ => false
  | .error _ => true

/-! ### Concrete fixtures used by witnesses and counterexamples -/

/-- Cell holding a string value. -/
def sv (x : String) : Cell := some (Val.str x)

/-- Undirected graph with vertices a, b, c (names only) and no edges. -/
def gABC : Graph :=
  { directed := false, nverts := 3, edges := []
    vattrs := [("name", [sv "a", sv "b", sv "c"])], eattrs := [] }

/-- Undirected graph with vertices a, b and the single edge (a, b). -/
def gAB1 : Graph :=
  { directed := false, nverts := 2, edges := [(0, 1)]
    vattrs := [("name", [sv "a", sv "b"])], eattrs := [] }

/-- Directed graph a -> b whose edge carries the attribute color = red. -/
def gABred : Graph :=
  { directed := true, nverts := 2, edges := [(0, 1)]
    vattrs := [("name", [sv "a", sv "b"])]
    eattrs := [("color", [sv "red"])] }

/-- Undirected single vertex a. -/
def gA : Graph :=
  { directed := false, nverts := 1, edges := []
    vattrs := [("name", [sv "a"])], eattrs := [] }

/-- Caller table with one name column. -/
def nameTable (names : List String) : Table :=
  { cols := ["name"], rows := names.map (fun n => [("name", sv n)]) }

/-- Caller table with from / to columns. -/
def edgeTable (ft : List (String × String)) : Table :=
  { cols := ["from", "to"]
    rows := ft.map (fun q => [("from", sv q.1), ("to", sv q.2)]) }

/-- Decidable form of the undirected storage invariant: every stored edge
has its endpoints in (min, max) order.  Every graph igraph builds is
normalized this way (see `addEdges`). -/
def edgesNormalizedB (g : Graph) : Bool :=
  g.edges.all (fun e => decide (e.1 ≤ e.2))

/-! ### Toolkit lemmas for decomposing the Except pipelines -/

theorem bindOk {A B : Type} {e : Except String A} {f : A → Except String B}
    {b : B} (h : e >>= f = Except.ok b) :
    ∃ a, e = Except.ok a ∧ f a = Except.ok b := by
  cases e with
  | ok a => exact ⟨a, rfl, h⟩
  | error s => exact absurd h (by simp [Bind.bind, Except.bind])

theorem throwBindErr {A B : Type} (s : String) (f : A → Except String B) :
    ((throw s : Except String A) >>= f) = Except.error s := rfl

theorem resolvePairs_norm {g : Graph} (hd : g.directed = false) :
    ∀ {ps : List (Cell × Cell)} {l : List (Nat × Nat)},
      resolvePairs g ps = Except.ok l → ∀ e ∈ l, e.1 ≤ e.2 := by
  intro ps
  induction ps with
  | nil =>
      intro l h e he
      cases h
      cases he
  | cons p ps ih =>
      intro l h e he
      unfold resolvePairs at h
      obtain ⟨a, _, h⟩ := bindOk h
      obtain ⟨b, _, h⟩ := bindOk h
      obtain ⟨rest, hrest, h⟩ := bindOk h
      rw [hd] at h
      simp only [Bool.false_eq_true, if_false] at h
      cases h
      cases he with
      | head => exact min_le_max
      | tail _ hm => exact ih hrest e hm

theorem addEdges_ok {g : Graph} {ps : List (Cell × Cell)} {g2 : Graph}
    (h : addEdges g ps = Except.ok g2) :
    ∃ l, resolvePairs g ps = Except.ok l ∧ g2.edges = g.edges ++ l ∧
      g2.directed = g.directed ∧ g2.nverts = g.nverts := by
  unfold addEdges at h
  obtain ⟨l, hl, h⟩ := bindOk h
  cases h
  exact ⟨l, hl, rfl, rfl, rfl⟩

theorem deleteEdges_ok {g : Graph} {ps : List (Cell × Cell)} {g2 : Graph}
    (h : deleteEdges g ps = Except.ok g2) :
    (∀ e ∈ g2.edges, e ∈ g.edges) ∧ g2.directed = g.directed ∧
      g2.nverts = g.nverts := by
  unfold deleteEdges at h
  obtain ⟨ids, _, h⟩ := bindOk h
  cases h
  refine ⟨?_, rfl, rfl⟩
  intro e he
  simp only [List.mem_map, List.mem_filter] at he
  obtain ⟨p, ⟨hp, _⟩, hpe⟩ := he
  have : p.2 ∈ g.edges.enum.map Prod.snd := List.mem_map_of_mem Prod.snd hp
  rw [List.enum_map_snd] at this
  exact hpe ▸ this

theorem applyAttributes_ok {a : ActiveType} {g : Graph} {d : Table}
    {g2 : Graph} (h : applyAttributes a g d = Except.ok g2) :
    g2.edges = g.edges ∧ g2.directed = g.directed ∧ g2.nverts = g.nverts := by
  unfold applyAttributes at h
  obtain ⟨st, _, h⟩ := bindOk h
  cases h
  cases a <;> exact ⟨rfl, rfl, rfl⟩

theorem normalized_append {g : Graph} {l : List (Nat × Nat)}
    (h1 : edgesNormalizedB g = true) (h2 : ∀ e ∈ l, e.1 ≤ e.2)
    {es : List (Nat × Nat)} (hes : es = g.edges ++ l) :
    ∀ e ∈ es, e.1 ≤ e.2 := by
  subst hes
  intro e he
  rcases List.mem_append.mp he with hm | hm
  · simpa using List.all_eq_true.mp h1 e hm
  · exact h2 e hm

theorem normalizedB_of_subset {g1 g : Graph} (hn : edgesNormalizedB g = true)
    (hsub : ∀ e ∈ g1.edges, e ∈ g.edges) : edgesNormalizedB g1 = true := by
  rw [edgesNormalizedB, List.all_eq_true]
  intro e he
  exact List.all_eq_true.mp hn e (hsub e he)

theorem addEdges_norm {g gm : Graph} {ps : List (Cell × Cell)}
    (hd : g.directed = false) (hn : edgesNormalizedB g = true)
    (h : addEdges g ps = Except.ok gm) :
    edgesNormalizedB gm = true ∧ gm.directed = false := by
  obtain ⟨l, hres, hedges, hdir, _⟩ := addEdges_ok h
  constructor
  · rw [edgesNormalizedB, List.all_eq_true]
    intro e he
    exact decide_eq_true
      (normalized_append hn (resolvePairs_norm hd hres) hedges e he)
  · rw [hdir, hd]

theorem outerEdgeTail_norm {g g2 : Graph} {fin : Table × List Row}
    (hd : g.directed = false) (hn : edgesNormalizedB g = true)
    (h : outerEdgeTail g fin = Except.ok g2) : edgesNormalizedB g2 = true := by
  unfold outerEdgeTail at h
  obtain ⟨gm, hadd, h⟩ := bindOk h
  have hgm := addEdges_norm hd hn hadd
  rw [edgesNormalizedB, (applyAttributes_ok h).1]
  exact hgm.1

theorem leftEdgeTail_norm {g g2 : Graph} {fin : Table × List Row}
    (hd : g.directed = false) (hn : edgesNormalizedB g = true)
    (h : leftEdgeTail g fin = Except.ok g2) : edgesNormalizedB g2 = true := by
  unfold leftEdgeTail at h
  obtain ⟨gm, hadd, h⟩ := bindOk h
  rw [edgesNormalizedB, (applyAttributes_ok h).1]
  split at hadd
  · exact (addEdges_norm hd hn hadd).1
  · cases hadd
    exact hn

theorem innerEdgeTail_norm {g g2 : Graph} {toRemove : List Row}
    {fin : Table × List Row}
    (hd : g.directed = false) (hn : edgesNormalizedB g = true)
    (h : innerEdgeTail g toRemove fin = Except.ok g2) :
    edgesNormalizedB g2 = true := by
  unfold innerEdgeTail at h
  obtain ⟨g1, hg1, h⟩ := bindOk h
  have h1 : edgesNormalizedB g1 = true ∧ g1.directed = false := by
    split at hg1
    · cases hg1
      exact ⟨hn, hd⟩
    · obtain ⟨hsub, hdir, _⟩ := deleteEdges_ok hg1
      exact ⟨normalizedB_of_subset hn hsub, hdir.trans hd⟩
  obtain ⟨gm, hgm, h⟩ := bindOk h
  rw [edgesNormalizedB, (applyAttributes_ok h).1]
  split at hgm
  · cases hgm
    exact h1.1
  · exact (addEdges_norm h1.2 h1.1 hgm).1

theorem rightEdgeTail_norm {g g2 : Graph} {toRemove : List Row}
    {fin : Table × List Row}
    (hd : g.directed = false) (hn : edgesNormalizedB g = true)
    (h : rightEdgeTail g toRemove fin = Except.ok g2) :
    edgesNormalizedB g2 = true := by
  unfold rightEdgeTail at h
  obtain ⟨g1, hg1, h⟩ := bindOk h
  have h1 : edgesNormalizedB g1 = true ∧ g1.directed = false := by
    split at hg1
    · cases hg1
      exact ⟨hn, hd⟩
    · obtain ⟨hsub, hdir, _⟩ := deleteEdges_ok hg1
      exact ⟨normalizedB_of_subset hn hsub, hdir.trans hd⟩
  obtain ⟨gm, hadd, h⟩ := bindOk h
  rw [edgesNormalizedB, (applyAttributes_ok h).1]
  exact (addEdges_norm h1.2 h1.1 hadd).1

theorem left_join_edges_norm {g : Graph} {y : Table} {onv : Option (List String)}
    {ls rs : String} {g2 : Graph}
    (hd : g.directed = false) (hn : edgesNormalizedB g = true)
    (h : left_join ActiveType.EDGES g y onv ls rs = Except.ok g2) :
    edgesNormalizedB g2 = true :=
  leftEdgeTail_norm hd hn h

theorem inner_join_edges_norm {g : Graph} {y : Table} {onv : Option (List String)}
    {ls rs : String} {g2 : Graph}
    (hd : g.directed = false) (hn : edgesNormalizedB g = true)
    (h : inner_join ActiveType.EDGES g y onv ls rs = Except.ok g2) :
    edgesNormalizedB g2 = true :=
  innerEdgeTail_norm hd hn h

theorem outer_join_edges_norm {g : Graph} {y : Table} {onv : Option (List String)}
    {ls rs : String} {g2 : Graph}
    (hd : g.directed = false) (hn : edgesNormalizedB g = true)
    (h : outer_join ActiveType.EDGES g y onv ls rs = Except.ok g2) :
    edgesNormalizedB g2 = true := by
  unfold outer_join at h
  obtain ⟨xm, _, h⟩ := bindOk h
  exact outerEdgeTail_norm hd hn h

theorem right_join_edges_norm {g : Graph} {y : Table} {onv : Option (List String)}
    {ls rs : String} {g2 : Graph}
    (hd : g.directed = false) (hn : edgesNormalizedB g = true)
    (h : right_join ActiveType.EDGES g y onv ls rs = Except.ok g2) :
    edgesNormalizedB g2 = true := by
  unfold right_join at h
  rw [hd] at h
  simp only [beq_self_eq_true, if_true, Bool.not_false, eq_self_iff_true] at h
  split at h
  case isTrue =>
    simp [Bind.bind, Except.bind] at h
  case isFalse =>
    obtain ⟨u, hu, h⟩ := bindOk h
    obtain ⟨xm1, hx, h⟩ := bindOk h
    exact rightEdgeTail_norm hd hn h

theorem tidyJoin_ok_cases {active : ActiveType} {g : Graph} {y : Table}
    {onv : Option (List String)} {ls rs how : String} {g2 : Graph}
    (h : tidyJoin active g y onv ls rs how = Except.ok g2) :
    outer_join active g y onv ls rs = Except.ok g2 ∨
      inner_join active g y onv ls rs = Except.ok g2 ∨
      left_join active g y onv ls rs = Except.ok g2 ∨
      right_join active g y onv ls rs = Except.ok g2 := by
  unfold tidyJoin at h
  split at h
  · cases h
  split at h
  · cases h
  split at h
  · cases h
  split at h
  · exact Or.inl h
  · exact Or.inr (Or.inl h)
  · exact Or.inr (Or.inr (Or.inl h))
  · exact Or.inr (Or.inr (Or.inr h))
  · cases h

/-! ### C5 and its dependencies are above; the claim theorems follow -/

theorem attrNamesOf_setAttr (s : AttrStore) (c : String) (vals : List Cell) :
    ∀ c2, c2 ∈ attrNamesOf (setAttr s c vals) ↔ c2 ∈ attrNamesOf s ∨ c2 = c := by
  intro c2
  unfold setAttr
  split
  case isTrue hp =>
    have hnames : attrNamesOf (s.map (fun e => if e.1 == c then (c, vals) else e)) =
        attrNamesOf s := by
      unfold attrNamesOf
      rw [List.map_map]
      apply List.map_congr_left
      intro e _
      show (if (e.1 == c) = true then (c, vals) else e).1 = e.1
      by_cases he : (e.1 == c) = true
      · rw [if_pos he]
        exact (eq_of_beq he).symm
      · rw [if_neg he]
    rw [hnames]
    constructor
    · exact Or.inl
    · rintro (hm | rfl)
      · exact hm
      · obtain ⟨e, he, hec⟩ := List.any_eq_true.mp hp
        exact (eq_of_beq hec) ▸ List.mem_map_of_mem Prod.fst he
  case isFalse hp =>
    unfold attrNamesOf
    simp

theorem applyAttributes_attrs {a : ActiveType} {g : Graph} {d : Table}
    {g2 : Graph} (h : applyAttributes a g d = Except.ok g2) :
    ∀ c, c ∈ attrNames g2 a ↔
      c ∈ d.cols ∧ (reservedFor a).contains c = false := by
  unfold applyAttributes at h
  obtain ⟨st, hst, h⟩ := bindOk h
  cases h
  have hput : attrNames (putStore g a st) a = attrNamesOf st := by
    cases a <;> rfl
  rw [hput]
  suffices hgen : ∀ (cols : List String) (s0 s1 : AttrStore),
      cols.foldlM (fun (s : AttrStore) c =>
        if (reservedFor a).contains c then pure s
        else
          if (d.col c).length == contextCount g a then pure (setAttr s c (d.col c))
          else Except.error "attribute assignment length mismatch") s0 = Except.ok s1 →
      ∀ c, c ∈ attrNamesOf s1 ↔
        c ∈ attrNamesOf s0 ∨ (c ∈ cols ∧ (reservedFor a).contains c = false) by
    intro c
    have := hgen d.cols [] st hst c
    simpa [attrNamesOf] using this
  intro cols
  induction cols with
  | nil =>
      intro s0 s1 h c
      cases h
      simp
  | cons c0 cs ih =>
      intro s0 s1 h c
      rw [List.foldlM_cons] at h
      obtain ⟨s0b, hs0b, h⟩ := bindOk h
      by_cases hres : (reservedFor a).contains c0 = true
      · rw [if_pos hres] at hs0b
        cases hs0b
        rw [ih s0 s1 h c]
        constructor
        · rintro (hm | ⟨hcs, hnr⟩)
          · exact Or.inl hm
          · exact Or.inr ⟨List.mem_cons_of_mem _ hcs, hnr⟩
        · rintro (hm | ⟨hcs, hnr⟩)
          · exact Or.inl hm
          · rcases List.mem_cons.mp hcs with rfl | hcs2
            · exact absurd hres (by rw [hnr]; exact Bool.false_ne_true)
            · exact Or.inr ⟨hcs2, hnr⟩
      · rw [if_neg hres] at hs0b
        split at hs0b
        · cases hs0b
          rw [ih _ s1 h c, attrNamesOf_setAttr]
          rw [Bool.not_eq_true] at hres
          constructor
          · rintro ((hm | rfl) | ⟨hcs, hnr⟩)
            · exact Or.inl hm
            · exact Or.inr ⟨List.mem_cons_self _ _, hres⟩
            · exact Or.inr ⟨List.mem_cons_of_mem _ hcs, hnr⟩
          · rintro (hm | ⟨hcs, hnr⟩)
            · exact Or.inl (Or.inl hm)
            · rcases List.mem_cons.mp hcs with rfl | hcs2
              · exact Or.inl (Or.inr rfl)
              · exact Or.inr ⟨hcs2, hnr⟩
        · cases hs0b

theorem outerEdgeTail_app {g g2 : Graph} {fin : Table × List Row}
    (h : outerEdgeTail g fin = Except.ok g2) :
    ∃ gm, applyAttributes ActiveType.EDGES gm fin.1 = Except.ok g2 := by
  unfold outerEdgeTail at h
  obtain ⟨gm, _, h⟩ := bindOk h
  exact ⟨gm, h⟩

theorem innerEdgeTail_app {g g2 : Graph} {toRemove : List Row}
    {fin : Table × List Row} (h : innerEdgeTail g toRemove fin = Except.ok g2) :
    ∃ gm, applyAttributes ActiveType.EDGES gm fin.1 = Except.ok g2 := by
  unfold innerEdgeTail at h
  obtain ⟨g1, _, h⟩ := bindOk h
  obtain ⟨gm, _, h⟩ := bindOk h
  exact ⟨gm, h⟩

theorem leftEdgeTail_app {g g2 : Graph} {fin : Table × List Row}
    (h : leftEdgeTail g fin = Except.ok g2) :
    ∃ gm, applyAttributes ActiveType.EDGES gm fin.1 = Except.ok g2 := by
  unfold leftEdgeTail at h
  obtain ⟨gm, _, h⟩ := bindOk h
  exact ⟨gm, h⟩

theorem rightEdgeTail_app {g g2 : Graph} {toRemove : List Row}
    {fin : Table × List Row} (h : rightEdgeTail g toRemove fin = Except.ok g2) :
    ∃ gm, applyAttributes ActiveType.EDGES gm fin.1 = Except.ok g2 := by
  unfold rightEdgeTail at h
  obtain ⟨g1, _, h⟩ := bindOk h
  obtain ⟨gm, _, h⟩ := bindOk h
  exact ⟨gm, h⟩

theorem join_apply_shape {active : ActiveType} {g : Graph} {y : Table}
    {onv : Option (List String)} {ls rs : String} {g2 : Graph}
    (h : outer_join active g y onv ls rs = Except.ok g2 ∨
      inner_join active g y onv ls rs = Except.ok g2 ∨
      left_join active g y onv ls rs = Except.ok g2 ∨
      right_join active g y onv ls rs = Except.ok g2) :
    ∃ gm xm, applyAttributes active gm (finishTable xm).1 = Except.ok g2 := by
  rcases h with h | h | h | h
  · unfold outer_join at h
    obtain ⟨xm, _, h⟩ := bindOk h
    cases active with
    | NODES => exact ⟨_, xm, h⟩
    | EDGES =>
        obtain ⟨gm, ha⟩ := outerEdgeTail_app h
        exact ⟨gm, xm, ha⟩
  · cases active with
    | NODES => exact ⟨_, _, h⟩
    | EDGES =>
        obtain ⟨gm, ha⟩ := innerEdgeTail_app h
        exact ⟨gm, _, ha⟩
  · cases active with
    | NODES => exact ⟨_, _, h⟩
    | EDGES =>
        obtain ⟨gm, ha⟩ := leftEdgeTail_app h
        exact ⟨gm, _, ha⟩
  · cases active with
    | NODES =>
        unfold right_join at h
        obtain ⟨xm1, _, h⟩ := bindOk h
        exact ⟨_, xm1, h⟩
    | EDGES =>
        unfold right_join at h
        simp only [beq_self_eq_true, if_true, eq_self_iff_true] at h
        split at h
        case isTrue => simp [Bind.bind, Except.bind] at h
        case isFalse =>
          obtain ⟨u, _, h⟩ := bindOk h
          obtain ⟨xm1, _, h⟩ := bindOk h
          obtain ⟨gm, ha⟩ := rightEdgeTail_app h
          exact ⟨gm, xm1, ha⟩

theorem finishTable_cols (xm : Table) :
    (finishTable xm).1.cols =
      (xm.cols.filter (fun c => xm.rows.any (fun r => (rget r c).isSome))).filter
        (fun c => !strStartsWith c "_") := rfl

theorem tidyJoin_ok_how {active : ActiveType} {g : Graph} {y : Table}
    {onv : Option (List String)} {ls rs how : String} {g2 : Graph}
    (h : tidyJoin active g y onv ls rs how = Except.ok g2) :
    (how = "outer" ∧ outer_join active g y onv ls rs = Except.ok g2) ∨
      (how = "inner" ∧ inner_join active g y onv ls rs = Except.ok g2) ∨
      (how = "left" ∧ left_join active g y onv ls rs = Except.ok g2) ∨
      (how = "right" ∧ right_join active g y onv ls rs = Except.ok g2) := by
  unfold tidyJoin at h
  split at h
  · cases h
  split at h
  · cases h
  split at h
  · cases h
  split at h
  · exact Or.inl ⟨rfl, h⟩
  · exact Or.inr (Or.inl ⟨rfl, h⟩)
  · exact Or.inr (Or.inr (Or.inl ⟨rfl, h⟩))
  · exact Or.inr (Or.inr (Or.inr ⟨rfl, h⟩))
  · cases h

theorem join_apply_merged {active : ActiveType} {g : Graph} {y : Table}
    {onv : Option (List String)} {ls rs how : String} {g2 : Graph}
    (h : tidyJoin active g y onv ls rs how = Except.ok g2) :
    ∃ gm xm, mergedOf active g y onv ls rs how = Except.ok xm ∧
      applyAttributes active gm (finishTable xm).1 = Except.ok g2 := by
  rcases tidyJoin_ok_how h with ⟨rfl, hj⟩ | ⟨rfl, hj⟩ | ⟨rfl, hj⟩ | ⟨rfl, hj⟩
  · unfold outer_join at hj
    obtain ⟨xm, hm, hj2⟩ := bindOk hj
    cases active with
    | NODES => exact ⟨_, xm, hm, hj2⟩
    | EDGES =>
        obtain ⟨gm, ha⟩ := outerEdgeTail_app hj2
        exact ⟨gm, xm, hm, ha⟩
  · cases active with
    | NODES => exact ⟨_, _, rfl, hj⟩
    | EDGES =>
        obtain ⟨gm, ha⟩ := innerEdgeTail_app hj
        exact ⟨gm, _, rfl, ha⟩
  · cases active with
    | NODES => exact ⟨_, _, rfl, hj⟩
    | EDGES =>
        obtain ⟨gm, ha⟩ := leftEdgeTail_app hj
        exact ⟨gm, _, rfl, ha⟩
  · cases active with
    | NODES =>
        unfold right_join at hj
        obtain ⟨xm1, hm, hj2⟩ := bindOk hj
        exact ⟨_, xm1, hm, hj2⟩
    | EDGES =>
        unfold right_join at hj
        simp only [beq_self_eq_true, if_true, eq_self_iff_true] at hj
        split at hj
        case isTrue => simp [Bind.bind, Except.bind] at hj
        case isFalse hcond =>
          obtain ⟨u, hu, hj2⟩ := bindOk hj
          obtain ⟨xm1, hm, hj3⟩ := bindOk hj2
          obtain ⟨gm, ha⟩ := rightEdgeTail_app hj3
          refine ⟨gm, xm1, ?_, ha⟩
          simp only [mergedOf]
          simp only [beq_self_eq_true, if_true, eq_self_iff_true]
          rw [if_neg hcond]
          exact hm

theorem rget_rkeep (r : Row) (p : String → Bool) (c : String) :
    rget (rkeep r p) c = if p c then rget r c else none := by
  induction r with
  | nil =>
      unfold rkeep rget
      simp
  | cons e t ih =>
      unfold rkeep at *
      unfold rget at *
      by_cases hp : p e.1
      · rw [List.filter_cons_of_pos (by simpa using hp)]
        by_cases hc : (e.1 == c) = true
        · have : p c = true := (eq_of_beq hc) ▸ hp
          simp only [List.find?, hc, this, if_true]
        · simp only [List.find?, hc, Bool.false_eq_true, if_false] at *
          exact ih
      · rw [List.filter_cons_of_neg (by simpa using hp)]
        by_cases hc : (e.1 == c) = true
        · have hpc : p c = false := by
            rw [← eq_of_beq hc]
            simpa using hp
          rw [ih, hpc, if_neg (Bool.false_ne_true)]
          simp only [List.find?, hc]
          rfl
        · simp only [List.find?, hc, Bool.false_eq_true, if_false]
          exact ih

theorem rget_append (r1 r2 : Row) (c : String) :
    rget (r1 ++ r2) c =
      if r1.any (fun e => e.1 == c) then rget r1 c else rget r2 c := by
  induction r1 with
  | nil => simp [rget]
  | cons e t ih =>
      unfold rget at *
      by_cases hc : (e.1 == c) = true
      · simp only [List.cons_append, List.find?, hc, List.any_cons, Bool.true_or, if_true]
      · simp only [List.cons_append, List.find?, hc, List.any_cons, Bool.false_or,
          Bool.false_eq_true, if_false]
        exact ih



theorem isPrefixOf_self_append (l m : List Char) : l.isPrefixOf (l ++ m) = true := by
  induction l with
  | nil => simp [List.isPrefixOf]
  | cons a t ih => simp [List.isPrefixOf, ih]

theorem strEndsWith_append (n suf : String) : strEndsWith (n ++ suf) suf = true := by
  unfold strEndsWith
  show suf.data.isSuffixOf (n ++ suf).data = true
  have hd : (n ++ suf).data = n.data ++ suf.data := rfl
  rw [hd]
  unfold List.isSuffixOf
  rw [List.reverse_append]
  exact isPrefixOf_self_append _ _

theorem append_suffix_ne {n suf t : String} (ht : strEndsWith t suf = false) :
    n ++ suf ≠ t := by
  intro h
  rw [← h, strEndsWith_append] at ht
  cases ht

theorem lname_ne_bookkeeping {onc ycols : List String} {n c : String}
    (hn : n ≠ c) (hx : strEndsWith c ".x" = false) :
    lname onc ycols ".x" n ≠ c := by
  unfold lname
  split
  · exact hn
  split
  · exact append_suffix_ne hx
  · exact hn

theorem rname_ne_bookkeeping {xcols : List String} {n c : String}
    (hn : n ≠ c) (hy : strEndsWith c ".y" = false) :
    rname xcols ".y" n ≠ c := by
  unfold rname
  split
  · exact append_suffix_ne hy
  · exact hn

theorem any_mkLeft_false {onc ycols : List String} {rx : Row} {c : String}
    (hno : ∀ e ∈ rx, lname onc ycols ".x" e.1 ≠ c) :
    (mkLeft onc ycols ".x" rx).any (fun e => e.1 == c) = false := by
  unfold mkLeft
  rw [List.any_map]
  rw [List.any_eq_false]
  intro e he
  simpa using hno e he

theorem any_mkRight_false {onc xcols : List String} {ry : Row} {c : String}
    (hno : ∀ e ∈ ry, rname xcols ".y" e.1 ≠ c) :
    (mkRight onc xcols ".y" ry).any (fun e => e.1 == c) = false := by
  unfold mkRight
  rw [List.any_map]
  rw [List.any_eq_false]
  intro e he
  simpa using hno e (List.mem_of_mem_filter he)

theorem rget_rowBoth_merge {onc xcols ycols : List String} {rx ry : Row}
    (hx : ∀ e ∈ rx, lname onc ycols ".x" e.1 ≠ "_merge")
    (hy : ∀ e ∈ ry, rname xcols ".y" e.1 ≠ "_merge") :
    rget (rowBoth onc xcols ycols ".x" ".y" true rx ry) "_merge" =
      some (Val.str "both") := by
  unfold rowBoth
  rw [List.append_assoc, rget_append, if_neg (by rw [any_mkLeft_false hx]; exact Bool.false_ne_true),
    rget_append, if_neg (by rw [any_mkRight_false hy]; exact Bool.false_ne_true)]
  rfl

theorem rget_rowLeftOnly_merge {onc xcols ycols : List String} {rx : Row}
    (hx : ∀ e ∈ rx, lname onc ycols ".x" e.1 ≠ "_merge")
    (hyc : "_merge" ∉ ycols) :
    rget (rowLeftOnly onc xcols ycols ".x" ".y" true rx) "_merge" =
      some (Val.str "left_only") := by
  unfold rowLeftOnly
  have hmid : ((ycols.filter (fun c => !onc.contains c)).map
      (fun c => (rname xcols ".y" c, (none : Cell)))).any
        (fun e => e.1 == "_merge") = false := by
    rw [List.any_eq_false]
    intro e he
    obtain ⟨c, hc, rfl⟩ := List.mem_map.mp he
    have hcm : c ≠ "_merge" := fun hh => hyc (hh ▸ List.mem_of_mem_filter hc)
    simpa using rname_ne_bookkeeping hcm (by rfl)
  rw [List.append_assoc, rget_append, if_neg (by rw [any_mkLeft_false hx]; exact Bool.false_ne_true),
    rget_append, if_neg (by rw [hmid]; exact Bool.false_ne_true)]
  rfl



theorem rget_cons (a : String × Cell) (t : Row) (c : String) :
    rget (a :: t) c = if (a.1 == c) = true then a.2 else rget t c := by
  unfold rget
  by_cases h : (a.1 == c) = true <;> simp [List.find?, h]

theorem lname_eq_index {onc ycols : List String} (hyc : "_index" ∉ ycols) :
    lname onc ycols ".x" "_index" = "_index" := by
  unfold lname
  split
  · rfl
  rw [if_neg (fun hm => hyc (List.mem_of_elem_eq_true hm))]

theorem rget_mkLeft_index {onc ycols : List String} {rx : Row}
    (hyc : "_index" ∉ ycols) :
    rget (mkLeft onc ycols ".x" rx) "_index" = rget rx "_index" := by
  induction rx with
  | nil => rfl
  | cons e t ih =>
      show rget ((lname onc ycols ".x" e.1, e.2) :: mkLeft onc ycols ".x" t)
          "_index" = rget (e :: t) "_index"
      rw [rget_cons, rget_cons]
      by_cases hc : (e.1 == "_index") = true
      · rw [if_pos hc, if_pos]
        show (lname onc ycols ".x" e.1 == "_index") = true
        rw [eq_of_beq hc, lname_eq_index hyc]
        exact beq_self_eq_true _
      · have hne : lname onc ycols ".x" e.1 ≠ "_index" :=
          lname_ne_bookkeeping (fun hh => hc (by rw [hh]; exact beq_self_eq_true _)) (by rfl)
        rw [if_neg hc, if_neg (fun hb => hne (eq_of_beq hb)), ih]

theorem rget_rowBoth_index {onc xcols ycols : List String} {rx ry : Row}
    (hyc : "_index" ∉ ycols) (hhas : rx.any (fun e => e.1 == "_index") = true) :
    rget (rowBoth onc xcols ycols ".x" ".y" true rx ry) "_index" =
      rget rx "_index" := by
  unfold rowBoth
  rw [List.append_assoc, rget_append, if_pos ?hl]
  · exact rget_mkLeft_index hyc
  case hl =>
    unfold mkLeft
    rw [List.any_map]
    rw [List.any_eq_true] at hhas ⊢
    obtain ⟨e, he, hbe⟩ := hhas
    refine ⟨e, he, ?_⟩
    show (lname onc ycols ".x" e.1 == "_index") = true
    rw [eq_of_beq hbe, lname_eq_index hyc]
    exact beq_self_eq_true _




theorem filterMap_all_some {α β : Type} (l : List α) (f : α → Option β) (b : β)
    (h : ∀ a ∈ l, f a = some b) : l.filterMap f = List.replicate l.length b := by
  induction l with
  | nil => rfl
  | cons a t ih =>
      rw [List.filterMap_cons, h a (List.mem_cons_self a t)]
      rw [List.length_cons, List.replicate_succ]
      rw [ih (fun x hx => h x (List.mem_cons_of_mem a hx))]

theorem filterMap_all_none {α β : Type} (l : List α) (f : α → Option β)
    (h : ∀ a ∈ l, f a = none) : l.filterMap f = [] := by
  induction l with
  | nil => rfl
  | cons a t ih =>
      rw [List.filterMap_cons, h a (List.mem_cons_self a t)]
      exact ih (fun x hx => h x (List.mem_cons_of_mem a hx))

theorem filterMap_flatMap {α β γ : Type} (l : List α) (g : α → List β)
    (f : β → Option γ) :
    (l.flatMap g).filterMap f = l.flatMap (fun a => (g a).filterMap f) := by
  induction l with
  | nil => rfl
  | cons a t ih => rw [List.flatMap_cons, List.filterMap_append, ih, List.flatMap_cons]

theorem count_flatMap_replicate (l : List (Nat × Row)) (m : Nat × Row → Nat)
    (hnd : (l.map Prod.fst).Nodup) (hm : ∀ p ∈ l, m p ≤ 1) (i : Nat) :
    ((l.flatMap (fun p => List.replicate (m p) p.1)).count i) ≤ 1 := by
  induction l with
  | nil => simp
  | cons p t ih =>
      rw [List.flatMap_cons, List.count_append]
      rw [List.map_cons, List.nodup_cons] at hnd
      by_cases hip : i = p.1
      · have hrest : ((t.flatMap (fun q => List.replicate (m q) q.1)).count i) = 0 := by
          rw [List.count_eq_zero]
          intro hmem
          obtain ⟨q, hq, hiq⟩ := List.mem_flatMap.mp hmem
          have : i = q.1 := List.eq_of_mem_replicate hiq
          exact hnd.1 (hip ▸ this ▸ List.mem_map_of_mem Prod.fst hq)
        rw [hrest]
        have hlen : (List.replicate (m p) p.1).count i ≤ m p := by
          have := List.count_le_length i (List.replicate (m p) p.1)
          rwa [List.length_replicate] at this
        have := hm p (List.mem_cons_self p t)
        omega
      · have hz : (List.replicate (m p) p.1).count i = 0 := by
          rw [List.count_eq_zero]
          intro hmem
          exact hip (List.eq_of_mem_replicate hmem)
        rw [hz]
        have := ih hnd.2 (fun q hq => hm q (List.mem_cons_of_mem p hq))
        omega



theorem map_filterMap_const {l : List Row} {f : Row → Row} {g : Row → Option Nat}
    (i : Nat) (h : ∀ a ∈ l, g (f a) = some i) :
    (l.map f).filterMap g = List.replicate l.length i := by
  induction l with
  | nil => rfl
  | cons a t ih =>
      rw [List.map_cons, List.filterMap_cons, h a (List.mem_cons_self a t),
        List.length_cons, List.replicate_succ]
      rw [ih (fun x hx => h x (List.mem_cons_of_mem a hx))]

theorem leftGen_vals {x y : Table} {onc : List String} {rx : Row} {i : Nat}
    (hrxidx : rget rx "_index" = some (Val.nat i))
    (hrxhas : rx.any (fun e => e.1 == "_index") = true)
    (hxm : ∀ e ∈ rx, lname onc y.cols ".x" e.1 ≠ "_merge")
    (hym : ∀ ry ∈ y.rows, ∀ e ∈ ry, rname x.cols ".y" e.1 ≠ "_merge")
    (hycI : "_index" ∉ y.cols) (hycM : "_merge" ∉ y.cols) :
    ((match y.rows.filter (fun ry => keyOf onc ry == keyOf onc rx) with
      | [] => [rowLeftOnly onc x.cols y.cols ".x" ".y" true rx]
      | ms => ms.map (rowBoth onc x.cols y.cols ".x" ".y" true rx)).filterMap
        (fun r => if mergeIs r "both" then indexVal r else none))
      = List.replicate
          (y.rows.filter (fun ry => keyOf onc ry == keyOf onc rx)).length i := by
  have hstep : ∀ ry ∈ y.rows,
      (if mergeIs (rowBoth onc x.cols y.cols ".x" ".y" true rx ry) "both" then
        indexVal (rowBoth onc x.cols y.cols ".x" ".y" true rx ry) else none) =
        some i := by
    intro ry hry
    have hm := rget_rowBoth_merge hxm (hym ry hry)
    have hi := @rget_rowBoth_index onc x.cols y.cols rx ry hycI hrxhas
    rw [if_pos (by rw [mergeIs, hm]; rfl)]
    rw [indexVal, hi, hrxidx]
    rfl
  cases hms : y.rows.filter (fun ry => keyOf onc ry == keyOf onc rx) with
  | nil =>
      have hlo := @rget_rowLeftOnly_merge onc x.cols y.cols rx hxm hycM
      rw [List.filterMap_cons]
      rw [if_neg (by rw [mergeIs, hlo]; simp)]
      rfl
  | cons m ms =>
      exact map_filterMap_const i
        (fun a ha => hstep a (List.mem_of_mem_filter (hms ▸ ha)))

theorem mem_leftMerge {x y : Table} {onc : List String} {r : Row}
    (hr : r ∈ mergeRows x y onc ".x" ".y" true .left) :
    (∃ rx ∈ x.rows, ∃ ry ∈ y.rows,
        r = rowBoth onc x.cols y.cols ".x" ".y" true rx ry) ∨
      (∃ rx ∈ x.rows, r = rowLeftOnly onc x.cols y.cols ".x" ".y" true rx) := by
  unfold mergeRows at hr
  obtain ⟨rx, hrx, hmem⟩ := List.mem_flatMap.mp hr
  cases hms : y.rows.filter (fun ry => keyOf onc ry == keyOf onc rx) with
  | nil =>
      rw [hms] at hmem
      rcases List.mem_singleton.mp hmem with rfl
      exact Or.inr ⟨rx, hrx, rfl⟩
  | cons m ms =>
      rw [hms] at hmem
      obtain ⟨ry, hry, rfl⟩ := List.mem_map.mp hmem
      exact Or.inl ⟨rx, hrx, ry, List.mem_of_mem_filter (hms ▸ hry), rfl⟩



theorem flatMap_map_eq {α β γ : Type} (l : List α) (f : α → β) (g : β → List γ) :
    (l.map f).flatMap g = l.flatMap (fun a => g (f a)) := by
  induction l with
  | nil => rfl
  | cons a t ih => rw [List.map_cons, List.flatMap_cons, List.flatMap_cons, ih]

theorem flatMap_congr_mem {α β : Type} {l : List α} {f g : α → List β}
    (h : ∀ a ∈ l, f a = g a) : l.flatMap f = l.flatMap g := by
  induction l with
  | nil => rfl
  | cons a t ih =>
      rw [List.flatMap_cons, List.flatMap_cons, h a (List.mem_cons_self a t)]
      rw [ih (fun x hx => h x (List.mem_cons_of_mem a hx))]

theorem snd_mem_of_mem_enum {α : Type} {l : List α} {p : Nat × α}
    (h : p ∈ l.enum) : p.2 ∈ l := by
  have := List.mem_map_of_mem Prod.snd h
  rwa [List.enum_map_snd] at this

theorem contains_false_not_mem {l : List String} {a : String}
    (h : l.contains a = false) : a ∉ l := by
  intro hm
  have h2 : l.contains a = true := List.elem_eq_true_of_mem hm
  rw [h2] at h
  cases h

theorem left_no_explosion (active : ActiveType) (g : Graph) (y0 : Table)
    (hhyg : joinHygieneB active g y0 = true)
    (huniq : ∀ rx ∈ (xTable active g).rows,
      ((effectiveY active g y0).rows.filter (fun ry =>
          keyOf (effectiveOn active g y0 none) ry ==
            keyOf (effectiveOn active g y0 none) rx)).length ≤ 1) :
    explosionIdx (pdMerge (xTable active g) (effectiveY active g y0)
        (effectiveOn active g y0 none) ".x" ".y" true .left) = [] ∧
      (finishTable (pdMerge (xTable active g) (effectiveY active g y0)
        (effectiveOn active g y0 none) ".x" ".y" true .left)).2 = [] := by
  rw [joinHygieneB] at hhyg
  simp only [Bool.and_eq_true] at hhyg
  obtain ⟨⟨⟨⟨hh1, hh2⟩, hh3⟩, hh4⟩, hh5⟩ := hhyg
  have hEI : "_index" ∉ (effectiveY active g y0).cols :=
    contains_false_not_mem (by rwa [Bool.not_eq_true'] at hh2)
  have hEM : "_merge" ∉ (effectiveY active g y0).cols :=
    contains_false_not_mem (by rwa [Bool.not_eq_true'] at hh3)
  have hYrows : ∀ r ∈ (effectiveY active g y0).rows, ∀ e ∈ r,
      e.1 ≠ "_index" ∧ e.1 ≠ "_merge" := by
    intro r hr e he
    have := List.all_eq_true.mp (List.all_eq_true.mp hh4 r hr) e he
    simp only [Bool.and_eq_true, bne_iff_ne, ne_eq] at this
    exact this
  have hBrows : ∀ r ∈ (baseTable active g).rows, ∀ e ∈ r,
      e.1 ≠ "_index" ∧ e.1 ≠ "_merge" := by
    intro r hr e he
    have := List.all_eq_true.mp (List.all_eq_true.mp hh5 r hr) e he
    simp only [Bool.and_eq_true, bne_iff_ne, ne_eq] at this
    exact this
  set x := xTable active g with hxdef
  set y := effectiveY active g y0 with hydef
  set onc := effectiveOn active g y0 none with honcdef
  have hxrows : x.rows = (baseTable active g).rows.enum.map
      (fun p => p.2 ++ [("_index", some (Val.nat p.1))]) := rfl
  -- per generated x row facts
  have hmkfacts : ∀ p ∈ (baseTable active g).rows.enum,
      rget (p.2 ++ [("_index", some (Val.nat p.1))]) "_index" = some (Val.nat p.1) ∧
      (p.2 ++ [("_index", some (Val.nat p.1))]).any (fun e => e.1 == "_index") = true ∧
      (∀ e ∈ p.2 ++ [("_index", some (Val.nat p.1))],
        lname onc y.cols ".x" e.1 ≠ "_merge") := by
    intro p hp
    have hbase := hBrows p.2 (snd_mem_of_mem_enum hp)
    have hanyb : p.2.any (fun e => e.1 == "_index") = false := by
      rw [List.any_eq_false]
      intro e he
      simpa using (hbase e he).1
    refine ⟨?_, ?_, ?_⟩
    · rw [rget_append, if_neg (by rw [hanyb]; exact Bool.false_ne_true)]
      rw [rget_cons]
      rw [if_pos (beq_self_eq_true _)]
    · rw [List.any_append]
      have : List.any [("_index", (some (Val.nat p.1) : Cell))]
          (fun e => e.1 == "_index") = true := by
        simp
      rw [this, Bool.or_true]
    · intro e he
      rcases List.mem_append.mp he with hm | hm
      · exact lname_ne_bookkeeping (hbase e hm).2 (by rfl)
      · rcases List.mem_singleton.mp hm with rfl
        exact lname_ne_bookkeeping (show "_index" ≠ "_merge" by decide) (by rfl)
  have hym : ∀ ry ∈ y.rows, ∀ e ∈ ry, rname x.cols ".y" e.1 ≠ "_merge" := by
    intro ry hry e he
    exact rname_ne_bookkeeping (hYrows ry hry e he).2 (by rfl)
  -- the explosion values are per-x-row replicates of the row id
  have hvals : (mergeRows x y onc ".x" ".y" true .left).filterMap
      (fun r => if mergeIs r "both" then indexVal r else none) =
      (baseTable active g).rows.enum.flatMap (fun p =>
        List.replicate ((y.rows.filter (fun ry =>
          keyOf onc ry == keyOf onc
            (p.2 ++ [("_index", some (Val.nat p.1))]))).length) p.1) := by
    show (mergeRows x y onc ".x" ".y" true .left).filterMap _ = _
    unfold mergeRows
    rw [hxrows, filterMap_flatMap, flatMap_map_eq]
    apply flatMap_congr_mem
    intro p hp
    obtain ⟨hidx, hhas, hlnm⟩ := hmkfacts p hp
    exact leftGen_vals hidx hhas hlnm hym hEI hEM
  have hcount : ∀ i, ((mergeRows x y onc ".x" ".y" true .left).filterMap
      (fun r => if mergeIs r "both" then indexVal r else none)).count i ≤ 1 := by
    intro i
    rw [hvals]
    apply count_flatMap_replicate
    · rw [List.enum_map_fst]
      exact List.nodup_range _
    · intro p hp
      apply huniq
      rw [hxrows]
      exact List.mem_map_of_mem _ hp
  constructor
  · rw [explosionIdx]
    rw [List.filter_eq_nil_iff]
    intro i hi
    simp only [decide_eq_true_eq]
    have h2 : (((pdMerge x y onc ".x" ".y" true .left).rows).filterMap
        (fun r => if mergeIs r "both" then indexVal r else none)).count i ≤ 1 :=
      hcount i
    omega
  · show (List.filter (fun r => mergeIs r "right_only")
        ((pdMerge x y onc ".x" ".y" true .left).dropAllMissing).rows) = []
    rw [List.filter_eq_nil_iff]
    intro r2 hr2
    have hmapped : ∃ r ∈ (pdMerge x y onc ".x" ".y" true .left).rows,
        r2 = rkeep r (fun c => (pdMerge x y onc ".x" ".y" true .left).rows.any
          (fun rr => (rget rr c).isSome)) := by
      obtain ⟨r, hr, hre⟩ := List.mem_map.mp hr2
      exact ⟨r, hr, hre.symm⟩
    obtain ⟨r, hr, rfl⟩ := hmapped
    have hval : rget r "_merge" = some (Val.str "both") ∨
        rget r "_merge" = some (Val.str "left_only") := by
      rcases mem_leftMerge hr with ⟨rx, hrx, ry, hry, rfl⟩ | ⟨rx, hrx, rfl⟩
      · left
        apply rget_rowBoth_merge
        · intro e he
          rw [hxrows] at hrx
          obtain ⟨p, hp, rfl⟩ := List.mem_map.mp hrx
          exact (hmkfacts p hp).2.2 e he
        · exact hym ry hry
      · right
        apply rget_rowLeftOnly_merge
        · intro e he
          rw [hxrows] at hrx
          obtain ⟨p, hp, rfl⟩ := List.mem_map.mp hrx
          exact (hmkfacts p hp).2.2 e he
        · exact hEM
    rw [mergeIs, rget_rkeep]
    split
    · rcases hval with hv | hv <;> rw [hv] <;> simp
    · simp



theorem left_join_eq_node (g : Graph) (y0 : Table) (onv : Option (List String))
    (ls rs : String) :
    left_join ActiveType.NODES g y0 onv ls rs =
      leftNodeTail g (finishTable
        ((explosionIdx (pdMerge (xTable ActiveType.NODES g)
            (effectiveY ActiveType.NODES g y0)
            (effectiveOn ActiveType.NODES g y0 onv) ls rs true .left)).foldl
          (explosionStepNode (xTable ActiveType.NODES g))
          (pdMerge (xTable ActiveType.NODES g) (effectiveY ActiveType.NODES g y0)
            (effectiveOn ActiveType.NODES g y0 onv) ls rs true .left))) := rfl

theorem left_join_eq_edge (g : Graph) (y0 : Table) (onv : Option (List String))
    (ls rs : String) :
    left_join ActiveType.EDGES g y0 onv ls rs =
      leftEdgeTail g (finishTable
        ((explosionIdx (pdMerge (xTable ActiveType.EDGES g)
            (effectiveY ActiveType.EDGES g y0)
            (effectiveOn ActiveType.EDGES g y0 onv) ls rs true .left)).foldl
          (explosionStepEdge (xTable ActiveType.EDGES g))
          (pdMerge (xTable ActiveType.EDGES g) (effectiveY ActiveType.EDGES g y0)
            (effectiveOn ActiveType.EDGES g y0 onv) ls rs true .left))) := rfl

theorem tidyJoin_left_ok {active : ActiveType} {g : Graph} {y0 : Table}
    {onv : Option (List String)} {ls rs : String} {g2 : Graph}
    (h : tidyJoin active g y0 onv ls rs "left" = Except.ok g2) :
    left_join active g y0 onv ls rs = Except.ok g2 := by
  unfold tidyJoin at h
  split at h
  · cases h
  split at h
  · cases h
  split at h
  · cases h
  exact h



/-! ### Claims -/

/-- C1, counterexample: the caller table `{name, "vertex ID"}` carries the
reserved node identity column "vertex ID" as a caller-supplied attribute,
yet the node-context join returns successfully (the column is silently
dropped) instead of raising a validation error. -/
theorem c1_reserved_column_not_rejected :
    isErr (tidyJoin ActiveType.NODES gA
        { cols := ["name", "vertex ID"]
          rows := [[("name", sv "a"), ("vertex ID", sv "z")]] }
        none ".x" ".y" "left") = false ∧
      (tidyJoin ActiveType.NODES gA
          { cols := ["name", "vertex ID"]
            rows := [[("name", sv "a"), ("vertex ID", sv "z")]] }
          none ".x" ".y" "left").map (fun h => attrNames h ActiveType.NODES) =
        Except.ok ["name"] :=
  ⟨rfl, rfl⟩

/-- C1 (amended): only the internal join-tracking key "_index" is rejected
by `join`; whenever the caller table contains an "_index" column, the call
fails with a validation error before anything is computed, in either active
context and for every join kind, so the graph is left untouched. -/
theorem c1_index_reserved_aborts (active : ActiveType) (g : Graph) (y : Table)
    (onv : Option (List String)) (ls rs how : String)
    (h : y.cols.contains reservedJoinKeyword = true) :
    isErr (tidyJoin active g y onv ls rs how) = true := by
  unfold tidyJoin
  rw [if_pos h]
  rfl

/-- C1 witness: the amended theorem applied to a concrete caller table that
carries the "_index" column. -/
theorem c1_index_reserved_aborts_witness :
    (Table.cols { cols := ["name", "_index"], rows := [] }).contains
        reservedJoinKeyword = true ∧
      isErr (tidyJoin ActiveType.NODES gA
        { cols := ["name", "_index"], rows := [] } none ".x" ".y" "left") = true :=
  ⟨rfl, c1_index_reserved_aborts ActiveType.NODES gA
    { cols := ["name", "_index"], rows := [] } none ".x" ".y" "left" rfl⟩

/-- C3, counterexample: a left node join is not always a frame-preserving
operation.  On the one-vertex graph {a}, the left join with
`Y = {name: [a, a]}` triggers the explosion path and adds a vertex: the
vertex count goes from 1 to 2. -/
theorem c3_left_join_adds_vertex :
    gA.nverts = 1 ∧
      (tidyJoin ActiveType.NODES gA (nameTable ["a", "a"]) none ".x" ".y" "left").map
          Graph.nverts = Except.ok 2 :=
  ⟨rfl, rfl⟩

/-- C6: the code evaluated at the failing input.  On the undirected graph
with single edge (a, b), the right edge join with
`Y = {from: [a, b], to: [b, a]}` leaves one edge (the mirrored duplicate is
absorbed by the mirror bookkeeping), while the same join with the second
row's endpoints written (a, b) produces two parallel edges via the
explosion path, so the two runs do not produce identical edge sets. -/
theorem c6_endpoint_swap_changes_result :
    (tidyJoin ActiveType.EDGES gAB1 (edgeTable [("a", "b"), ("b", "a")])
        none ".x" ".y" "right").map Graph.edges = Except.ok [(0, 1)] ∧
      (tidyJoin ActiveType.EDGES gAB1 (edgeTable [("a", "b"), ("a", "b")])
        none ".x" ".y" "right").map Graph.edges = Except.ok [(0, 1), (0, 1)] :=
  ⟨rfl, rfl⟩

/-- C8: the code evaluated at the claim scenario and at the failing input.
The no-overlap scenario holds: the right node join of {a, b, c} with
`Y = {name: [d, e]}` deletes a, b, c and yields exactly the vertices d, e.
But with `Y = {name: [c, c]}` (repeated matched name, cardinality the claim
says drives the result) the explosion loop of `right_join` looks up the
exploded key with `y.loc[index]` where `index` is an identity value of the
graph snapshot, the label 2 does not exist in Y, and the call crashes with
a KeyError instead of continuing one row and adding one. -/
theorem c8_right_join_eval :
    (tidyJoin ActiveType.NODES gABC (nameTable ["d", "e"]) none ".x" ".y"
          "right").map (fun h => (h.nverts, h.names)) =
        Except.ok (2, [sv "d", sv "e"]) ∧
      isErr (tidyJoin ActiveType.NODES gABC (nameTable ["c", "c"]) none ".x"
        ".y" "right") = true :=
  ⟨rfl, rfl⟩

/-- C9, counterexample: a left self-join is not an identity in the edge
context.  Joining the directed graph a -> b (edge attribute color = red)
with its own edge table written with from / to names succeeds but replaces
the attribute set {color} by the suffixed pair {color.x, color.y}, because
the forced join keys ["source", "target"] leave the shared attribute column
to the suffix resolution. -/
theorem c9_left_self_join_not_identity :
    attrNames gABred ActiveType.EDGES = ["color"] ∧
      (tidyJoin ActiveType.EDGES gABred
          { cols := ["from", "to", "color"]
            rows := [[("from", sv "a"), ("to", sv "b"), ("color", sv "red")]] }
          none ".x" ".y" "left").map (fun h => attrNames h ActiveType.EDGES) =
        Except.ok ["color.x", "color.y"] :=
  ⟨rfl, rfl⟩

/-- C3 (amended): a left join leaves the vertex count and edge list
untouched provided no key of the active snapshot is matched by more than
one row of the effective (identity-resolved and, when undirected,
mirrored) caller table; with a multiple match the explosion path appends
new vertices or edges instead, as the counterexample shows. -/
theorem c3_left_preserves (active : ActiveType) (g : Graph)
    (y0 : Table) (g2 : Graph)
    (hhyg : joinHygieneB active g y0 = true)
    (huniq : ∀ rx ∈ (xTable active g).rows,
      ((effectiveY active g y0).rows.filter (fun ry =>
          keyOf (effectiveOn active g y0 none) ry ==
            keyOf (effectiveOn active g y0 none) rx)).length ≤ 1)
    (hok : tidyJoin active g y0 none ".x" ".y" "left" = Except.ok g2) :
    g2.nverts = g.nverts ∧ g2.edges = g.edges := by
  have h := tidyJoin_left_ok hok
  obtain ⟨hexp, hfin⟩ := left_no_explosion active g y0 hhyg huniq
  cases active with
  | NODES =>
      rw [left_join_eq_node, hexp, List.foldl_nil] at h
      unfold leftNodeTail at h
      rw [hfin] at h
      have h3 : applyAttributes ActiveType.NODES g
          (finishTable (pdMerge (xTable ActiveType.NODES g)
            (effectiveY ActiveType.NODES g y0)
            (effectiveOn ActiveType.NODES g y0 none) ".x" ".y" true .left)).1 =
          Except.ok g2 := h
      obtain ⟨he, _, hn⟩ := applyAttributes_ok h3
      exact ⟨hn, he⟩
  | EDGES =>
      rw [left_join_eq_edge, hexp, List.foldl_nil] at h
      unfold leftEdgeTail at h
      rw [hfin] at h
      obtain ⟨gm, hgm, h⟩ := bindOk h
      have hgm2 : (pure g : Except String Graph) = Except.ok gm := hgm
      cases hgm2
      obtain ⟨he, _, hn⟩ := applyAttributes_ok h
      exact ⟨hn, he⟩

/-- C3 witness: the amended theorem applied to a concrete unique-match
left join. -/
theorem c3_left_preserves_witness :
    joinHygieneB ActiveType.NODES gABC (nameTable ["a"]) = true ∧
      ∃ g2, tidyJoin ActiveType.NODES gABC (nameTable ["a"]) none ".x" ".y"
          "left" = Except.ok g2 ∧
        g2.nverts = gABC.nverts ∧ g2.edges = gABC.edges :=
  ⟨rfl, _, rfl, c3_left_preserves ActiveType.NODES gABC (nameTable ["a"]) _
    rfl (by decide) rfl⟩

/-- C5: for every undirected graph (whose stored edges are, as igraph keeps
them, in canonical (min, max) endpoint order) and every edge-context join
that returns, the resulting edge table never contains both (a, b) and
(b, a) as two distinct rows for the same logical edge: every join kind
preserves the canonical orientation, so a mirrored duplicate row cannot
exist. -/
theorem c5_undirected_no_mirrored_rows (g : Graph) (y : Table)
    (onv : Option (List String)) (ls rs how : String) (g2 : Graph)
    (hdir : g.directed = false) (hnorm : edgesNormalizedB g = true)
    (hok : tidyJoin ActiveType.EDGES g y onv ls rs how = Except.ok g2) :
    ∀ a b : Nat, a ≠ b → (a, b) ∈ g2.edges → (b, a) ∉ g2.edges := by
  have hn2 : edgesNormalizedB g2 = true := by
    rcases tidyJoin_ok_cases hok with h | h | h | h
    · exact outer_join_edges_norm hdir hnorm h
    · exact inner_join_edges_norm hdir hnorm h
    · exact left_join_edges_norm hdir hnorm h
    · exact right_join_edges_norm hdir hnorm h
  intro a b hab hm1 hm2
  have h1 : a ≤ b := by simpa using List.all_eq_true.mp hn2 (a, b) hm1
  have h2 : b ≤ a := by simpa using List.all_eq_true.mp hn2 (b, a) hm2
  exact hab (Nat.le_antisymm h1 h2)

/-- C5 witness: the theorem applied to a concrete undirected outer edge
join on the one-edge graph (a, b). -/
theorem c5_undirected_no_mirrored_rows_witness :
    ∃ g2, tidyJoin ActiveType.EDGES gAB1 (edgeTable [("a", "b")]) none ".x"
        ".y" "outer" = Except.ok g2 ∧
      ∀ a b : Nat, a ≠ b → (a, b) ∈ g2.edges → (b, a) ∉ g2.edges :=
  ⟨_, rfl, c5_undirected_no_mirrored_rows gAB1 (edgeTable [("a", "b")]) none
    ".x" ".y" "outer" _ rfl rfl rfl⟩


theorem find?_map_replace_hit (s : AttrStore) (c : String) (vals : List Cell)
    (hp : s.any (fun e => e.1 == c) = true) :
    (s.map (fun e => if e.1 == c then (c, vals) else e)).find?
      (fun e => e.1 == c) = some (c, vals) := by
  induction s with
  | nil => exact absurd hp Bool.false_ne_true
  | cons e t ih =>
      rw [List.map_cons]
      by_cases he : (e.1 == c) = true
      · rw [if_pos he]
        exact @List.find?_cons_of_pos _ (fun e => e.1 == c) (c, vals) _
          (beq_self_eq_true c)
      · rw [if_neg he]
        rw [@List.find?_cons_of_neg _ (fun e => e.1 == c) e _ he]
        apply ih
        rw [Bool.not_eq_true] at he
        rw [List.any_cons, he, Bool.false_or] at hp
        exact hp

theorem find?_map_replace_miss (s : AttrStore) {c c2 : String} (h : c2 ≠ c)
    (vals : List Cell) :
    (s.map (fun e => if e.1 == c then (c, vals) else e)).find?
      (fun e => e.1 == c2) = s.find? (fun e => e.1 == c2) := by
  induction s with
  | nil => rfl
  | cons e t ih =>
      rw [List.map_cons]
      by_cases he : (e.1 == c) = true
      · rw [if_pos he]
        have h1 : (((c, vals) : String × List Cell).1 == c2) = false := by
          rw [beq_eq_false_iff_ne]
          exact fun hh => h hh.symm
        have h2 : (e.1 == c2) = false := by
          rw [beq_eq_false_iff_ne]
          intro hh
          exact h (hh ▸ eq_of_beq he)
        rw [@List.find?_cons_of_neg _ (fun e => e.1 == c2) (c, vals) _
          (fun hh => Bool.false_ne_true (h1.symm.trans hh))]
        rw [@List.find?_cons_of_neg _ (fun e => e.1 == c2) e _
          (fun hh => Bool.false_ne_true (h2.symm.trans hh))]
        exact ih
      · rw [if_neg he]
        by_cases hc2 : (e.1 == c2) = true
        · rw [@List.find?_cons_of_pos _ (fun e => e.1 == c2) e _ hc2]
          rw [@List.find?_cons_of_pos _ (fun e => e.1 == c2) e _ hc2]
        · rw [@List.find?_cons_of_neg _ (fun e => e.1 == c2) e _ hc2]
          rw [@List.find?_cons_of_neg _ (fun e => e.1 == c2) e _ hc2]
          exact ih

theorem find?_append_of_none {A : Type} {l1 : List A} {p : A → Bool}
    (h : l1.find? p = none) (l2 : List A) :
    (l1 ++ l2).find? p = l2.find? p := by
  induction l1 with
  | nil => rfl
  | cons a t ih =>
      by_cases ha : p a = true
      · rw [List.find?_cons_of_pos _ ha] at h
        cases h
      · rw [List.find?_cons_of_neg _ ha] at h
        rw [List.cons_append, List.find?_cons_of_neg _ ha]
        exact ih h

theorem find?_append_of_some {A : Type} {l1 : List A} {p : A → Bool} {a : A}
    (h : l1.find? p = some a) (l2 : List A) :
    (l1 ++ l2).find? p = some a := by
  induction l1 with
  | nil => cases h
  | cons b t ih =>
      by_cases hb : p b = true
      · rw [List.find?_cons_of_pos _ hb] at h
        rw [List.cons_append, List.find?_cons_of_pos _ hb]
        exact h
      · rw [List.find?_cons_of_neg _ hb] at h
        rw [List.cons_append, List.find?_cons_of_neg _ hb]
        exact ih h

theorem attrCol_setAttr_self (s : AttrStore) (c : String) (vals : List Cell) :
    attrCol (setAttr s c vals) c = vals := by
  unfold setAttr attrCol
  by_cases hp : s.any (fun e => e.1 == c) = true
  · rw [if_pos hp, find?_map_replace_hit s c vals hp]
  · rw [if_neg hp]
    have hnone : s.find? (fun e => e.1 == c) = none := by
      rw [List.find?_eq_none]
      rw [Bool.not_eq_true] at hp
      rw [List.any_eq_false] at hp
      exact hp
    rw [find?_append_of_none hnone [(c, vals)]]
    rw [@List.find?_cons_of_pos _ (fun e => e.1 == c) (c, vals) _
      (beq_self_eq_true c)]

theorem attrCol_setAttr_ne (s : AttrStore) {c c2 : String} (h : c2 ≠ c)
    (vals : List Cell) :
    attrCol (setAttr s c vals) c2 = attrCol s c2 := by
  unfold setAttr attrCol
  by_cases hp : s.any (fun e => e.1 == c) = true
  · rw [if_pos hp, find?_map_replace_miss s h vals]
  · rw [if_neg hp]
    cases hf : s.find? (fun e => e.1 == c2) with
    | some e =>
        rw [find?_append_of_some hf [(c, vals)]]
    | none =>
        rw [find?_append_of_none hf [(c, vals)]]
        have h1 : (((c, vals) : String × List Cell).1 == c2) = false := by
          rw [beq_eq_false_iff_ne]
          exact fun hh => h hh.symm
        rw [@List.find?_cons_of_neg _ (fun e => e.1 == c2) (c, vals) _
          (fun hh => Bool.false_ne_true (h1.symm.trans hh))]
        rfl

theorem applyAttributes_vals {a : ActiveType} {g : Graph} {d : Table}
    {g2 : Graph} (h : applyAttributes a g d = Except.ok g2) :
    ∀ c, (reservedFor a).contains c = false → c ∈ d.cols →
      attrCol (getStore g2 a) c = d.col c := by
  unfold applyAttributes at h
  obtain ⟨st, hst, h⟩ := bindOk h
  cases h
  have hput : getStore (putStore g a st) a = st := by
    cases a <;> rfl
  rw [hput]
  suffices hgen : ∀ (cols : List String) (s0 s1 : AttrStore),
      cols.foldlM (fun (s : AttrStore) c =>
        if (reservedFor a).contains c then pure s
        else
          if (d.col c).length == contextCount g a then pure (setAttr s c (d.col c))
          else Except.error "attribute assignment length mismatch") s0 =
        Except.ok s1 →
      ∀ c, (reservedFor a).contains c = false →
        (c ∈ cols → attrCol s1 c = d.col c) ∧
        (c ∉ cols → attrCol s1 c = attrCol s0 c) by
    intro c hres hc
    exact (hgen d.cols [] st hst c hres).1 hc
  intro cols
  induction cols with
  | nil =>
      intro s0 s1 hfold c hres
      cases hfold
      exact ⟨fun hc => absurd hc (List.not_mem_nil c), fun _ => rfl⟩
  | cons c0 cs ih =>
      intro s0 s1 hfold c hres
      rw [List.foldlM_cons] at hfold
      obtain ⟨s0b, hs0b, hfold2⟩ := bindOk hfold
      by_cases hres0 : (reservedFor a).contains c0 = true
      · rw [if_pos hres0] at hs0b
        cases hs0b
        obtain ⟨ih1, ih2⟩ := ih s0 s1 hfold2 c hres
        constructor
        · intro hc
          rcases List.mem_cons.mp hc with rfl | hc2
          · exact absurd hres0 (by rw [hres]; exact Bool.false_ne_true)
          · exact ih1 hc2
        · intro hc
          exact ih2 (fun hc2 => hc (List.mem_cons_of_mem c0 hc2))
      · rw [if_neg hres0] at hs0b
        split at hs0b
        · cases hs0b
          obtain ⟨ih1, ih2⟩ := ih _ s1 hfold2 c hres
          constructor
          · intro hc
            by_cases hcs : c ∈ cs
            · exact ih1 hcs
            · rcases List.mem_cons.mp hc with rfl | hc2
              · rw [ih2 hcs, attrCol_setAttr_self]
              · exact absurd hc2 hcs
          · intro hc
            have hc0 : c ≠ c0 := fun hh => hc (hh ▸ List.mem_cons_self c0 cs)
            have hcs : c ∉ cs := fun hc2 => hc (List.mem_cons_of_mem c0 hc2)
            rw [ih2 hcs, attrCol_setAttr_ne s0 hc0]
        · cases hs0b

/-- C7: after every successful join, the attribute set stored for the
active context is exactly the non-reserved column set of the final merged
table of that very join: the merged frame xm named by `mergedOf` (the value
of `x_merged` after the explosion loop, read off the executed join kind) is
produced by the call, the stored attribute names are precisely the columns
of xm that survive dropna (not missing in every row), are not internal
underscore bookkeeping columns, and are not reserved — previously stored
attributes absent from that set are gone, because the Attribute Reconciler
clears the store before reassigning — and every stored attribute's value
list equals the corresponding column of the finished merged table.  The
second part is the collision rule: a non-key column shared by both frames
appears in the merged schema under both caller-specified suffixes. -/
theorem c7_attribute_reconciler :
    (∀ (active : ActiveType) (g : Graph) (y : Table) (onv : Option (List String))
        (ls rs how : String) (g2 : Graph),
        tidyJoin active g y onv ls rs how = Except.ok g2 →
        ∃ xm : Table,
          mergedOf active g y onv ls rs how = Except.ok xm ∧
          (∀ c : String,
            c ∈ attrNames g2 active ↔
              (c ∈ xm.cols ∧ xm.rows.any (fun r => (rget r c).isSome) = true ∧
                strStartsWith c "_" = false ∧
                (reservedFor active).contains c = false)) ∧
          (∀ c : String, c ∈ attrNames g2 active →
            attrCol (getStore g2 active) c = (finishTable xm).1.col c)) ∧
      (∀ (xcols ycols onc : List String) (ls rs c : String),
        c ∈ xcols → c ∈ ycols → onc.contains c = false →
          (c ++ ls) ∈ mergeOutCols xcols ycols onc ls rs true ∧
            (c ++ rs) ∈ mergeOutCols xcols ycols onc ls rs true) := by
  constructor
  · intro active g y onv ls rs how g2 hok
    obtain ⟨gm, xm, hm, ha⟩ := join_apply_merged hok
    refine ⟨xm, hm, fun c => ?_, fun c hc => ?_⟩
    · rw [applyAttributes_attrs ha c, finishTable_cols]
      simp only [List.mem_filter, Bool.not_eq_true']
      tauto
    · have h2 := (applyAttributes_attrs ha c).mp hc
      exact applyAttributes_vals ha c h2.2 h2.1
  · intro xcols ycols onc ls rs c hx hy ho
    have hyc : ycols.contains c = true := List.elem_eq_true_of_mem hy
    have hxc : xcols.contains c = true := List.elem_eq_true_of_mem hx
    constructor
    · have : lname onc ycols ls c = c ++ ls := by
        unfold lname
        rw [if_neg (by rw [ho]; exact Bool.false_ne_true), if_pos hyc]
      rw [mergeOutCols]
      exact List.mem_append_left _
        (List.mem_append_left _ (this ▸ List.mem_map_of_mem (lname onc ycols ls) hx))
    · have : rname xcols rs c = c ++ rs := by
        unfold rname
        rw [if_pos hxc]
      rw [mergeOutCols]
      refine List.mem_append_left _ (List.mem_append_right _ ?_)
      refine this ▸ List.mem_map_of_mem (rname xcols rs) ?_
      rw [List.mem_filter, ho]
      exact ⟨hy, rfl⟩

/-- C7 witness: the theorem applied to a concrete successful node left
join. -/
theorem c7_attribute_reconciler_witness :
    ∃ g2, tidyJoin ActiveType.NODES gABC (nameTable ["a", "b", "c"]) none
        ".x" ".y" "left" = Except.ok g2 ∧
      ∃ xm : Table,
        mergedOf ActiveType.NODES gABC (nameTable ["a", "b", "c"]) none
          ".x" ".y" "left" = Except.ok xm ∧
        (∀ c : String,
          c ∈ attrNames g2 ActiveType.NODES ↔
            (c ∈ xm.cols ∧ xm.rows.any (fun r => (rget r c).isSome) = true ∧
              strStartsWith c "_" = false ∧
              (reservedFor ActiveType.NODES).contains c = false)) ∧
        (∀ c : String, c ∈ attrNames g2 ActiveType.NODES →
          attrCol (getStore g2 ActiveType.NODES) c =
            (finishTable xm).1.col c) :=
  ⟨_, rfl, c7_attribute_reconciler.1 ActiveType.NODES gABC
    (nameTable ["a", "b", "c"]) none ".x" ".y" "left" _ rfl⟩


/-- C10: a freshly constructed Tidygraph starts in the NODES context: the
constructor installs `ActiveState.new` whose active value is
`ActiveType.NODES`; a join on the fresh instance therefore runs the
node-context validation and rejects any table without a "name" column (in
particular an edge-shaped from / to table); the EDGES context holds exactly
after `activate(ActiveType.EDGES)`. -/
theorem c10_fresh_instance_nodes_active (g : Graph) (tg : Tidygraph)
    (h : Tidygraph.create g = Except.ok tg) :
    tg.activeState.active = ActiveType.NODES ∧
      (∀ (y : Table) (onv : Option (List String)) (how ls rs : String),
        y.cols.contains "name" = false →
          isErr (tg.join y onv how ls rs) = true) ∧
      (∀ what : ActiveType, (tg.activate what).activeState.active = what) := by
  unfold Tidygraph.create at h
  by_cases hn : (attrNamesOf g.vattrs).contains "name" = true
  · rw [if_pos hn] at h
    cases h
    refine ⟨rfl, ?_, fun _ => rfl⟩
    intro y onv how ls rs hy
    unfold Tidygraph.join tidyJoin
    by_cases hidx : y.cols.contains reservedJoinKeyword = true
    · rw [if_pos hidx]
      rfl
    · rw [if_neg hidx]
      simp only [hy]
      rfl
  · rw [if_neg hn] at h
    cases h

/-- C10 witness: the theorem applied to the concrete graph {a, b, c}; the
fresh instance is in the NODES context, rejects the edge-shaped table, and
switches to EDGES after activate. -/
theorem c10_fresh_instance_nodes_active_witness :
    Tidygraph.create gABC =
        Except.ok { activeState := ActiveState.new, graph := gABC } ∧
      ({ activeState := ActiveState.new, graph := gABC } : Tidygraph).activeState.active =
        ActiveType.NODES :=
  ⟨rfl, (c10_fresh_instance_nodes_active gABC
    { activeState := ActiveState.new, graph := gABC } rfl).1⟩

end Tidy

namespace Tidy

theorem rget_construct {s : AttrStore} (hnd : (s.map Prod.fst).Nodup) (i : Nat) :
    ∀ e ∈ s, rget (s.map (fun q => (q.1, q.2.getD i none))) e.1 = e.2.getD i none := by
  induction s with
  | nil => intro e he; cases he
  | cons a t ih =>
      intro e he
      rw [List.map_cons, List.nodup_cons] at hnd
      rcases List.mem_cons.mp he with rfl | hm
      · rw [List.map_cons, rget_cons, if_pos (beq_self_eq_true _)]
      · rw [List.map_cons, rget_cons, if_neg ?hne]
        · exact ih hnd.2 e hm
        case hne =>
          intro hb
          exact hnd.1 ((eq_of_beq hb) ▸ List.mem_map_of_mem Prod.fst hm)

theorem hasCol_construct {s : AttrStore} (i : Nat) {c : String}
    (hc : c ∈ s.map Prod.fst) :
    (s.map (fun q => (q.1, q.2.getD i none))).any (fun e => e.1 == c) = true := by
  rw [List.any_eq_true]
  obtain ⟨e, he, rfl⟩ := List.mem_map.mp hc
  exact ⟨(e.1, e.2.getD i none), List.mem_map_of_mem _ he, beq_self_eq_true _⟩

theorem keyOf_construct {s : AttrStore} (hnd : (s.map Prod.fst).Nodup) (i : Nat) :
    keyOf (s.map Prod.fst) (s.map (fun q => (q.1, q.2.getD i none))) =
      s.map (fun e => e.2.getD i none) := by
  unfold keyOf
  rw [List.map_map]
  apply List.map_congr_left
  intro e he
  exact rget_construct hnd i e he

theorem map_eq_map_pointwise {α β : Type} {l : List α} {f h : α → β}
    (heq : l.map f = l.map h) : ∀ a ∈ l, f a = h a := by
  induction l with
  | nil => intro a ha; cases ha
  | cons b t ih =>
      intro a ha
      rw [List.map_cons, List.map_cons, List.cons_eq_cons] at heq
      rcases List.mem_cons.mp ha with rfl | hm
      · exact heq.1
      · exact ih heq.2 a hm

theorem filter_range_eq_single {n i : Nat} (h : i < n) :
    (List.range n).filter (fun j => j == i) = [i] := by
  induction n with
  | zero => cases h
  | succ m ih =>
      rw [List.range_succ, List.filter_append]
      by_cases him : i = m
      · subst him
        have h1 : (List.range i).filter (fun j => j == i) = [] := by
          rw [List.filter_eq_nil_iff]
          intro j hj
          have := List.mem_range.mp hj
          simp only [beq_iff_eq]
          omega
        rw [h1]
        simp
      · have h2 : i < m := by omega
        rw [ih h2]
        have h3 : (List.filter (fun j => j == i) [m]) = [] := by
          simp [beq_iff_eq]
          omega
        rw [h3, List.append_nil]

theorem flatMap_singleton {α β : Type} {l : List α} {f : α → List β} {h : α → β}
    (heq : ∀ a ∈ l, f a = [h a]) : l.flatMap f = l.map h := by
  induction l with
  | nil => rfl
  | cons a t ih =>
      rw [List.flatMap_cons, List.map_cons, heq a (List.mem_cons_self a t)]
      rw [ih (fun x hx => heq x (List.mem_cons_of_mem a hx))]
      rfl

theorem rkeep_id {r : Row} {p : String → Bool} (h : ∀ e ∈ r, p e.1 = true) :
    rkeep r p = r := by
  unfold rkeep
  exact List.filter_eq_self.mpr h

theorem map_getD_range {l : List Cell} {n : Nat} (h : l.length = n) :
    (List.range n).map (fun i => l.getD i none) = l := by
  apply List.ext_getElem
  · simp [h]
  · intro i h1 h2
    simp only [List.getElem_map, List.getElem_range]
    rw [List.getD_eq_getElem]

end Tidy

namespace Tidy

theorem not_mem_contains_false {l : List String} {a : String} (h : a ∉ l) :
    l.contains a = false := by
  cases hc : l.contains a with
  | false => rfl
  | true => exact absurd (List.mem_of_elem_eq_true hc) h

theorem attrCol_mem {s : AttrStore} (hnd : (s.map Prod.fst).Nodup) :
    ∀ e ∈ s, attrCol s e.1 = e.2 := by
  induction s with
  | nil => intro e he; cases he
  | cons a t ih =>
      intro e he
      rw [List.map_cons, List.nodup_cons] at hnd
      rcases List.mem_cons.mp he with rfl | hm
      · unfold attrCol
        simp [List.find?]
      · unfold attrCol
        have hne : (a.1 == e.1) = false := by
          cases hb : (a.1 == e.1) with
          | false => rfl
          | true =>
              exact absurd ((eq_of_beq hb) ▸ List.mem_map_of_mem Prod.fst hm) hnd.1
        simp only [List.find?, hne]
        exact ih hnd.2 e hm

theorem commonCols_append_index {a : List String} (h : "_index" ∉ a) :
    commonCols (a ++ ["_index"]) a = a := by
  unfold commonCols
  rw [List.filter_append]
  have h1 : a.filter (fun c => a.contains c) = a :=
    List.filter_eq_self.mpr (fun c hc => List.elem_eq_true_of_mem hc)
  have h2 : List.filter (fun c => a.contains c) ["_index"] = [] := by
    have hc : a.contains "_index" = false := not_mem_contains_false h
    simp [List.filter_cons, hc]
    exact h
  rw [h1, h2, List.append_nil]

theorem filter_of_map {α β : Type} (l : List α) (f : α → β) (p : β → Bool) :
    (l.map f).filter p = (l.filter (fun a => p (f a))).map f := by
  rw [List.filter_map]
  rfl

theorem enum_map_range {α : Type} (n : Nat) (f : Nat → α) :
    ((List.range n).map f).enum = (List.range n).map (fun i => (i, f i)) := by
  apply List.ext_getElem
  · simp
  · intro k h1 h2
    simp [List.getElem_enum]

end Tidy

namespace Tidy

theorem keyOf_append_index {s : AttrStore} (hnd : (s.map Prod.fst).Nodup)
    (i : Nat) (c2 : Cell) :
    keyOf (s.map Prod.fst)
        (s.map (fun q => (q.1, q.2.getD i none)) ++ [("_index", c2)]) =
      s.map (fun e => e.2.getD i none) := by
  have h1 : keyOf (s.map Prod.fst)
      (s.map (fun q => (q.1, q.2.getD i none)) ++ [("_index", c2)]) =
      keyOf (s.map Prod.fst) (s.map (fun q => (q.1, q.2.getD i none))) := by
    unfold keyOf
    apply List.map_congr_left
    intro c hc
    rw [rget_append, if_pos (hasCol_construct i hc)]
  rw [h1, keyOf_construct hnd i]

theorem nodup_getD_inj {l : List Cell} (hnd : l.Nodup) {i j : Nat}
    (hi : i < l.length) (hj : j < l.length)
    (h : l.getD i none = l.getD j none) : i = j := by
  rw [List.getD_eq_getElem l none hi, List.getD_eq_getElem l none hj] at h
  exact List.Nodup.getElem_inj_iff hnd |>.mp h

theorem selfMatch {s : AttrStore} {n : Nat} (hnd : (s.map Prod.fst).Nodup)
    {e0 : String × List Cell} (he0 : e0 ∈ s)
    (hvnd : e0.2.Nodup) (hvlen : e0.2.length = n)
    {i : Nat} (hi : i < n) (c2 : Cell) :
    ((List.range n).map (fun j => s.map (fun q => (q.1, q.2.getD j none)))).filter
        (fun ry => keyOf (s.map Prod.fst) ry ==
          keyOf (s.map Prod.fst)
            (s.map (fun q => (q.1, q.2.getD i none)) ++ [("_index", c2)])) =
      [s.map (fun q => (q.1, q.2.getD i none))] := by
  rw [filter_of_map]
  have hcongr : ∀ j ∈ List.range n,
      (keyOf (s.map Prod.fst) (s.map (fun q => (q.1, q.2.getD j none))) ==
        keyOf (s.map Prod.fst)
          (s.map (fun q => (q.1, q.2.getD i none)) ++ [("_index", c2)])) =
        (j == i) := by
    intro j hj
    rw [keyOf_append_index hnd i c2, keyOf_construct hnd j]
    by_cases hji : j = i
    · subst hji
      rw [beq_self_eq_true, beq_self_eq_true]
    · have hne : (j == i) = false := by
        rw [beq_eq_false_iff_ne]
        exact hji
      rw [hne]
      cases hb : (s.map (fun e => e.2.getD j none) == s.map (fun e => e.2.getD i none)) with
      | false => rfl
      | true =>
          exfalso
          have heq := eq_of_beq hb
          have hpt := map_eq_map_pointwise heq e0 he0
          have hjl : j < e0.2.length := by rw [hvlen]; exact List.mem_range.mp hj
          have hil : i < e0.2.length := by rw [hvlen]; exact hi
          exact hji (nodup_getD_inj hvnd hjl hil hpt)
  rw [List.filter_congr hcongr, filter_range_eq_single hi, List.map_cons, List.map_nil]

end Tidy

namespace Tidy

theorem mkLeft_id {onc ycols : List String} {rx : Row}
    (h : ∀ e ∈ rx, lname onc ycols ".x" e.1 = e.1) :
    mkLeft onc ycols ".x" rx = rx := by
  unfold mkLeft
  have h2 : ∀ e ∈ rx, (lname onc ycols ".x" e.1, e.2) = id e := by
    intro e he
    rw [h e he]
    rfl
  rw [List.map_congr_left h2, List.map_id]

theorem mkRight_nil {onc xcols : List String} {ry : Row}
    (h : ∀ e ∈ ry, onc.contains e.1 = true) :
    mkRight onc xcols ".y" ry = [] := by
  unfold mkRight
  have h2 : ry.filter (fun e => !onc.contains e.1) = [] := by
    rw [List.filter_eq_nil_iff]
    intro e he
    rw [h e he]
    exact Bool.not_true ▸ fun hh => Bool.false_ne_true hh
  rw [h2, List.map_nil]

theorem lname_self_id {s : AttrStore}
    (hus : ∀ c ∈ attrNamesOf s, strStartsWith c "_" = false) :
    ∀ c, c ∈ attrNamesOf s ∨ c = "_index" →
      lname (attrNamesOf s) (attrNamesOf s) ".x" c = c := by
  have hidx : (attrNamesOf s).contains "_index" = false := by
    apply not_mem_contains_false
    intro hm
    have := hus _ hm
    rw [show strStartsWith "_index" "_" = true from rfl] at this
    cases this
  intro c hc
  rcases hc with hm | rfl
  · unfold lname
    rw [if_pos (List.elem_eq_true_of_mem hm)]
  · unfold lname
    rw [if_neg (by rw [hidx]; exact Bool.false_ne_true),
      if_neg (by rw [hidx]; exact Bool.false_ne_true)]

theorem selfMerge_cols (g : Graph)
    (hus : ∀ c ∈ attrNamesOf g.vattrs, strStartsWith c "_" = false) :
    (pdMerge (xTable ActiveType.NODES g) (getVertexDf g)
        (attrNamesOf g.vattrs) ".x" ".y" true .left).cols =
      (attrNamesOf g.vattrs ++ ["_index"]) ++ ["_merge"] := by
  show mergeOutCols (attrNamesOf g.vattrs ++ ["_index"]) (attrNamesOf g.vattrs)
      (attrNamesOf g.vattrs) ".x" ".y" true = _
  unfold mergeOutCols
  have h1 : (attrNamesOf g.vattrs ++ ["_index"]).map
      (lname (attrNamesOf g.vattrs) (attrNamesOf g.vattrs) ".x") =
      attrNamesOf g.vattrs ++ ["_index"] := by
    have hc2 : ∀ c ∈ attrNamesOf g.vattrs ++ ["_index"],
        lname (attrNamesOf g.vattrs) (attrNamesOf g.vattrs) ".x" c = id c := by
      intro c hc
      rcases List.mem_append.mp hc with hm | hm
      · exact lname_self_id hus c (Or.inl hm)
      · rcases List.mem_singleton.mp hm with rfl
        exact lname_self_id hus "_index" (Or.inr rfl)
    rw [List.map_congr_left hc2, List.map_id]
  have h2 : (attrNamesOf g.vattrs).filter
      (fun c => !(attrNamesOf g.vattrs).contains c) = [] := by
    rw [List.filter_eq_nil_iff]
    intro c hc
    have hcc : (attrNamesOf g.vattrs).contains c = true :=
      List.elem_eq_true_of_mem hc
    rw [hcc]
    exact fun hh => Bool.false_ne_true hh
  rw [h1, h2, List.map_nil, List.append_nil]
  rfl

theorem selfMerge_rows (g : Graph)
    (hnd : (attrNamesOf g.vattrs).Nodup)
    (hus : ∀ c ∈ attrNamesOf g.vattrs, strStartsWith c "_" = false)
    {e0 : String × List Cell} (he0 : e0 ∈ g.vattrs)
    (hvnd : e0.2.Nodup) (hvlen : e0.2.length = g.nverts) :
    (pdMerge (xTable ActiveType.NODES g) (getVertexDf g)
        (attrNamesOf g.vattrs) ".x" ".y" true .left).rows =
      (List.range g.nverts).map (fun i =>
        (g.vattrs.map (fun q => (q.1, q.2.getD i none)) ++
            [("_index", some (Val.nat i))]) ++
          [("_merge", some (Val.str "both"))]) := by
  have hiota : (pdMerge (xTable ActiveType.NODES g) (getVertexDf g)
      (attrNamesOf g.vattrs) ".x" ".y" true .left).rows =
      (xTable ActiveType.NODES g).rows.flatMap (fun rx =>
        match (getVertexDf g).rows.filter (fun ry =>
            keyOf (attrNamesOf g.vattrs) ry == keyOf (attrNamesOf g.vattrs) rx) with
        | [] => [rowLeftOnly (attrNamesOf g.vattrs)
            (xTable ActiveType.NODES g).cols (getVertexDf g).cols ".x" ".y" true rx]
        | ms => ms.map (rowBoth (attrNamesOf g.vattrs)
            (xTable ActiveType.NODES g).cols (getVertexDf g).cols ".x" ".y" true rx)) := rfl
  have hxrows : (xTable ActiveType.NODES g).rows =
      (List.range g.nverts).map (fun i =>
        g.vattrs.map (fun q => (q.1, q.2.getD i none)) ++
          [("_index", some (Val.nat i))]) := by
    show ((List.range g.nverts).map (fun i =>
        g.vattrs.map (fun q => (q.1, q.2.getD i none)))).enum.map
        (fun p => p.2 ++ [("_index", some (Val.nat p.1))]) = _
    rw [enum_map_range, List.map_map]
    rfl
  rw [hiota, hxrows, flatMap_map_eq]
  apply flatMap_singleton
  intro i hi
  have hmt : (getVertexDf g).rows.filter (fun ry =>
      keyOf (attrNamesOf g.vattrs) ry ==
        keyOf (attrNamesOf g.vattrs)
          (g.vattrs.map (fun q => (q.1, q.2.getD i none)) ++
            [("_index", some (Val.nat i))])) =
      [g.vattrs.map (fun q => (q.1, q.2.getD i none))] := by
    show ((List.range g.nverts).map (fun j =>
        g.vattrs.map (fun q => (q.1, q.2.getD j none)))).filter _ = _
    exact selfMatch hnd he0 hvnd hvlen (List.mem_range.mp hi) _
  rw [hmt]
  show List.map (rowBoth (attrNamesOf g.vattrs)
      (xTable ActiveType.NODES g).cols (getVertexDf g).cols ".x" ".y" true
      (g.vattrs.map (fun q => (q.1, q.2.getD i none)) ++
        [("_index", some (Val.nat i))]))
      [g.vattrs.map (fun q => (q.1, q.2.getD i none))] = _
  rw [List.map_cons, List.map_nil]
  have hrb : rowBoth (attrNamesOf g.vattrs)
      (xTable ActiveType.NODES g).cols (getVertexDf g).cols ".x" ".y" true
      (g.vattrs.map (fun q => (q.1, q.2.getD i none)) ++
        [("_index", some (Val.nat i))])
      (g.vattrs.map (fun q => (q.1, q.2.getD i none))) =
      (g.vattrs.map (fun q => (q.1, q.2.getD i none)) ++
          [("_index", some (Val.nat i))]) ++
        [("_merge", some (Val.str "both"))] := by
    unfold rowBoth
    have hml : mkLeft (attrNamesOf g.vattrs) (getVertexDf g).cols ".x"
        (g.vattrs.map (fun q => (q.1, q.2.getD i none)) ++
          [("_index", some (Val.nat i))]) =
        g.vattrs.map (fun q => (q.1, q.2.getD i none)) ++
          [("_index", some (Val.nat i))] := by
      apply mkLeft_id
      intro e he
      rcases List.mem_append.mp he with hm | hm
      · obtain ⟨q, hq, rfl⟩ := List.mem_map.mp hm
        exact lname_self_id hus q.1 (Or.inl (List.mem_map_of_mem Prod.fst hq))
      · rcases List.mem_singleton.mp hm with rfl
        exact lname_self_id hus "_index" (Or.inr rfl)
    have hmr : mkRight (attrNamesOf g.vattrs) (xTable ActiveType.NODES g).cols ".y"
        (g.vattrs.map (fun q => (q.1, q.2.getD i none))) = [] := by
      apply mkRight_nil
      intro e he
      obtain ⟨q, hq, rfl⟩ := List.mem_map.mp he
      exact List.elem_eq_true_of_mem (List.mem_map_of_mem Prod.fst hq)
    rw [hml, hmr, List.append_nil]
    rfl
  rw [hrb]

end Tidy

namespace Tidy

theorem any_construct_index_false {s : AttrStore} (i : Nat)
    (hus : ∀ c ∈ attrNamesOf s, strStartsWith c "_" = false) :
    (s.map (fun q => (q.1, q.2.getD i none))).any
      (fun e => e.1 == "_index") = false := by
  rw [List.any_eq_false]
  intro e he
  obtain ⟨q, hq, rfl⟩ := List.mem_map.mp he
  simp only [beq_iff_eq]
  intro hh
  have := hus q.1 (List.mem_map_of_mem Prod.fst hq)
  rw [hh] at this
  rw [show strStartsWith "_index" "_" = true from rfl] at this
  cases this

theorem any_construct_merge_false {s : AttrStore} (i : Nat)
    (hus : ∀ c ∈ attrNamesOf s, strStartsWith c "_" = false) :
    (s.map (fun q => (q.1, q.2.getD i none))).any
      (fun e => e.1 == "_merge") = false := by
  rw [List.any_eq_false]
  intro e he
  obtain ⟨q, hq, rfl⟩ := List.mem_map.mp he
  simp only [beq_iff_eq]
  intro hh
  have := hus q.1 (List.mem_map_of_mem Prod.fst hq)
  rw [hh] at this
  rw [show strStartsWith "_merge" "_" = true from rfl] at this
  cases this

theorem rget_bigRow_attr {s : AttrStore} (hnd : (s.map Prod.fst).Nodup)
    (i : Nat) {e : String × List Cell} (he : e ∈ s) :
    rget ((s.map (fun q => (q.1, q.2.getD i none)) ++
        [("_index", some (Val.nat i))]) ++
        [("_merge", some (Val.str "both"))]) e.1 = e.2.getD i none := by
  rw [rget_append, if_pos ?h1, rget_append, if_pos ?h2]
  · exact rget_construct hnd i e he
  case h1 =>
    rw [List.any_append]
    rw [hasCol_construct i (List.mem_map_of_mem Prod.fst he)]
    rfl
  case h2 => exact hasCol_construct i (List.mem_map_of_mem Prod.fst he)

theorem rget_bigRow_index {s : AttrStore} (i : Nat)
    (hus : ∀ c ∈ attrNamesOf s, strStartsWith c "_" = false) :
    rget ((s.map (fun q => (q.1, q.2.getD i none)) ++
        [("_index", some (Val.nat i))]) ++
        [("_merge", some (Val.str "both"))]) "_index" =
      some (Val.nat i) := by
  rw [rget_append, if_pos ?h1, rget_append,
    if_neg (by rw [any_construct_index_false i hus]; exact Bool.false_ne_true)]
  · rfl
  case h1 =>
    rw [List.any_append, any_construct_index_false i hus]
    rfl

theorem rget_bigRow_merge {s : AttrStore} (i : Nat)
    (hus : ∀ c ∈ attrNamesOf s, strStartsWith c "_" = false) :
    rget ((s.map (fun q => (q.1, q.2.getD i none)) ++
        [("_index", some (Val.nat i))]) ++
        [("_merge", some (Val.str "both"))]) "_merge" =
      some (Val.str "both") := by
  rw [rget_append, if_neg ?h1]
  · rfl
  case h1 =>
    rw [List.any_append, any_construct_merge_false i hus]
    rw [show List.any [("_index", (some (Val.nat i) : Cell))]
      (fun e => e.1 == "_merge") = false from rfl]
    exact Bool.false_ne_true

end Tidy

namespace Tidy

theorem keepCols_id {t : Table} {p : String → Bool}
    (hc : ∀ c ∈ t.cols, p c = true)
    (hr : ∀ r ∈ t.rows, ∀ e ∈ r, p e.1 = true) :
    t.keepCols p = t := by
  cases t with
  | mk cols rows =>
      unfold Table.keepCols
      simp only [Table.mk.injEq]
      constructor
      · exact List.filter_eq_self.mpr hc
      · have h2 : ∀ r ∈ rows, rkeep r p = id r := by
          intro r hrr
          rw [rkeep_id (hr r hrr)]
          rfl
        rw [List.map_congr_left h2, List.map_id]

theorem mem_getD_of_any {l : List Cell} (h : l.any (fun c => c.isSome) = true) :
    ∃ j, j < l.length ∧ (l.getD j none).isSome = true := by
  obtain ⟨c, hc, hs⟩ := List.any_eq_true.mp h
  obtain ⟨j, hj, rfl⟩ := List.mem_iff_getElem.mp hc
  exact ⟨j, hj, by rw [List.getD_eq_getElem l none hj]; exact hs⟩

theorem selfMerge_dropAllMissing (g : Graph)
    (hnd : (attrNamesOf g.vattrs).Nodup)
    (hlen : ∀ e ∈ g.vattrs, e.2.length = g.nverts)
    (hpos : 0 < g.nverts)
    (hus : ∀ c ∈ attrNamesOf g.vattrs, strStartsWith c "_" = false)
    (hmiss : ∀ e ∈ g.vattrs, e.2.any (fun c => c.isSome) = true)
    {e0 : String × List Cell} (he0 : e0 ∈ g.vattrs)
    (hvnd : e0.2.Nodup) (hvlen : e0.2.length = g.nverts) :
    (pdMerge (xTable ActiveType.NODES g) (getVertexDf g)
        (attrNamesOf g.vattrs) ".x" ".y" true .left).dropAllMissing =
      pdMerge (xTable ActiveType.NODES g) (getVertexDf g)
        (attrNamesOf g.vattrs) ".x" ".y" true .left := by
  set xm := pdMerge (xTable ActiveType.NODES g) (getVertexDf g)
    (attrNamesOf g.vattrs) ".x" ".y" true .left with hxm
  have hrows := selfMerge_rows g hnd hus he0 hvnd hvlen
  have hcols := selfMerge_cols g hus
  -- each column of the merged frame holds at least one present cell
  have hone : ∀ c, c ∈ attrNamesOf g.vattrs ∨ c = "_index" ∨ c = "_merge" →
      xm.rows.any (fun r => (rget r c).isSome) = true := by
    intro c hcase
    rw [List.any_eq_true]
    rcases hcase with hm | rfl | rfl
    · obtain ⟨q, hq, rfl⟩ := List.mem_map.mp hm
      obtain ⟨j, hj, hjs⟩ := mem_getD_of_any (hmiss q hq)
      refine ⟨(g.vattrs.map (fun q2 => (q2.1, q2.2.getD j none)) ++
          [("_index", some (Val.nat j))]) ++
          [("_merge", some (Val.str "both"))], ?_, ?_⟩
      · rw [hrows]
        apply List.mem_map_of_mem
        rw [List.mem_range]
        rw [hlen q hq] at hj
        exact hj
      · rw [rget_bigRow_attr hnd j hq]
        exact hjs
    · refine ⟨(g.vattrs.map (fun q2 => (q2.1, q2.2.getD 0 none)) ++
          [("_index", some (Val.nat 0))]) ++
          [("_merge", some (Val.str "both"))], ?_, ?_⟩
      · rw [hrows]
        apply List.mem_map_of_mem
        rw [List.mem_range]
        exact hpos
      · rw [rget_bigRow_index 0 hus]
        rfl
    · refine ⟨(g.vattrs.map (fun q2 => (q2.1, q2.2.getD 0 none)) ++
          [("_index", some (Val.nat 0))]) ++
          [("_merge", some (Val.str "both"))], ?_, ?_⟩
      · rw [hrows]
        apply List.mem_map_of_mem
        rw [List.mem_range]
        exact hpos
      · rw [rget_bigRow_merge 0 hus]
        rfl
  unfold Table.dropAllMissing
  apply keepCols_id
  · intro c hc
    rw [hcols] at hc
    apply hone
    rcases List.mem_append.mp hc with hm | hm
    · rcases List.mem_append.mp hm with hm2 | hm2
      · exact Or.inl hm2
      · rcases List.mem_singleton.mp hm2 with rfl
        exact Or.inr (Or.inl rfl)
    · rcases List.mem_singleton.mp hm with rfl
      exact Or.inr (Or.inr rfl)
  · intro r hrr e he
    rw [hrows] at hrr
    obtain ⟨i, hi, rfl⟩ := List.mem_map.mp hrr
    apply hone
    rcases List.mem_append.mp he with hm | hm
    · rcases List.mem_append.mp hm with hm2 | hm2
      · obtain ⟨q, hq, rfl⟩ := List.mem_map.mp hm2
        exact Or.inl (List.mem_map_of_mem Prod.fst hq)
      · rcases List.mem_singleton.mp hm2 with rfl
        exact Or.inr (Or.inl rfl)
    · rcases List.mem_singleton.mp hm with rfl
      exact Or.inr (Or.inr rfl)

end Tidy

namespace Tidy

theorem selfMerge_finish (g : Graph)
    (hnd : (attrNamesOf g.vattrs).Nodup)
    (hlen : ∀ e ∈ g.vattrs, e.2.length = g.nverts)
    (hpos : 0 < g.nverts)
    (hus : ∀ c ∈ attrNamesOf g.vattrs, strStartsWith c "_" = false)
    (hmiss : ∀ e ∈ g.vattrs, e.2.any (fun c => c.isSome) = true)
    {e0 : String × List Cell} (he0 : e0 ∈ g.vattrs)
    (hvnd : e0.2.Nodup) (hvlen : e0.2.length = g.nverts) :
    finishTable (pdMerge (xTable ActiveType.NODES g) (getVertexDf g)
        (attrNamesOf g.vattrs) ".x" ".y" true .left) =
      (getVertexDf g, []) := by
  set xm := pdMerge (xTable ActiveType.NODES g) (getVertexDf g)
    (attrNamesOf g.vattrs) ".x" ".y" true .left with hxm
  have hrows := selfMerge_rows g hnd hus he0 hvnd hvlen
  have hcols := selfMerge_cols g hus
  have hdrop := selfMerge_dropAllMissing g hnd hlen hpos hus hmiss he0 hvnd hvlen
  rw [← hxm] at hrows hcols hdrop
  -- every merged row is tagged "both"
  have hnoRO : ∀ r ∈ xm.rows, mergeIs r "right_only" = false := by
    intro r hrr
    rw [hrows] at hrr
    obtain ⟨i, hi, rfl⟩ := List.mem_map.mp hrr
    rw [mergeIs, rget_bigRow_merge i hus]
    rfl
  have hnew : xm.rows.filter (fun r => mergeIs r "right_only") = [] := by
    rw [List.filter_eq_nil_iff]
    intro r hrr
    rw [hnoRO r hrr]
    exact Bool.false_ne_true
  have hkept : xm.rows.filter (fun r => !mergeIs r "right_only") = xm.rows := by
    apply List.filter_eq_self.mpr
    intro r hrr
    rw [hnoRO r hrr]
    rfl
  have hsplit : splitNew xm = (xm, []) := by
    unfold splitNew
    rw [hnew, hkept]
    show (({ cols := xm.cols, rows := xm.rows ++ [] } : Table), ([] : List Row)) =
      (xm, [])
    rw [List.append_nil]
  show (dropUnderscoreCols (splitNew xm.dropAllMissing).1,
      (splitNew xm.dropAllMissing).2) = (getVertexDf g, [])
  rw [hdrop, hsplit]
  show (dropUnderscoreCols xm, ([] : List Row)) = (getVertexDf g, [])
  -- the underscore-column drop peels the bookkeeping back to the snapshot
  have hfinal : dropUnderscoreCols xm = getVertexDf g := by
    unfold dropUnderscoreCols Table.keepCols
    have hc : xm.cols.filter (fun c => !strStartsWith c "_") =
        attrNamesOf g.vattrs := by
      rw [hcols, List.filter_append, List.filter_append]
      have h1 : (attrNamesOf g.vattrs).filter (fun c => !strStartsWith c "_") =
          attrNamesOf g.vattrs := by
        apply List.filter_eq_self.mpr
        intro c hcm
        rw [hus c hcm]
        rfl
      have h2 : List.filter (fun c => !strStartsWith c "_") ["_index"] = [] := by
        rfl
      have h3 : List.filter (fun c => !strStartsWith c "_") ["_merge"] = [] := by
        rfl
      rw [h1, h2, h3, List.append_nil, List.append_nil]
    have hrw : xm.rows.map (fun r => rkeep r (fun c => !strStartsWith c "_")) =
        (getVertexDf g).rows := by
      rw [hrows, List.map_map]
      show (List.range g.nverts).map _ = (List.range g.nverts).map _
      apply List.map_congr_left
      intro i hi
      show rkeep ((g.vattrs.map (fun q => (q.1, q.2.getD i none)) ++
          [("_index", some (Val.nat i))]) ++
          [("_merge", some (Val.str "both"))]) (fun c => !strStartsWith c "_") =
        g.vattrs.map (fun q => (q.1, q.2.getD i none))
      unfold rkeep
      rw [List.filter_append, List.filter_append]
      have h1 : (g.vattrs.map (fun q => (q.1, q.2.getD i none))).filter
          (fun e => !strStartsWith e.1 "_") =
          g.vattrs.map (fun q => (q.1, q.2.getD i none)) := by
        apply List.filter_eq_self.mpr
        intro e he
        obtain ⟨q, hq, rfl⟩ := List.mem_map.mp he
        rw [hus q.1 (List.mem_map_of_mem Prod.fst hq)]
        rfl
      have h2 : List.filter (fun (e : String × Cell) => !strStartsWith e.1 "_")
          [("_index", some (Val.nat i))] = [] := rfl
      have h3 : List.filter (fun (e : String × Cell) => !strStartsWith e.1 "_")
          [("_merge", some (Val.str "both"))] = [] := rfl
      rw [h1, h2, h3, List.append_nil, List.append_nil]
    rw [hc, hrw]
    rfl
  rw [hfinal]

end Tidy

namespace Tidy

theorem vdf_col {g : Graph} (hnd : (attrNamesOf g.vattrs).Nodup)
    {e : String × List Cell} (he : e ∈ g.vattrs)
    (hlen : e.2.length = g.nverts) :
    (getVertexDf g).col e.1 = e.2 := by
  show ((List.range g.nverts).map (fun i =>
      g.vattrs.map (fun q => (q.1, q.2.getD i none)))).map
      (fun r => rget r e.1) = e.2
  rw [List.map_map]
  have hpt : ∀ i ∈ List.range g.nverts,
      rget (g.vattrs.map (fun q => (q.1, q.2.getD i none))) e.1 =
        e.2.getD i none := by
    intro i hi
    exact rget_construct hnd i e he
  show (List.range g.nverts).map (fun i =>
      rget (g.vattrs.map (fun q => (q.1, q.2.getD i none))) e.1) = e.2
  rw [List.map_congr_left hpt]
  exact map_getD_range hlen

theorem foldAssemble (data : Table) (n : Nat) (rsv : List String) :
    ∀ (suf pre : AttrStore),
    ((pre ++ suf).map Prod.fst).Nodup →
    (∀ e ∈ suf, rsv.contains e.1 = false ∧ data.col e.1 = e.2 ∧
      e.2.length = n) →
    (suf.map Prod.fst).foldlM (fun (s : AttrStore) c =>
        if rsv.contains c then pure s
        else
          if (data.col c).length == n then pure (setAttr s c (data.col c))
          else Except.error "attribute assignment length mismatch") pre =
      Except.ok (pre ++ suf) := by
  intro suf
  induction suf with
  | nil =>
      intro pre hndd hsuf
      rw [List.append_nil]
      rfl
  | cons e t ih =>
      intro pre hndd hsuf
      obtain ⟨hrsv, hcol, hlen⟩ := hsuf e (List.mem_cons_self e t)
      rw [List.map_cons, List.foldlM_cons]
      rw [if_neg (by rw [hrsv]; exact Bool.false_ne_true)]
      rw [hcol, if_pos (by rw [hlen]; exact beq_self_eq_true n)]
      have hnotin : pre.any (fun q => q.1 == e.1) = false := by
        rw [List.map_append, List.map_cons] at hndd
        have hdisj := (List.nodup_append.mp hndd).2.2
        rw [List.any_eq_false]
        intro q hq
        simp only [beq_iff_eq]
        intro hh
        exact hdisj (hh ▸ List.mem_map_of_mem Prod.fst hq)
          (List.mem_cons_self _ _)
      have hset : setAttr pre e.1 e.2 = pre ++ [e] := by
        unfold setAttr
        rw [if_neg (by rw [hnotin]; exact Bool.false_ne_true)]
      rw [hset]
      show (t.map Prod.fst).foldlM _ (pre ++ [e]) = _
      have hnd2 : (((pre ++ [e]) ++ t).map Prod.fst).Nodup := by
        rw [List.append_assoc, List.singleton_append]
        exact hndd
      rw [ih (pre ++ [e]) hnd2
        (fun q hq => hsuf q (List.mem_cons_of_mem e hq))]
      rw [List.append_assoc, List.singleton_append]

theorem applyAttributes_self (g : Graph)
    (hnd : (attrNamesOf g.vattrs).Nodup)
    (hlen : ∀ e ∈ g.vattrs, e.2.length = g.nverts)
    (hres : "vertex ID" ∉ attrNamesOf g.vattrs) :
    applyAttributes ActiveType.NODES g (getVertexDf g) = Except.ok g := by
  have hfold : (g.vattrs.map Prod.fst).foldlM (fun (s : AttrStore) c =>
      if (reservedFor ActiveType.NODES).contains c then pure s
      else
        if ((getVertexDf g).col c).length == contextCount g ActiveType.NODES then
          pure (setAttr s c ((getVertexDf g).col c))
        else Except.error "attribute assignment length mismatch")
      ([] : AttrStore) = Except.ok g.vattrs := by
    have := foldAssemble (getVertexDf g) (contextCount g ActiveType.NODES)
      (reservedFor ActiveType.NODES) g.vattrs [] ?hndd ?hsuf
    · rw [List.nil_append] at this
      exact this
    case hndd => rw [List.nil_append]; exact hnd
    case hsuf =>
      intro e he
      refine ⟨?_, vdf_col hnd he (hlen e he), hlen e he⟩
      apply not_mem_contains_false
      intro hm
      rcases List.mem_singleton.mp hm with hh
      exact hres (hh ▸ List.mem_map_of_mem Prod.fst he)
  show ((getVertexDf g).cols.foldlM (fun (s : AttrStore) c =>
      if (reservedFor ActiveType.NODES).contains c then pure s
      else
        if ((getVertexDf g).col c).length == contextCount g ActiveType.NODES then
          pure (setAttr s c ((getVertexDf g).col c))
        else Except.error "attribute assignment length mismatch")
      ([] : AttrStore)) >>=
      (fun s => pure (putStore g ActiveType.NODES s)) = Except.ok g
  show (g.vattrs.map Prod.fst).foldlM _ ([] : AttrStore) >>=
      (fun s => pure (putStore g ActiveType.NODES s)) = Except.ok g
  rw [hfold]
  rfl

end Tidy

namespace Tidy

theorem filterMap_map_some {α β : Type} {l : List α} {f : α → β}
    {p : β → Option α} (h : ∀ i ∈ l, p (f i) = some i) :
    (l.map f).filterMap p = l := by
  induction l with
  | nil => rfl
  | cons a t ih =>
      rw [List.map_cons, List.filterMap_cons, h a (List.mem_cons_self a t)]
      rw [ih (fun i hi => h i (List.mem_cons_of_mem a hi))]

theorem selfMerge_vals (g : Graph)
    (hnd : (attrNamesOf g.vattrs).Nodup)
    (hus : ∀ c ∈ attrNamesOf g.vattrs, strStartsWith c "_" = false)
    {e0 : String × List Cell} (he0 : e0 ∈ g.vattrs)
    (hvnd : e0.2.Nodup) (hvlen : e0.2.length = g.nverts) :
    (pdMerge (xTable ActiveType.NODES g) (getVertexDf g)
        (attrNamesOf g.vattrs) ".x" ".y" true .left).rows.filterMap
      (fun r => if mergeIs r "both" then indexVal r else none) =
      List.range g.nverts := by
  rw [selfMerge_rows g hnd hus he0 hvnd hvlen]
  apply filterMap_map_some
  intro i hi
  rw [if_pos ?hm]
  · rw [indexVal, rget_bigRow_index i hus]
    rfl
  case hm =>
    rw [mergeIs, rget_bigRow_merge i hus]
    exact beq_self_eq_true _

theorem selfMerge_explosion (g : Graph)
    (hnd : (attrNamesOf g.vattrs).Nodup)
    (hus : ∀ c ∈ attrNamesOf g.vattrs, strStartsWith c "_" = false)
    {e0 : String × List Cell} (he0 : e0 ∈ g.vattrs)
    (hvnd : e0.2.Nodup) (hvlen : e0.2.length = g.nverts) :
    explosionIdx (pdMerge (xTable ActiveType.NODES g) (getVertexDf g)
        (attrNamesOf g.vattrs) ".x" ".y" true .left) = [] := by
  have hvals := selfMerge_vals g hnd hus he0 hvnd hvlen
  show (List.range (((pdMerge (xTable ActiveType.NODES g) (getVertexDf g)
      (attrNamesOf g.vattrs) ".x" ".y" true .left).rows.filterMap
        (fun r => if mergeIs r "both" then indexVal r else none)).foldl
          Nat.max 0 + 1)).filter
      (fun i => ((pdMerge (xTable ActiveType.NODES g) (getVertexDf g)
        (attrNamesOf g.vattrs) ".x" ".y" true .left).rows.filterMap
          (fun r => if mergeIs r "both" then indexVal r else none)).count i > 1) =
      []
  rw [hvals]
  rw [List.filter_eq_nil_iff]
  intro i hi
  simp only [decide_eq_true_eq]
  have hc : (List.range g.nverts).count i ≤ 1 :=
    List.nodup_iff_count_le_one.mp (List.nodup_range g.nverts) i
  omega

end Tidy

namespace Tidy

/-- C9, amended: in the node context, a left self-join of the graph with its
own vertex table leaves the graph unchanged, provided the vertex names are
unique, every stored attribute column has full length, no attribute name
uses the reserved underscore prefix or the "vertex ID" identity name, the
graph is non-empty, and no attribute column is missing in every row.  (The
unamended claim fails in the edge context: see the counterexample.) -/
theorem c9_node_self_join_identity (g : Graph)
    (hnd : (attrNamesOf g.vattrs).Nodup)
    (hlen : ∀ e ∈ g.vattrs, e.2.length = g.nverts)
    (hpos : 0 < g.nverts)
    (hus : ∀ c ∈ attrNamesOf g.vattrs, strStartsWith c "_" = false)
    (hres : "vertex ID" ∉ attrNamesOf g.vattrs)
    (hmiss : ∀ e ∈ g.vattrs, e.2.any (fun c => c.isSome) = true)
    (hnm : "name" ∈ attrNamesOf g.vattrs)
    (hnames : g.names.Nodup) :
    tidyJoin ActiveType.NODES g (getVertexDf g) none ".x" ".y" "left" =
      Except.ok g := by
  obtain ⟨e0, he0, hfst⟩ := List.mem_map.mp hnm
  have hcm : attrCol g.vattrs e0.1 = e0.2 := attrCol_mem hnd e0 he0
  rw [hfst] at hcm
  have hvnd : e0.2.Nodup := hcm ▸ hnames
  have hvlen : e0.2.length = g.nverts := hlen e0 he0
  have hidx : "_index" ∉ attrNamesOf g.vattrs := by
    intro hm
    have := hus _ hm
    rw [show strStartsWith "_index" "_" = true from rfl] at this
    cases this
  have hLJ : left_join ActiveType.NODES g (getVertexDf g) none ".x" ".y" =
      Except.ok g := by
    rw [left_join_eq_node]
    have hey : effectiveY ActiveType.NODES g (getVertexDf g) =
        getVertexDf g := rfl
    have hon : effectiveOn ActiveType.NODES g (getVertexDf g) none =
        attrNamesOf g.vattrs := by
      show commonCols (attrNamesOf g.vattrs ++ ["_index"])
        (attrNamesOf g.vattrs) = attrNamesOf g.vattrs
      exact commonCols_append_index hidx
    rw [hey, hon]
    rw [selfMerge_explosion g hnd hus he0 hvnd hvlen, List.foldl_nil]
    rw [selfMerge_finish g hnd hlen hpos hus hmiss he0 hvnd hvlen]
    show applyAttributes ActiveType.NODES g (getVertexDf g) = Except.ok g
    exact applyAttributes_self g hnd hlen hres
  have hc1 : (getVertexDf g).cols.contains reservedJoinKeyword = false :=
    not_mem_contains_false hidx
  have hcn : (getVertexDf g).cols.contains "name" = true :=
    List.elem_eq_true_of_mem hnm
  have hc3 : (ActiveType.NODES == ActiveType.NODES &&
      !((getVertexDf g).cols.contains "name")) = false := by
    rw [hcn]
    rfl
  unfold tidyJoin
  rw [if_neg (by rw [hc1]; exact Bool.false_ne_true)]
  rw [if_neg (show ¬((ActiveType.NODES == ActiveType.EDGES &&
    !((getVertexDf g).cols.contains "from" &&
      (getVertexDf g).cols.contains "to")) = true) from Bool.false_ne_true)]
  rw [if_neg (by rw [hc3]; exact Bool.false_ne_true)]
  exact hLJ

theorem c9_node_self_join_identity_witness :
    tidyJoin ActiveType.NODES gABC (getVertexDf gABC) none ".x" ".y" "left" =
      Except.ok gABC :=
  c9_node_self_join_identity gABC (by decide) (by decide) (by decide)
    (by decide) (by decide) (by decide) (by decide) (by decide)

end Tidy

namespace Tidy

theorem rget_map_replace {r : Row} {c : String} (v : Cell)
    (h : r.any (fun e => e.1 == c) = true) :
    rget (r.map (fun e => if e.1 == c then (c, v) else e)) c = v := by
  induction r with
  | nil => cases h
  | cons a t ih =>
      rw [List.map_cons]
      by_cases hc : (a.1 == c) = true
      · rw [if_pos hc, rget_cons, if_pos (beq_self_eq_true c)]
      · rw [if_neg hc, rget_cons, if_neg hc]
        rw [List.any_cons] at h
        rcases Bool.or_eq_true_iff.mp h with hh | hh
        · exact absurd hh hc
        · exact ih hh

theorem rget_rset_self (r : Row) (c : String) (v : Cell) :
    rget (rset r c v) c = v := by
  unfold rset
  split
  · exact rget_map_replace v (by assumption)
  · rename_i h
    rw [rget_append, if_neg (by rw [Bool.not_eq_true] at h; rw [h]; exact Bool.false_ne_true)]
    rw [rget_cons, if_pos (beq_self_eq_true c)]

theorem rget_none_of_any_false {r : Row} {c : String}
    (h : r.any (fun e => e.1 == c) = false) : rget r c = none := by
  unfold rget
  rw [List.find?_eq_none.mpr]
  intro e he
  exact fun hb => (List.any_eq_false.mp h e he) hb

theorem rget_map_replace_ne {r : Row} {c c2 : String} (v : Cell)
    (hne : c ≠ c2) :
    rget (r.map (fun e => if e.1 == c then (c, v) else e)) c2 = rget r c2 := by
  induction r with
  | nil => rfl
  | cons a t ih =>
      rw [List.map_cons]
      by_cases hc : (a.1 == c) = true
      · rw [if_pos hc, rget_cons, rget_cons]
        rw [if_neg (by simpa using hne), if_neg ?ha]
        · exact ih
        case ha =>
          rw [eq_of_beq hc]
          simpa using hne
      · rw [if_neg hc, rget_cons, rget_cons]
        by_cases h2 : (a.1 == c2) = true
        · rw [if_pos h2, if_pos h2]
        · rw [if_neg h2, if_neg h2]
          exact ih

theorem rget_rset_ne (r : Row) {c c2 : String} (v : Cell) (hne : c ≠ c2) :
    rget (rset r c v) c2 = rget r c2 := by
  unfold rset
  split
  · exact rget_map_replace_ne v hne
  · rw [rget_append]
    split
    · rfl
    · rename_i hany
      rw [Bool.not_eq_true] at hany
      rw [rget_cons, if_neg (by simpa using hne)]
      rw [rget_none_of_any_false hany]
      rfl

end Tidy

namespace Tidy

theorem mem_insertSorted {key : Row → Option Nat} {p q : Nat × Row}
    {l : List (Nat × Row)} (h : q = p ∨ q ∈ l) :
    q ∈ insertSorted key p l := by
  induction l with
  | nil =>
      rcases h with rfl | hm
      · exact List.mem_singleton.mpr rfl
      · cases hm
  | cons a t ih =>
      unfold insertSorted
      split
      · rcases h with rfl | hm
        · exact List.mem_cons_of_mem a (ih (Or.inl rfl))
        · rcases List.mem_cons.mp hm with rfl | hm2
          · exact List.mem_cons_self _ _
          · exact List.mem_cons_of_mem a (ih (Or.inr hm2))
      · rcases h with rfl | hm
        · exact List.mem_cons_self _ _
        · exact List.mem_cons_of_mem p hm

theorem mem_sortByKey {key : Row → Option Nat} {q : Nat × Row}
    {l : List (Nat × Row)} (h : q ∈ l) : q ∈ sortByKey key l := by
  induction l with
  | nil => cases h
  | cons a t ih =>
      show q ∈ insertSorted key a (sortByKey key t)
      rcases List.mem_cons.mp h with rfl | hm
      · exact mem_insertSorted (Or.inl rfl)
      · exact mem_insertSorted (Or.inr (ih hm))

end Tidy


namespace Tidy

theorem right_edge_ok_notna {g : Graph} {y0 : Table} {onv : Option (List String)}
    {g2 : Graph}
    (h : right_join ActiveType.EDGES g y0 onv ".x" ".y" = Except.ok g2) :
    ((sortByKey (fun r => getEid g (rget r "source") (rget r "target"))
        (((y0.setCol "source" ((y0.col "from").map (nameToIndex g))).setCol
          "target" ((y0.col "to").map (nameToIndex g))).rows.enum)).all
      (fun p => (rget p.2 "source").isSome && (rget p.2 "target").isSome)) =
      true := by
  unfold right_join at h
  simp only [beq_self_eq_true, eq_self_iff_true, if_true] at h
  split at h
  · rename_i hcond
    simp [Bind.bind, Except.bind, throw, throwThe, MonadExceptOf.throw] at h
  · rename_i hcond
    cases hb : ((sortByKey (fun r => getEid g (rget r "source") (rget r "target"))
        (((y0.setCol "source" ((y0.col "from").map (nameToIndex g))).setCol
          "target" ((y0.col "to").map (nameToIndex g))).rows.enum)).all
      (fun p => (rget p.2 "source").isSome && (rget p.2 "target").isSome)) with
    | true => rfl
    | false =>
        rw [hb] at hcond
        exact absurd rfl hcond

end Tidy

namespace Tidy

theorem getElem?_zipWith {α β γ : Type} (f : α → β → γ) :
    ∀ (as : List α) (bs : List β) (k : Nat),
    (List.zipWith f as bs)[k]? =
      match as[k]?, bs[k]? with
      | some a, some b => some (f a b)
      | _, _ => none := by
  intro as
  induction as with
  | nil => intro bs k; simp
  | cons a t ih =>
      intro bs k
      cases bs with
      | nil => simp
      | cons b u =>
          cases k with
          | zero => simp
          | succ m =>
              rw [List.zipWith_cons_cons]
              rw [List.getElem?_cons_succ, List.getElem?_cons_succ,
                List.getElem?_cons_succ]
              exact ih u m

theorem setCol_rows_getElem {t : Table} {c : String} {vals : List Cell}
    {k : Nat} {r : Row} {v : Cell}
    (hk : t.rows[k]? = some r) (hv : vals[k]? = some v) :
    (t.setCol c vals).rows[k]? = some (rset r c v) := by
  show (t.rows.zipWith (fun r2 v2 => rset r2 c v2) vals)[k]? = _
  rw [getElem?_zipWith, hk, hv]

theorem col_getElem {t : Table} {c : String} {k : Nat} {r : Row}
    (hk : t.rows[k]? = some r) :
    (t.col c)[k]? = some (rget r c) := by
  show (t.rows.map (fun r2 => rget r2 c))[k]? = _
  rw [List.getElem?_map, hk]
  rfl

theorem y1_row_endpoints (g : Graph) (y0 : Table) {k : Nat} {r : Row}
    (hk : y0.rows[k]? = some r) :
    ((y0.setCol "source" ((y0.col "from").map (nameToIndex g))).setCol
        "target" ((y0.col "to").map (nameToIndex g))).rows[k]? =
      some (rset (rset r "source" (nameToIndex g (rget r "from")))
        "target" (nameToIndex g (rget r "to"))) := by
  have h1 : ((y0.col "from").map (nameToIndex g))[k]? =
      some (nameToIndex g (rget r "from")) := by
    rw [List.getElem?_map, col_getElem hk]
    rfl
  have h2 : ((y0.col "to").map (nameToIndex g))[k]? =
      some (nameToIndex g (rget r "to")) := by
    rw [List.getElem?_map, col_getElem hk]
    rfl
  have hstep1 := @setCol_rows_getElem y0 "source"
    ((y0.col "from").map (nameToIndex g)) k r
    (nameToIndex g (rget r "from")) hk h1
  exact @setCol_rows_getElem (y0.setCol "source"
      ((y0.col "from").map (nameToIndex g))) "target"
    ((y0.col "to").map (nameToIndex g)) k
    (rset r "source" (nameToIndex g (rget r "from")))
    (nameToIndex g (rget r "to")) hstep1 h2

theorem mem_of_getElem_opt {α : Type} : ∀ {l : List α} {k : Nat} {a : α},
    l[k]? = some a → a ∈ l := by
  intro l
  induction l with
  | nil => intro k a h; cases h
  | cons b t ih =>
      intro k a h
      cases k with
      | zero =>
          rw [List.getElem?_cons_zero] at h
          rcases Option.some.injEq .. ▸ h with rfl
          exact List.mem_cons_self _ _
      | succ m =>
          rw [List.getElem?_cons_succ] at h
          exact List.mem_cons_of_mem b (ih h)

theorem enumFrom_mem_of_getElem {α : Type} :
    ∀ {l : List α} {k : Nat} {a : α} (n : Nat),
    l[k]? = some a → (n + k, a) ∈ l.enumFrom n := by
  intro l
  induction l with
  | nil => intro k a n h; cases h
  | cons b t ih =>
      intro k a n h
      show _ ∈ (n, b) :: t.enumFrom (n + 1)
      cases k with
      | zero =>
          rw [List.getElem?_cons_zero] at h
          rcases Option.some.injEq .. ▸ h with rfl
          rw [Nat.add_zero]
          exact List.mem_cons_self _ _
      | succ m =>
          rw [List.getElem?_cons_succ] at h
          have := ih (n + 1) h
          rw [show n + (m + 1) = n + 1 + m by omega]
          exact List.mem_cons_of_mem _ this

theorem enum_mem_of_getElem {α : Type} {l : List α} {k : Nat} {a : α}
    (h : l[k]? = some a) : (k, a) ∈ l.enum := by
  have := enumFrom_mem_of_getElem 0 h
  rwa [Nat.zero_add] at this

theorem c2_right_half {g : Graph} {y0 : Table} {onv : Option (List String)}
    (hbad : ∃ (k : Nat) (r : Row), y0.rows[k]? = some r ∧
      (nameToIndex g (rget r "from") = none ∨
        nameToIndex g (rget r "to") = none)) :
    isErr (right_join ActiveType.EDGES g y0 onv ".x" ".y") = true := by
  cases hX : right_join ActiveType.EDGES g y0 onv ".x" ".y" with
  | error e => rfl
  | ok g2 =>
      exfalso
      have hall := right_edge_ok_notna hX
      obtain ⟨k, r, hk, hbad2⟩ := hbad
      have hrow := y1_row_endpoints g y0 hk
      set r2 := rset (rset r "source" (nameToIndex g (rget r "from")))
        "target" (nameToIndex g (rget r "to")) with hr2
      have hmem : (k, r2) ∈
          ((y0.setCol "source" ((y0.col "from").map (nameToIndex g))).setCol
            "target" ((y0.col "to").map (nameToIndex g))).rows.enum := by
        exact enum_mem_of_getElem hrow
      have hmem2 := @mem_sortByKey
        (fun r3 => getEid g (rget r3 "source") (rget r3 "target")) (k, r2) _ hmem
      have hpred := List.all_eq_true.mp hall _ hmem2
      have hsrc : rget r2 "source" = nameToIndex g (rget r "from") := by
        rw [hr2, rget_rset_ne _ _ (show "target" ≠ "source" by decide)]
        exact rget_rset_self _ _ _
      have htgt : rget r2 "target" = nameToIndex g (rget r "to") := by
        rw [hr2]
        exact rget_rset_self _ _ _
      rcases hbad2 with hb | hb
      · rw [show rget (k, r2).2 "source" = rget r2 "source" from rfl] at hpred
        rw [hsrc, hb] at hpred
        rw [show (none : Cell).isSome = false from rfl, Bool.false_and] at hpred
        cases hpred
      · rw [show rget (k, r2).2 "target" = rget r2 "target" from rfl] at hpred
        rw [htgt, hb] at hpred
        rw [show (none : Cell).isSome = false from rfl, Bool.and_false] at hpred
        cases hpred

end Tidy

namespace Tidy

theorem rget_rkeep_none {r : Row} {c : String} (p : String → Bool)
    (h : rget r c = none) : rget (rkeep r p) c = none := by
  rw [rget_rkeep]
  split
  · exact h
  · rfl

theorem resolvePairs_bad {g : Graph} :
    ∀ {pairs : List (Cell × Cell)},
    (∃ p ∈ pairs, p.1 = none ∨ p.2 = none) →
    ∀ l, resolvePairs g pairs ≠ Except.ok l := by
  intro pairs
  induction pairs with
  | nil =>
      rintro ⟨p, hp, hbad⟩
      cases hp
  | cons q qs ih =>
      rintro ⟨p, hp, hbad⟩ l hok
      unfold resolvePairs at hok
      rcases List.mem_cons.mp hp with rfl | hm
      · rcases hbad with hb | hb
        · rw [hb] at hok
          simp [Bind.bind, Except.bind, decodeVertex] at hok
        · rw [hb] at hok
          rcases hdec : decodeVertex g p.1 with e | s
          · rw [hdec] at hok
            simp [Bind.bind, Except.bind] at hok
          · rw [hdec] at hok
            simp [Bind.bind, Except.bind, decodeVertex] at hok
      · rcases hdec : decodeVertex g q.1 with e | s
        · rw [hdec] at hok
          simp [Bind.bind, Except.bind] at hok
        · rw [hdec] at hok
          rcases hdec2 : decodeVertex g q.2 with e | t
          · rw [hdec2] at hok
            simp [Bind.bind, Except.bind] at hok
          · rw [hdec2] at hok
            rcases hrest : resolvePairs g qs with e | rest
            · rw [hrest] at hok
              simp [Bind.bind, Except.bind] at hok
            · exact ih ⟨p, hm, hbad⟩ rest hrest

end Tidy

namespace Tidy

theorem addEdges_bad {g : Graph} {pairs : List (Cell × Cell)}
    (h : ∃ p ∈ pairs, p.1 = none ∨ p.2 = none) :
    ∀ gm, addEdges g pairs ≠ Except.ok gm := by
  intro gm hok
  unfold addEdges at hok
  rcases hres : resolvePairs g pairs with e | l
  · rw [hres] at hok
    simp [Bind.bind, Except.bind] at hok
  · exact resolvePairs_bad h l hres

theorem foldl_invariant {α β : Type} (P : β → Prop) (f : β → α → β) :
    ∀ (l : List α) (b : β), P b → (∀ b2 a, a ∈ l → P b2 → P (f b2 a)) →
    P (l.foldl f b) := by
  intro l
  induction l with
  | nil => intro b hb _; exact hb
  | cons a t ih =>
      intro b hb hstep
      rw [List.foldl_cons]
      exact ih (f b a) (hstep b a (List.mem_cons_self a t) hb)
        (fun b2 x hx => hstep b2 x (List.mem_cons_of_mem a hx))

theorem foldlM_ok_invariant {α β : Type} (P : β → Prop)
    (f : β → α → Except String β) :
    ∀ (l : List α) (b b2 : β), l.foldlM f b = Except.ok b2 → P b →
    (∀ u u2 a, a ∈ l → P u → f u a = Except.ok u2 → P u2) →
    P b2 := by
  intro l
  induction l with
  | nil =>
      intro b b2 hok hb _
      rw [List.foldlM_nil] at hok
      cases hok
      exact hb
  | cons a t ih =>
      intro b b2 hok hb hstep
      rw [List.foldlM_cons] at hok
      rcases hfa : f b a with e | u
      · rw [hfa] at hok
        simp [Bind.bind, Except.bind] at hok
      · rw [hfa] at hok
        have hu : P u := hstep b u a (List.mem_cons_self a t) hb hfa
        exact ih u b2 hok hu
          (fun v v2 x hx => hstep v v2 x (List.mem_cons_of_mem a hx))

theorem zipWith_replicate_right {α β γ : Type} (f : α → β → γ) (v : β) :
    ∀ (l : List α), List.zipWith f l (List.replicate l.length v) =
      l.map (fun a => f a v) := by
  intro l
  induction l with
  | nil => rfl
  | cons a t ih =>
      rw [List.map_cons, List.length_cons, List.replicate_succ,
        List.zipWith_cons_cons, ih]

theorem zipWith_map_right_self {α β γ : Type} (f : α → β → γ) (g : α → β) :
    ∀ (l : List α), List.zipWith f l (l.map g) =
      l.map (fun a => f a (g a)) := by
  intro l
  induction l with
  | nil => rfl
  | cons a t ih =>
      rw [List.map_cons, List.map_cons, List.zipWith_cons_cons, ih]

theorem mem_markRows {m : Table} {ps : List Nat} {r2 : Row}
    (h : r2 ∈ (markRows m ps).rows) :
    ∃ r ∈ m.rows, r2 = r ∨ r2 = rset r "_merge" (some (Val.str "right_only")) := by
  unfold markRows at h
  obtain ⟨p, hp, hre⟩ := List.mem_map.mp h
  refine ⟨p.2, snd_mem_of_mem_enum hp, ?_⟩
  by_cases hc : ps.contains p.1 = true
  · right
    rw [← hre, if_pos hc]
  · left
    rw [← hre, if_neg hc]

end Tidy

namespace Tidy

theorem rget_rowRightOnly_source {ycols : List String} {rest : List String}
    {ry : Row} (ind : Bool) :
    rget (rowRightOnly ["source", "target"] ("source" :: "target" :: rest)
      ycols ".x" ".y" ind ry) "source" = rget ry "source" := by
  unfold rowRightOnly
  rw [List.map_cons]
  rw [show (if List.contains ["source", "target"] "source" then
      ("source", rget ry "source")
      else (lname ["source", "target"] ycols ".x" "source", (none : Cell))) =
    ("source", rget ry "source") from rfl]
  rw [List.cons_append, List.cons_append, rget_cons,
    if_pos (beq_self_eq_true _)]

theorem rget_rowRightOnly_target {ycols : List String} {rest : List String}
    {ry : Row} (ind : Bool) :
    rget (rowRightOnly ["source", "target"] ("source" :: "target" :: rest)
      ycols ".x" ".y" ind ry) "target" = rget ry "target" := by
  unfold rowRightOnly
  rw [List.map_cons, List.map_cons]
  rw [show (if List.contains ["source", "target"] "source" then
      ("source", rget ry "source")
      else (lname ["source", "target"] ycols ".x" "source", (none : Cell))) =
    ("source", rget ry "source") from rfl]
  rw [show (if List.contains ["source", "target"] "target" then
      ("target", rget ry "target")
      else (lname ["source", "target"] ycols ".x" "target", (none : Cell))) =
    ("target", rget ry "target") from rfl]
  rw [List.cons_append, List.cons_append, List.cons_append, List.cons_append,
    rget_cons,
    show (("source", rget ry "source").1 == "target") = false from rfl,
    if_neg Bool.false_ne_true,
    rget_cons, if_pos (beq_self_eq_true _)]

theorem rget_rowRightOnly_merge {ycols : List String} {rest : List String}
    {ry : Row}
    (hrest : ∀ c ∈ rest, c ≠ "_merge")
    (hry : ∀ e ∈ ry, e.1 ≠ "_merge") :
    rget (rowRightOnly ["source", "target"] ("source" :: "target" :: rest)
      ycols ".x" ".y" true ry) "_merge" = some (Val.str "right_only") := by
  unfold rowRightOnly
  have h1 : (("source" :: "target" :: rest).map (fun c =>
      if List.contains ["source", "target"] c then (c, rget ry c)
      else (lname ["source", "target"] ycols ".x" c, (none : Cell)))).any
      (fun e => e.1 == "_merge") = false := by
    rw [List.any_eq_false]
    intro e he
    obtain ⟨c, hc, rfl⟩ := List.mem_map.mp he
    rcases List.mem_cons.mp hc with rfl | hc2
    · exact Bool.false_ne_true
    rcases List.mem_cons.mp hc2 with rfl | hc3
    · exact Bool.false_ne_true
    · show ¬((if List.contains ["source", "target"] c then (c, rget ry c)
        else (lname ["source", "target"] ycols ".x" c, (none : Cell))).1 ==
          "_merge") = true
      split
      · simpa using hrest c hc3
      · simpa using lname_ne_bookkeeping (hrest c hc3) (by rfl)
  have h2 : (mkRight ["source", "target"] ("source" :: "target" :: rest)
      ".y" ry).any (fun e => e.1 == "_merge") = false := by
    apply any_mkRight_false
    intro e he
    exact rname_ne_bookkeeping (hry e he) (by rfl)
  rw [List.append_assoc, rget_append,
    if_neg (by rw [h1]; exact Bool.false_ne_true),
    rget_append, if_neg (by rw [h2]; exact Bool.false_ne_true)]
  rfl

theorem edge_x_rows_some {g : Graph} :
    ∀ rx ∈ (addIndexCol (getEdgeDf g)).rows,
      (rget rx "source").isSome = true ∧ (rget rx "target").isSome = true := by
  intro rx hm
  obtain ⟨p, hp, rfl⟩ := List.mem_map.mp hm
  have hp2 : p.2 ∈ (getEdgeDf g).rows := snd_mem_of_mem_enum hp
  obtain ⟨q, hq, hfq⟩ := List.mem_map.mp hp2
  rw [← hfq]
  constructor
  · rfl
  · rfl

end Tidy

namespace Tidy

theorem keys_beq_false_src {m r3 : Row}
    (hs : (rget m "source").isSome = true) (hb : rget r3 "source" = none) :
    (keyOf ["source", "target"] m == keyOf ["source", "target"] r3) = false := by
  rw [beq_eq_false_iff_ne]
  intro heq
  have heq2 := List.cons.inj
    (heq : [rget m "source", rget m "target"] =
      [rget r3 "source", rget r3 "target"])
  obtain ⟨v, hv⟩ := Option.isSome_iff_exists.mp hs
  have h1 : rget m "source" = rget r3 "source" := heq2.1
  rw [hv, hb] at h1
  cases h1

theorem keys_beq_false_tgt {m r3 : Row}
    (hs : (rget m "target").isSome = true) (hb : rget r3 "target" = none) :
    (keyOf ["source", "target"] m == keyOf ["source", "target"] r3) = false := by
  rw [beq_eq_false_iff_ne]
  intro heq
  have heq2 := List.cons.inj
    (heq : [rget m "source", rget m "target"] =
      [rget r3 "source", rget r3 "target"])
  have heq3 := List.cons.inj heq2.2
  obtain ⟨v, hv⟩ := Option.isSome_iff_exists.mp hs
  have h1 : rget m "target" = rget r3 "target" := heq3.1
  rw [hv, hb] at h1
  cases h1

theorem swapName_beq_source (c : String) :
    (swapName c == "source") = (c == "target") := by
  unfold swapName
  by_cases h1 : (c == "source") = true
  · rw [if_pos h1]
    rw [eq_of_beq h1]
    rfl
  · rw [if_neg h1]
    by_cases h2 : (c == "target") = true
    · rw [if_pos h2]
      rw [eq_of_beq h2]
      rfl
    · rw [if_neg h2]
      rw [show (c == "target") = false from Bool.eq_false_iff.mpr h2]
      exact Bool.eq_false_iff.mpr h1

theorem swapName_beq_target (c : String) :
    (swapName c == "target") = (c == "source") := by
  unfold swapName
  by_cases h1 : (c == "source") = true
  · rw [if_pos h1]
    rw [eq_of_beq h1]
    rfl
  · rw [if_neg h1]
    by_cases h2 : (c == "target") = true
    · rw [if_pos h2]
      rw [eq_of_beq h2]
      rfl
    · rw [if_neg h2]
      rw [show (c == "source") = false from Bool.eq_false_iff.mpr h1]
      exact Bool.eq_false_iff.mpr h2

theorem rget_mirror_source (r : Row) :
    rget (r.map (fun e => (swapName e.1, e.2))) "source" = rget r "target" := by
  induction r with
  | nil => rfl
  | cons e t ih =>
      rw [List.map_cons, rget_cons, rget_cons]
      rw [show ((swapName e.1, e.2).1 == "source") = (swapName e.1 == "source")
        from rfl]
      rw [swapName_beq_source]
      split
      · rfl
      · exact ih

theorem rget_mirror_target (r : Row) :
    rget (r.map (fun e => (swapName e.1, e.2))) "target" = rget r "source" := by
  induction r with
  | nil => rfl
  | cons e t ih =>
      rw [List.map_cons, rget_cons, rget_cons]
      rw [show ((swapName e.1, e.2).1 == "target") = (swapName e.1 == "target")
        from rfl]
      rw [swapName_beq_target]
      split
      · rfl
      · exact ih

end Tidy

namespace Tidy

theorem mem_rset {r : Row} {c : String} {v : Cell} {e2 : String × Cell}
    (h : e2 ∈ rset r c v) : e2.1 = c ∨ ∃ e ∈ r, e2.1 = e.1 := by
  unfold rset at h
  split at h
  · obtain ⟨e, he, hre⟩ := List.mem_map.mp h
    by_cases hc : (e.1 == c) = true
    · rw [if_pos hc] at hre
      left
      rw [← hre]
    · rw [if_neg hc] at hre
      right
      exact ⟨e, he, by rw [← hre]⟩
  · rcases List.mem_append.mp h with hm | hm
    · exact Or.inr ⟨e2, hm, rfl⟩
    · rcases List.mem_singleton.mp hm with rfl
      exact Or.inl rfl

theorem mem_rkeep {r : Row} {p : String → Bool} {e : String × Cell}
    (h : e ∈ rkeep r p) : e ∈ r :=
  List.mem_of_mem_filter h

theorem mem_append_cols {t u : Table} {c : String}
    (h : c ∈ (t.append u).cols) : c ∈ t.cols ∨ c ∈ u.cols := by
  rcases List.mem_append.mp h with hm | hm
  · exact Or.inl hm
  · exact Or.inr (List.mem_of_mem_filter hm)

theorem mem_mirror_cols {t : Table} {c : String} (h : c ∈ t.mirror.cols) :
    ∃ c0 ∈ t.cols, c = swapName c0 := by
  obtain ⟨c0, hc0, rfl⟩ := List.mem_map.mp h
  exact ⟨c0, hc0, rfl⟩

theorem mem_setCol_cols {t : Table} {c c2 : String} {vals : List Cell}
    (h : c2 ∈ (t.setCol c vals).cols) : c2 ∈ t.cols ∨ c2 = c := by
  unfold Table.setCol at h
  simp only at h
  split at h
  · exact Or.inl h
  · rcases List.mem_append.mp h with hm | hm
    · exact Or.inl hm
    · exact Or.inr (List.mem_singleton.mp hm)

theorem mem_keepCols {t : Table} {p : String → Bool} {c : String}
    (h : c ∈ (t.keepCols p).cols) : c ∈ t.cols :=
  List.mem_of_mem_filter h

theorem mem_aug_cols {g : Graph} {y0 : Table} {c : String}
    (h : c ∈ (augmentEdgesY g y0).cols) :
    c ∈ y0.cols ∨ c = "source" ∨ c = "target" := by
  have h1 := mem_keepCols h
  rcases mem_setCol_cols h1 with h2 | h2
  · rcases mem_setCol_cols h2 with h3 | h3
    · exact Or.inl h3
    · exact Or.inr (Or.inl h3)
  · exact Or.inr (Or.inr h2)

theorem mem_mergeOutCols {xcols ycols onc : List String} {ls rs : String}
    {ind : Bool} {c : String}
    (h : c ∈ mergeOutCols xcols ycols onc ls rs ind) :
    (∃ c0 ∈ xcols, c = lname onc ycols ls c0) ∨
      (∃ c1 ∈ ycols, c = rname xcols rs c1) ∨ c = "_merge" := by
  unfold mergeOutCols at h
  rcases List.mem_append.mp h with hm | hm
  · rcases List.mem_append.mp hm with hm2 | hm2
    · obtain ⟨c0, hc0, rfl⟩ := List.mem_map.mp hm2
      exact Or.inl ⟨c0, hc0, rfl⟩
    · obtain ⟨c1, hc1, rfl⟩ := List.mem_map.mp hm2
      exact Or.inr (Or.inl ⟨c1, List.mem_of_mem_filter hc1, rfl⟩)
  · right
    right
    split at hm
    · exact List.mem_singleton.mp hm
    · cases hm

theorem lname_cases (onc ycols : List String) (ls : String) (c : String) :
    lname onc ycols ls c = c ∨
      (onc.contains c = false ∧ lname onc ycols ls c = c ++ ls) := by
  unfold lname
  split
  · exact Or.inl rfl
  · rename_i hc
    split
    · right
      refine ⟨?_, rfl⟩
      rw [Bool.not_eq_true] at hc
      exact hc
    · exact Or.inl rfl

theorem rname_cases (xcols : List String) (rs : String) (c : String) :
    rname xcols rs c = c ++ rs ∨ rname xcols rs c = c := by
  unfold rname
  split
  · exact Or.inl rfl
  · exact Or.inr rfl

theorem swapName_fix {c d : String} (hd1 : d ≠ "source") (hd2 : d ≠ "target")
    (h : swapName c = d) : c = d := by
  unfold swapName at h
  split at h
  · exact absurd h.symm hd2
  · split at h
    · exact absurd h.symm hd1
    · exact h

theorem foldl_cols_const {x : Table} :
    ∀ (l : List Nat) (m : Table),
    (l.foldl (explosionStepEdge x) m).cols = m.cols := by
  intro l
  induction l with
  | nil => intro m; rfl
  | cons a t ih =>
      intro m
      rw [List.foldl_cons, ih]
      rfl

theorem merge_not_mem_dropCols {t : Table} :
    "_merge" ∉ (t.dropCols ["_merge"]).cols := by
  intro hm
  have := List.of_mem_filter hm
  rw [show List.contains ["_merge"] "_merge" = true from rfl] at this
  cases this

end Tidy

namespace Tidy

theorem strEndsWith_x_decompose {c : String} (h : strEndsWith c ".x" = true) :
    c = strDropRight c 2 ++ ".x" := by
  unfold strEndsWith at h
  have hsuf : (".x".data) <:+ c.data := by
    have h2 := List.isPrefixOf_iff_prefix.mp h
    exact List.reverse_prefix.mp h2
  obtain ⟨t, ht⟩ := hsuf
  cases c with
  | mk data =>
      cases ht
      show String.mk (t ++ ".x".data) =
        strDropRight (String.mk (t ++ ".x".data)) 2 ++ ".x"
      unfold strDropRight
      have hlen : (t ++ ".x".data).length - 2 = t.length := by
        rw [List.length_append]
        rfl
      rw [hlen]
      rw [show (t ++ ".x".data).take t.length = t from List.take_left t _]
      rfl

theorem col_x_eq {c base : String} (hx : strEndsWith c ".x" = true)
    (hb : strDropRight c 2 = base) : c = base ++ ".x" := by
  rw [← hb]
  exact strEndsWith_x_decompose hx

end Tidy

namespace Tidy

theorem str_append_cancel_right {a b s : String} (h : a ++ s = b ++ s) :
    a = b := by
  cases a with
  | mk da =>
      cases b with
      | mk db =>
          cases s with
          | mk ds =>
              have h2 : da ++ ds = db ++ ds := congrArg String.data h
              have h3 := List.append_cancel_right h2
              rw [h3]

theorem notmem_mergeOutCols {xcols ycols : List String} {d : String}
    {ind : Bool}
    (hdm : d ≠ "_merge") (hdy : strEndsWith d ".y" = false)
    (hsuffix : ∀ c0, c0 ++ ".x" = d →
      List.contains ["source", "target"] c0 = true)
    (hx : d ∉ xcols) (hy : d ∉ ycols) :
    d ∉ mergeOutCols xcols ycols ["source", "target"] ".x" ".y" ind := by
  intro hm
  rcases mem_mergeOutCols hm with ⟨c0, hc0, heq⟩ | ⟨c1, hc1, heq⟩ | heq
  · rcases lname_cases ["source", "target"] ycols ".x" c0 with h1 | ⟨h2, h3⟩
    · rw [h1] at heq
      exact hx (heq ▸ hc0)
    · rw [h3] at heq
      rw [hsuffix c0 heq.symm] at h2
      cases h2
  · rcases rname_cases xcols ".y" c1 with h1 | h1
    · rw [h1] at heq
      exact append_suffix_ne hdy heq.symm
    · rw [h1] at heq
      exact hy (heq ▸ hc1)
  · exact hdm heq

theorem notmem_ym_cols {g : Graph} {y0 : Table} {d : String}
    (hd_src : d ≠ "source") (hd_tgt : d ≠ "target")
    (hdm : d ≠ "_merge") (hdi : d ≠ "_index")
    (hdy : strEndsWith d ".y" = false)
    (hsuffix : ∀ c0, c0 ++ ".x" = d →
      List.contains ["source", "target"] c0 = true)
    (hy0 : d ∉ y0.cols) (he : d ∉ attrNamesOf g.eattrs) :
    d ∉ mergeOutCols (augmentEdgesY g y0).cols
      ((((explosionIdx (pdMerge (addIndexCol (getEdgeDf g))
          ((augmentEdgesY g y0).append (augmentEdgesY g y0).mirror)
          ["source", "target"] ".x" ".y" true .left)).foldl
            (explosionStepEdge (addIndexCol (getEdgeDf g)))
            (pdMerge (addIndexCol (getEdgeDf g))
              ((augmentEdgesY g y0).append (augmentEdgesY g y0).mirror)
              ["source", "target"] ".x" ".y" true .left)).append
          ((explosionIdx (pdMerge (addIndexCol (getEdgeDf g))
            ((augmentEdgesY g y0).append (augmentEdgesY g y0).mirror)
            ["source", "target"] ".x" ".y" true .left)).foldl
              (explosionStepEdge (addIndexCol (getEdgeDf g)))
              (pdMerge (addIndexCol (getEdgeDf g))
                ((augmentEdgesY g y0).append (augmentEdgesY g y0).mirror)
                ["source", "target"] ".x" ".y" true .left)).mirror).dropCols
        ["_merge"]).cols
      ["source", "target"] ".x" ".y" true := by
  have hdaug : d ∉ (augmentEdgesY g y0).cols := by
    intro hm
    rcases mem_aug_cols hm with h1 | h1 | h1
    · exact hy0 h1
    · exact hd_src h1
    · exact hd_tgt h1
  have hdx : d ∉ (addIndexCol (getEdgeDf g)).cols := by
    intro hm
    rcases List.mem_append.mp hm with h1 | h1
    · rcases List.mem_append.mp h1 with h2 | h2
      · rcases List.mem_cons.mp h2 with h3 | h3
        · exact hd_src h3
        rcases List.mem_cons.mp h3 with h4 | h4
        · exact hd_tgt h4
        · cases h4
      · exact he h2
    · exact hdi (List.mem_singleton.mp h1)
  have hdymir : d ∉ ((augmentEdgesY g y0).append
      (augmentEdgesY g y0).mirror).cols := by
    intro hm
    rcases mem_append_cols hm with h1 | h1
    · exact hdaug h1
    · obtain ⟨c0, hc0, heq⟩ := mem_mirror_cols h1
      exact hdaug ((swapName_fix hd_src hd_tgt heq.symm) ▸ hc0)
  have hdxm1 : d ∉ ((explosionIdx (pdMerge (addIndexCol (getEdgeDf g))
      ((augmentEdgesY g y0).append (augmentEdgesY g y0).mirror)
      ["source", "target"] ".x" ".y" true .left)).foldl
        (explosionStepEdge (addIndexCol (getEdgeDf g)))
        (pdMerge (addIndexCol (getEdgeDf g))
          ((augmentEdgesY g y0).append (augmentEdgesY g y0).mirror)
          ["source", "target"] ".x" ".y" true .left)).cols := by
    rw [foldl_cols_const]
    exact notmem_mergeOutCols hdm hdy hsuffix hdx hdymir
  have hdxmm : d ∉ ((((explosionIdx (pdMerge (addIndexCol (getEdgeDf g))
      ((augmentEdgesY g y0).append (augmentEdgesY g y0).mirror)
      ["source", "target"] ".x" ".y" true .left)).foldl
        (explosionStepEdge (addIndexCol (getEdgeDf g)))
        (pdMerge (addIndexCol (getEdgeDf g))
          ((augmentEdgesY g y0).append (augmentEdgesY g y0).mirror)
          ["source", "target"] ".x" ".y" true .left)).append
      ((explosionIdx (pdMerge (addIndexCol (getEdgeDf g))
        ((augmentEdgesY g y0).append (augmentEdgesY g y0).mirror)
        ["source", "target"] ".x" ".y" true .left)).foldl
          (explosionStepEdge (addIndexCol (getEdgeDf g)))
          (pdMerge (addIndexCol (getEdgeDf g))
            ((augmentEdgesY g y0).append (augmentEdgesY g y0).mirror)
            ["source", "target"] ".x" ".y" true .left)).mirror).dropCols
      ["_merge"]).cols := by
    intro hm
    have h1 := mem_keepCols hm
    rcases mem_append_cols h1 with h2 | h2
    · exact hdxm1 h2
    · obtain ⟨c0, hc0, heq⟩ := mem_mirror_cols h2
      exact hdxm1 ((swapName_fix hd_src hd_tgt heq.symm) ▸ hc0)
  exact notmem_mergeOutCols hdm hdy hsuffix hdaug hdxmm

end Tidy

namespace Tidy

theorem dropCols_rows_getElem {t : Table} {cs : List String} {k : Nat}
    {r : Row} (hk : t.rows[k]? = some r) :
    (t.dropCols cs).rows[k]? =
      some (rkeep r (fun c => !cs.contains c)) := by
  show (t.rows.map (fun r2 => rkeep r2 (fun c => !cs.contains c)))[k]? = _
  rw [List.getElem?_map, hk]
  rfl

theorem rget_rkeep_pos {r : Row} {p : String → Bool} {c : String}
    (h : p c = true) : rget (rkeep r p) c = rget r c := by
  rw [rget_rkeep, if_pos h]

theorem augmentEdgesY_row {g : Graph} {y0 : Table} {k : Nat} {r : Row}
    (hk : y0.rows[k]? = some r) :
    (augmentEdgesY g y0).rows[k]? =
      some (rkeep (rset (rset r "source" (nameToIndex g (rget r "from")))
        "target" (nameToIndex g (rget r "to")))
        (fun c => !List.contains ["from", "to"] c)) ∧
      rget (rkeep (rset (rset r "source" (nameToIndex g (rget r "from")))
        "target" (nameToIndex g (rget r "to")))
        (fun c => !List.contains ["from", "to"] c)) "source" =
        nameToIndex g (rget r "from") ∧
      rget (rkeep (rset (rset r "source" (nameToIndex g (rget r "from")))
        "target" (nameToIndex g (rget r "to")))
        (fun c => !List.contains ["from", "to"] c)) "target" =
        nameToIndex g (rget r "to") := by
  have h1 : ((y0.col "from").map (nameToIndex g))[k]? =
      some (nameToIndex g (rget r "from")) := by
    rw [List.getElem?_map, col_getElem hk]
    rfl
  have hrow1 := @setCol_rows_getElem y0 "source"
    ((y0.col "from").map (nameToIndex g)) k r
    (nameToIndex g (rget r "from")) hk h1
  have h2 : (((y0.setCol "source" ((y0.col "from").map (nameToIndex g))).col
      "to").map (nameToIndex g))[k]? =
      some (nameToIndex g (rget r "to")) := by
    rw [List.getElem?_map, col_getElem hrow1]
    rw [rget_rset_ne _ _ (show "source" ≠ "to" by decide)]
    rfl
  have hrow2 := @setCol_rows_getElem
    (y0.setCol "source" ((y0.col "from").map (nameToIndex g))) "target"
    (((y0.setCol "source" ((y0.col "from").map (nameToIndex g))).col
      "to").map (nameToIndex g)) k
    (rset r "source" (nameToIndex g (rget r "from")))
    (nameToIndex g (rget r "to")) hrow1 h2
  refine ⟨?_, ?_, ?_⟩
  · exact dropCols_rows_getElem hrow2
  · rw [rget_rkeep_pos (show (fun c =>
      !List.contains ["from", "to"] c) "source" = true from rfl)]
    rw [rget_rset_ne _ _ (show "target" ≠ "source" by decide)]
    exact rget_rset_self _ _ _
  · rw [rget_rkeep_pos (show (fun c =>
      !List.contains ["from", "to"] c) "target" = true from rfl)]
    exact rget_rset_self _ _ _

theorem any_mkLeft_source {ycols : List String} {v : Cell} {rest : Row} :
    (mkLeft ["source", "target"] ycols ".x" (("source", v) :: rest)).any
      (fun e => e.1 == "source") = true := by
  unfold mkLeft
  rw [List.map_cons, List.any_cons]
  rw [show ((lname ["source", "target"] ycols ".x" ("source", v).1, v).1 ==
    "source") = true from rfl]
  rfl

theorem rget_mkLeft_source {ycols : List String} {v : Cell} {rest : Row} :
    rget (mkLeft ["source", "target"] ycols ".x" (("source", v) :: rest))
      "source" = v := by
  unfold mkLeft
  rw [List.map_cons, rget_cons]
  rw [if_pos (show ((lname ["source", "target"] ycols ".x" ("source", v).1,
    v).1 == "source") = true from rfl)]

theorem any_mkLeft_target {ycols : List String} {v w : Cell} {rest : Row} :
    (mkLeft ["source", "target"] ycols ".x"
      (("source", v) :: ("target", w) :: rest)).any
      (fun e => e.1 == "target") = true := by
  unfold mkLeft
  rw [List.map_cons, List.map_cons, List.any_cons, List.any_cons]
  rw [show ((lname ["source", "target"] ycols ".x" ("target", w).1, w).1 ==
    "target") = true from rfl]
  rw [Bool.true_or, Bool.or_true]

theorem rget_mkLeft_target {ycols : List String} {v w : Cell} {rest : Row} :
    rget (mkLeft ["source", "target"] ycols ".x"
      (("source", v) :: ("target", w) :: rest)) "target" = w := by
  unfold mkLeft
  rw [List.map_cons, List.map_cons, rget_cons]
  rw [show ((lname ["source", "target"] ycols ".x" ("source", v).1, v).1 ==
    "target") = false from rfl]
  rw [if_neg Bool.false_ne_true, rget_cons]
  rw [if_pos (show ((lname ["source", "target"] ycols ".x" ("target", w).1,
    w).1 == "target") = true from rfl)]

end Tidy

namespace Tidy

theorem rget_rowBoth_source {xcols ycols : List String} {v : Cell}
    {rest ry : Row} (ind : Bool) :
    rget (rowBoth ["source", "target"] xcols ycols ".x" ".y" ind
      (("source", v) :: rest) ry) "source" = v := by
  unfold rowBoth
  rw [rget_append, if_pos ?h1, rget_append, if_pos any_mkLeft_source]
  · exact rget_mkLeft_source
  case h1 =>
    rw [List.any_append, any_mkLeft_source]
    rfl

theorem rget_rowBoth_target {xcols ycols : List String} {v w : Cell}
    {rest ry : Row} (ind : Bool) :
    rget (rowBoth ["source", "target"] xcols ycols ".x" ".y" ind
      (("source", v) :: ("target", w) :: rest) ry) "target" = w := by
  unfold rowBoth
  rw [rget_append, if_pos ?h1, rget_append, if_pos any_mkLeft_target]
  · exact rget_mkLeft_target
  case h1 =>
    rw [List.any_append, any_mkLeft_target]
    rfl

theorem rget_rowLeftOnly_source {xcols ycols : List String} {v : Cell}
    {rest : Row} (ind : Bool) :
    rget (rowLeftOnly ["source", "target"] xcols ycols ".x" ".y" ind
      (("source", v) :: rest)) "source" = v := by
  unfold rowLeftOnly
  rw [rget_append, if_pos ?h1, rget_append, if_pos any_mkLeft_source]
  · exact rget_mkLeft_source
  case h1 =>
    rw [List.any_append, any_mkLeft_source]
    rfl

theorem rget_rowLeftOnly_target {xcols ycols : List String} {v w : Cell}
    {rest : Row} (ind : Bool) :
    rget (rowLeftOnly ["source", "target"] xcols ycols ".x" ".y" ind
      (("source", v) :: ("target", w) :: rest)) "target" = w := by
  unfold rowLeftOnly
  rw [rget_append, if_pos ?h1, rget_append, if_pos any_mkLeft_target]
  · exact rget_mkLeft_target
  case h1 =>
    rw [List.any_append, any_mkLeft_target]
    rfl

theorem leftMergeRow_some {g : Graph} {yW : Table} {m : Row}
    (hm : m ∈ mergeRows (addIndexCol (getEdgeDf g)) yW
      ["source", "target"] ".x" ".y" true .left) :
    (rget m "source").isSome = true ∧ (rget m "target").isSome = true := by
  rcases mem_leftMerge hm with ⟨rx, hrx, ry, hry, rfl⟩ | ⟨rx, hrx, rfl⟩
  · obtain ⟨p, hp, rfl⟩ := List.mem_map.mp hrx
    have hp2 : p.2 ∈ (getEdgeDf g).rows := snd_mem_of_mem_enum hp
    obtain ⟨q, hq, hfq⟩ := List.mem_map.mp hp2
    rw [← hfq]
    constructor
    · rw [show rget (rowBoth ["source", "target"]
        (addIndexCol (getEdgeDf g)).cols yW.cols ".x" ".y" true
        (([("source", some (Val.nat q.2.1)),
            ("target", some (Val.nat q.2.2))] ++
          g.eattrs.map (fun e => (e.1, e.2.getD q.1 none))) ++
          [("_index", some (Val.nat p.1))]) ry) "source" =
        some (Val.nat q.2.1) from rget_rowBoth_source true]
      rfl
    · rw [show rget (rowBoth ["source", "target"]
        (addIndexCol (getEdgeDf g)).cols yW.cols ".x" ".y" true
        (([("source", some (Val.nat q.2.1)),
            ("target", some (Val.nat q.2.2))] ++
          g.eattrs.map (fun e => (e.1, e.2.getD q.1 none))) ++
          [("_index", some (Val.nat p.1))]) ry) "target" =
        some (Val.nat q.2.2) from rget_rowBoth_target true]
      rfl
  · obtain ⟨p, hp, rfl⟩ := List.mem_map.mp hrx
    have hp2 : p.2 ∈ (getEdgeDf g).rows := snd_mem_of_mem_enum hp
    obtain ⟨q, hq, hfq⟩ := List.mem_map.mp hp2
    rw [← hfq]
    constructor
    · rw [show rget (rowLeftOnly ["source", "target"]
        (addIndexCol (getEdgeDf g)).cols yW.cols ".x" ".y" true
        (([("source", some (Val.nat q.2.1)),
            ("target", some (Val.nat q.2.2))] ++
          g.eattrs.map (fun e => (e.1, e.2.getD q.1 none))) ++
          [("_index", some (Val.nat p.1))])) "source" =
        some (Val.nat q.2.1) from rget_rowLeftOnly_source true]
      rfl
    · rw [show rget (rowLeftOnly ["source", "target"]
        (addIndexCol (getEdgeDf g)).cols yW.cols ".x" ".y" true
        (([("source", some (Val.nat q.2.1)),
            ("target", some (Val.nat q.2.2))] ++
          g.eattrs.map (fun e => (e.1, e.2.getD q.1 none))) ++
          [("_index", some (Val.nat p.1))])) "target" =
        some (Val.nat q.2.2) from rget_rowLeftOnly_target true]
      rfl

end Tidy

namespace Tidy

theorem xm1_rows_some {g : Graph} {yW : Table} (l : List Nat) :
    ∀ m ∈ (l.foldl (explosionStepEdge (addIndexCol (getEdgeDf g)))
      (pdMerge (addIndexCol (getEdgeDf g)) yW
        ["source", "target"] ".x" ".y" true .left)).rows,
    (rget m "source").isSome = true ∧ (rget m "target").isSome = true := by
  refine foldl_invariant (fun t => ∀ m ∈ t.rows,
    (rget m "source").isSome = true ∧ (rget m "target").isSome = true)
    (explosionStepEdge (addIndexCol (getEdgeDf g))) l
    (pdMerge (addIndexCol (getEdgeDf g)) yW
      ["source", "target"] ".x" ".y" true .left) ?_ ?_
  · intro m hm
    exact leftMergeRow_some hm
  · intro t i _ hP m hm
    rcases mem_markRows hm with ⟨r, hr, h2 | h2⟩
    · rw [h2]
      exact hP r hr
    · rw [h2]
      constructor
      · rw [rget_rset_ne _ _ (show "_merge" ≠ "source" by decide)]
        exact (hP r hr).1
      · rw [rget_rset_ne _ _ (show "_merge" ≠ "target" by decide)]
        exact (hP r hr).2

theorem xmm_rows_some {g : Graph} {yW : Table} (l : List Nat) :
    ∀ m ∈ (((l.foldl (explosionStepEdge (addIndexCol (getEdgeDf g)))
      (pdMerge (addIndexCol (getEdgeDf g)) yW
        ["source", "target"] ".x" ".y" true .left)).append
      ((l.foldl (explosionStepEdge (addIndexCol (getEdgeDf g)))
        (pdMerge (addIndexCol (getEdgeDf g)) yW
          ["source", "target"] ".x" ".y" true .left)).mirror)).dropCols
        ["_merge"]).rows,
    (rget m "source").isSome = true ∧ (rget m "target").isSome = true := by
  intro m hm
  obtain ⟨m0, hm0, rfl⟩ := List.mem_map.mp hm
  rw [rget_rkeep_pos (show (fun c => !List.contains ["_merge"] c) "source" =
    true from rfl)]
  rw [rget_rkeep_pos (show (fun c => !List.contains ["_merge"] c) "target" =
    true from rfl)]
  rcases List.mem_append.mp hm0 with h1 | h1
  · exact xm1_rows_some l m0 h1
  · obtain ⟨m1, hm1, rfl⟩ := List.mem_map.mp h1
    constructor
    · rw [rget_mirror_source]
      exact (xm1_rows_some l m1 hm1).2
    · rw [rget_mirror_target]
      exact (xm1_rows_some l m1 hm1).1

end Tidy

namespace Tidy

theorem getElem_opt_of_mem {α : Type} {l : List α} {a : α} (h : a ∈ l) :
    ∃ (k : Nat), l[k]? = some a := by
  induction l with
  | nil => cases h
  | cons b t ih =>
      rcases List.mem_cons.mp h with rfl | hm
      · exact ⟨0, by rw [List.getElem?_cons_zero]⟩
      · obtain ⟨k, hk⟩ := ih hm
        exact ⟨k + 1, by rw [List.getElem?_cons_succ]; exact hk⟩

theorem finish_badrow {xm : Table}
    (h : ∃ row ∈ xm.rows, rget row "_merge" = some (Val.str "right_only") ∧
      (rget row "source" = none ∨ rget row "target" = none)) :
    ∃ row2 ∈ (finishTable xm).2,
      rget row2 "source" = none ∨ rget row2 "target" = none := by
  obtain ⟨row, hrow, hmerge, hbad⟩ := h
  have hp1 : (fun c => xm.rows.any (fun r => (rget r c).isSome)) "_merge" =
      true := by
    rw [List.any_eq_true]
    exact ⟨row, hrow, by rw [hmerge]; rfl⟩
  refine ⟨rkeep row (fun c => xm.rows.any (fun r => (rget r c).isSome)),
    ?_, ?_⟩
  · show _ ∈ ((xm.rows.map (fun r => rkeep r
      (fun c => xm.rows.any (fun r2 => (rget r2 c).isSome)))).filter
        (fun r => mergeIs r "right_only"))
    apply List.mem_filter.mpr
    constructor
    · exact List.mem_map_of_mem _ hrow
    · rw [mergeIs, rget_rkeep_pos hp1, hmerge]
      rfl
  · rcases hbad with hb | hb
    · exact Or.inl (rget_rkeep_none _ hb)
    · exact Or.inr (rget_rkeep_none _ hb)

theorem markRows_pres_bad {m : Table} {ps : List Nat}
    (h : ∃ row ∈ m.rows, rget row "_merge" = some (Val.str "right_only") ∧
      (rget row "source" = none ∨ rget row "target" = none)) :
    ∃ row2 ∈ (markRows m ps).rows,
      rget row2 "_merge" = some (Val.str "right_only") ∧
      (rget row2 "source" = none ∨ rget row2 "target" = none) := by
  obtain ⟨row, hrow, hm, hb⟩ := h
  obtain ⟨k, hk⟩ := getElem_opt_of_mem hrow
  have henum : (k, row) ∈ m.rows.enum := enum_mem_of_getElem hk
  refine ⟨if ps.contains k then rset row "_merge" (some (Val.str "right_only"))
    else row, ?_, ?_⟩
  · show _ ∈ m.rows.enum.map (fun p =>
      if ps.contains p.1 then rset p.2 "_merge" (some (Val.str "right_only"))
      else p.2)
    exact List.mem_map_of_mem _ henum
  · split
    · refine ⟨rget_rset_self _ _ _, ?_⟩
      rcases hb with hb2 | hb2
      · exact Or.inl (by
          rw [rget_rset_ne _ _ (show "_merge" ≠ "source" by decide)]
          exact hb2)
      · exact Or.inr (by
          rw [rget_rset_ne _ _ (show "_merge" ≠ "target" by decide)]
          exact hb2)
    · exact ⟨hm, hb⟩

theorem combineStep_pres {t t2 : Table} {c : String}
    (hok : combineStep t c = Except.ok t2)
    (hx : strEndsWith c ".x" = true)
    (hns : c ≠ "source.x") (hnt : c ≠ "target.x")
    (h : ∃ row ∈ t.rows, rget row "source" = none ∨ rget row "target" = none) :
    ∃ row ∈ t2.rows,
      rget row "source" = none ∨ rget row "target" = none := by
  have hbs : strDropRight c 2 ≠ "source" := fun hh => hns (col_x_eq hx hh)
  have hbt : strDropRight c 2 ≠ "target" := fun hh => hnt (col_x_eq hx hh)
  obtain ⟨row, hrow, hb⟩ := h
  unfold combineStep at hok
  have hok2 : (if (!t.cols.contains c ||
      !t.cols.contains (strDropRight c 2 ++ ".y")) = true then
      (throw "KeyError" : Except String Table)
    else pure ((t.setCol (strDropRight c 2) (t.rows.map (fun r =>
        match rget r c with
        | some v => some v
        | none => rget r (strDropRight c 2 ++ ".y")))).dropCols
        [c, strDropRight c 2 ++ ".y"])) = Except.ok t2 := hok
  clear hok
  rename' hok2 => hok
  split at hok
  · simp [throw, throwThe, MonadExceptOf.throw] at hok
  · have ht2 : t2 = ((t.setCol (strDropRight c 2) (t.rows.map (fun r =>
        match rget r c with
        | some v => some v
        | none => rget r (strDropRight c 2 ++ ".y")))).dropCols
        [c, strDropRight c 2 ++ ".y"]) := by
      cases hok
      rfl
    rw [ht2]
    have hrows : ((t.setCol (strDropRight c 2) (t.rows.map (fun r =>
        match rget r c with
        | some v => some v
        | none => rget r (strDropRight c 2 ++ ".y")))).dropCols
        [c, strDropRight c 2 ++ ".y"]).rows =
        (t.rows.map (fun r => rset r (strDropRight c 2)
          (match rget r c with
          | some v => some v
          | none => rget r (strDropRight c 2 ++ ".y")))).map
          (fun r => rkeep r (fun c2 =>
            !List.contains [c, strDropRight c 2 ++ ".y"] c2)) := by
      show (t.rows.zipWith (fun r v => rset r (strDropRight c 2) v)
        (t.rows.map (fun r =>
          match rget r c with
          | some v => some v
          | none => rget r (strDropRight c 2 ++ ".y")))).map _ = _
      rw [zipWith_map_right_self]
    rw [hrows]
    refine ⟨rkeep (rset row (strDropRight c 2)
      (match rget row c with
      | some v => some v
      | none => rget row (strDropRight c 2 ++ ".y")))
      (fun c2 => !List.contains [c, strDropRight c 2 ++ ".y"] c2), ?_, ?_⟩
    · exact List.mem_map_of_mem _ (List.mem_map_of_mem _ hrow)
    · rcases hb with hb2 | hb2
      · refine Or.inl (rget_rkeep_none _ ?_)
        rw [rget_rset_ne _ _ hbs]
        exact hb2
      · refine Or.inr (rget_rkeep_none _ ?_)
        rw [rget_rset_ne _ _ hbt]
        exact hb2

end Tidy

namespace Tidy

theorem outer_directed_badrow {g : Graph} {y0 : Table}
    (hem : ∀ c ∈ attrNamesOf g.eattrs, c ≠ "_merge")
    (hy0rows : ∀ r ∈ y0.rows, ∀ e ∈ r, e.1 ≠ "_merge")
    (hbad : ∃ (k : Nat) (r : Row), y0.rows[k]? = some r ∧
      (nameToIndex g (rget r "from") = none ∨
        nameToIndex g (rget r "to") = none)) :
    ∃ row ∈ (pdMerge (addIndexCol (getEdgeDf g)) (augmentEdgesY g y0)
        ["source", "target"] ".x" ".y" true .outer).rows,
      rget row "_merge" = some (Val.str "right_only") ∧
        (rget row "source" = none ∨ rget row "target" = none) := by
  obtain ⟨k, r, hk, hbad2⟩ := hbad
  obtain ⟨haug, hsrc, htgt⟩ := @augmentEdgesY_row g _ _ _ hk
  set r3 := rkeep (rset (rset r "source" (nameToIndex g (rget r "from")))
    "target" (nameToIndex g (rget r "to")))
    (fun c => !List.contains ["from", "to"] c) with hr3def
  have hr3mem : r3 ∈ (augmentEdgesY g y0).rows := mem_of_getElem_opt haug
  have hr3bad : rget r3 "source" = none ∨ rget r3 "target" = none := by
    rcases hbad2 with hb | hb
    · exact Or.inl (by rw [hsrc]; exact hb)
    · exact Or.inr (by rw [htgt]; exact hb)
  have hrmem : r ∈ y0.rows := mem_of_getElem_opt hk
  have hunm : ((addIndexCol (getEdgeDf g)).rows.any (fun rx =>
      keyOf ["source", "target"] rx == keyOf ["source", "target"] r3)) =
      false := by
    rw [List.any_eq_false]
    intro rx hrx
    rcases hr3bad with hb | hb
    · rw [keys_beq_false_src (edge_x_rows_some rx hrx).1 hb]
      exact Bool.false_ne_true
    · rw [keys_beq_false_tgt (edge_x_rows_some rx hrx).2 hb]
      exact Bool.false_ne_true
  have hfmem : r3 ∈ (augmentEdgesY g y0).rows.filter (fun ry =>
      !(addIndexCol (getEdgeDf g)).rows.any (fun rx =>
        keyOf ["source", "target"] rx == keyOf ["source", "target"] ry)) := by
    apply List.mem_filter.mpr
    refine ⟨hr3mem, ?_⟩
    rw [hunm]
    rfl
  refine ⟨rowRightOnly ["source", "target"] (addIndexCol (getEdgeDf g)).cols
    (augmentEdgesY g y0).cols ".x" ".y" true r3, ?_, ?_, ?_⟩
  · show _ ∈ mergeRows (addIndexCol (getEdgeDf g)) (augmentEdgesY g y0)
      ["source", "target"] ".x" ".y" true .outer
    apply List.mem_append.mpr
    right
    exact List.mem_map_of_mem _ hfmem
  · have hry : ∀ e ∈ r3, e.1 ≠ "_merge" := by
      intro e he
      have h1 := mem_rkeep he
      rcases mem_rset h1 with h2 | ⟨e2, he2, h3⟩
      · rw [h2]
        decide
      · rcases mem_rset he2 with h4 | ⟨e3, he3, h5⟩
        · rw [h3, h4]
          decide
        · rw [h3, h5]
          exact hy0rows r hrmem e3 he3
    have hrest : ∀ c ∈ attrNamesOf g.eattrs ++ ["_index"], c ≠ "_merge" := by
      intro c hc
      rcases List.mem_append.mp hc with h1 | h1
      · exact hem c h1
      · rcases List.mem_singleton.mp h1 with rfl
        decide
    exact rget_rowRightOnly_merge hrest hry
  · rcases hr3bad with hb | hb
    · exact Or.inl (by
        rw [show rget (rowRightOnly ["source", "target"]
          (addIndexCol (getEdgeDf g)).cols (augmentEdgesY g y0).cols
          ".x" ".y" true r3) "source" = rget r3 "source" from
          rget_rowRightOnly_source true]
        exact hb)
    · exact Or.inr (by
        rw [show rget (rowRightOnly ["source", "target"]
          (addIndexCol (getEdgeDf g)).cols (augmentEdgesY g y0).cols
          ".x" ".y" true r3) "target" = rget r3 "target" from
          rget_rowRightOnly_target true]
        exact hb)

end Tidy

namespace Tidy

theorem c2_outer_directed {g : Graph} {y0 : Table} {onv : Option (List String)}
    (hdir : g.directed = true)
    (hem : ∀ c ∈ attrNamesOf g.eattrs, c ≠ "_merge")
    (hy0rows : ∀ r ∈ y0.rows, ∀ e ∈ r, e.1 ≠ "_merge")
    (hbad : ∃ (k : Nat) (r : Row), y0.rows[k]? = some r ∧
      (nameToIndex g (rget r "from") = none ∨
        nameToIndex g (rget r "to") = none)) :
    isErr (outer_join ActiveType.EDGES g y0 onv ".x" ".y") = true := by
  cases hX : outer_join ActiveType.EDGES g y0 onv ".x" ".y" with
  | error e => rfl
  | ok g2 =>
      exfalso
      obtain ⟨xm, hxm, htail⟩ := bindOk hX
      have htail2 : outerEdgeTail g (finishTable xm) = Except.ok g2 := htail
      unfold outerMerged at hxm
      simp only [beq_self_eq_true, eq_self_iff_true, if_true] at hxm
      rw [hdir] at hxm
      rw [show (!true) = false from rfl] at hxm
      rw [if_neg Bool.false_ne_true] at hxm
      have hxmeq : xm = (explosionIdx (pdMerge (addIndexCol (getEdgeDf g))
          (augmentEdgesY g y0) ["source", "target"] ".x" ".y" true
          .outer)).foldl (explosionStepEdge (addIndexCol (getEdgeDf g)))
          (pdMerge (addIndexCol (getEdgeDf g)) (augmentEdgesY g y0)
            ["source", "target"] ".x" ".y" true .outer) := by
        cases hxm
        rfl
      have hbadrow : ∃ row ∈ xm.rows,
          rget row "_merge" = some (Val.str "right_only") ∧
          (rget row "source" = none ∨ rget row "target" = none) := by
        rw [hxmeq]
        refine foldl_invariant (fun t => ∃ row ∈ t.rows,
            rget row "_merge" = some (Val.str "right_only") ∧
            (rget row "source" = none ∨ rget row "target" = none))
          (explosionStepEdge (addIndexCol (getEdgeDf g))) _ _ ?_ ?_
        · exact outer_directed_badrow hem hy0rows hbad
        · intro t i _ hP
          exact markRows_pres_bad hP
      obtain ⟨row2, hrow2, hb2⟩ := finish_badrow hbadrow
      obtain ⟨gm, hadd, _⟩ := bindOk htail2
      refine addEdges_bad ⟨endpointsOf row2, List.mem_map_of_mem _ hrow2, ?_⟩
        gm hadd
      rcases hb2 with hb | hb
      · exact Or.inl hb
      · exact Or.inr hb

end Tidy

namespace Tidy

theorem rget_mkLeft_key {onc ycols : List String} {c : String}
    (hkey : lname onc ycols ".x" c = c)
    (hcx : strEndsWith c ".x" = false) :
    ∀ (r : Row), rget (mkLeft onc ycols ".x" r) c = rget r c := by
  intro r
  induction r with
  | nil => rfl
  | cons e t ih =>
      unfold mkLeft at *
      rw [List.map_cons, rget_cons, rget_cons]
      by_cases hc : (e.1 == c) = true
      · rw [if_pos hc]
        rw [show ((lname onc ycols ".x" e.1, e.2).1 == c) =
          (lname onc ycols ".x" e.1 == c) from rfl]
        rw [eq_of_beq hc, hkey]
        rw [if_pos (beq_self_eq_true c)]
      · rw [if_neg hc]
        rw [show ((lname onc ycols ".x" e.1, e.2).1 == c) =
          (lname onc ycols ".x" e.1 == c) from rfl]
        have hne : lname onc ycols ".x" e.1 ≠ c :=
          lname_ne_bookkeeping (by simpa using hc) hcx
        rw [if_neg (by simpa using hne)]
        exact ih

theorem any_mkLeft_eq {onc ycols : List String} {c : String}
    (hkey : lname onc ycols ".x" c = c)
    (hcx : strEndsWith c ".x" = false) :
    ∀ (r : Row), (mkLeft onc ycols ".x" r).any (fun e => e.1 == c) =
      r.any (fun e => e.1 == c) := by
  intro r
  induction r with
  | nil => rfl
  | cons e t ih =>
      unfold mkLeft at *
      rw [List.map_cons, List.any_cons, List.any_cons, ih]
      by_cases hc : (e.1 == c) = true
      · rw [hc]
        rw [show ((lname onc ycols ".x" e.1, e.2).1 == c) =
          (lname onc ycols ".x" e.1 == c) from rfl]
        rw [eq_of_beq hc, hkey, beq_self_eq_true]
      · rw [Bool.eq_false_iff.mpr hc]
        have hne : lname onc ycols ".x" e.1 ≠ c :=
          lname_ne_bookkeeping (by simpa using hc) hcx
        rw [show ((lname onc ycols ".x" e.1, e.2).1 == c) =
          (lname onc ycols ".x" e.1 == c) from rfl]
        have hbe : (lname onc ycols ".x" e.1 == c) = false :=
          Bool.eq_false_iff.mpr (fun hb => hne (eq_of_beq hb))
        rw [hbe]

theorem any_congr_mem {α : Type} {l : List α} {p q : α → Bool}
    (h : ∀ a ∈ l, p a = q a) : l.any p = l.any q := by
  induction l with
  | nil => rfl
  | cons a t ih =>
      rw [List.any_cons, List.any_cons, h a (List.mem_cons_self a t),
        ih (fun x hx => h x (List.mem_cons_of_mem a hx))]

theorem any_rset_self (r : Row) (c : String) (v : Cell) :
    (rset r c v).any (fun e => e.1 == c) = true := by
  unfold rset
  split
  · rename_i h
    rw [List.any_map]
    obtain ⟨e, he, hbe⟩ := List.any_eq_true.mp h
    rw [List.any_eq_true]
    refine ⟨e, he, ?_⟩
    show ((if e.1 == c then (c, v) else e).1 == c) = true
    rw [if_pos hbe]
    exact beq_self_eq_true c
  · rw [List.any_append]
    rw [show List.any [(c, v)] (fun e => e.1 == c) = true from by
      rw [List.any_cons, beq_self_eq_true]; rfl]
    rw [Bool.or_true]

theorem any_rset_ne {c c2 : String} (hne : c ≠ c2) (r : Row) (v : Cell) :
    (rset r c v).any (fun e => e.1 == c2) = r.any (fun e => e.1 == c2) := by
  unfold rset
  split
  · rw [List.any_map]
    apply any_congr_mem
    intro e he
    show ((if e.1 == c then (c, v) else e).1 == c2) = (e.1 == c2)
    by_cases hc : (e.1 == c) = true
    · rw [if_pos hc]
      show (c == c2) = (e.1 == c2)
      rw [eq_of_beq hc]
    · rw [if_neg hc]
  · rw [List.any_append]
    rw [show List.any [(c, v)] (fun e => e.1 == c2) = false from by
      rw [List.any_cons]
      rw [show ((c, v).1 == c2) = false from Bool.eq_false_iff.mpr
        (by simpa using hne)]
      rfl]
    rw [Bool.or_false]

theorem any_rkeep_of {p : String → Bool} {c : String} (hp : p c = true) :
    ∀ (r : Row), (rkeep r p).any (fun e => e.1 == c) =
      r.any (fun e => e.1 == c) := by
  intro r
  induction r with
  | nil => rfl
  | cons e t ih =>
      unfold rkeep at *
      by_cases hpe : p e.1 = true
      · rw [List.filter_cons, if_pos hpe, List.any_cons, List.any_cons, ih]
      · rw [List.filter_cons, if_neg hpe, ih, List.any_cons]
        have hbe : (e.1 == c) = false := by
          rw [Bool.eq_false_iff]
          intro hbe2
          exact hpe ((eq_of_beq hbe2) ▸ hp)
        rw [hbe, Bool.false_or]

end Tidy

namespace Tidy

theorem c2_outer_undirected {g : Graph} {y0 : Table}
    {onv : Option (List String)}
    (hdir : g.directed = false)
    (hem : ∀ c ∈ attrNamesOf g.eattrs, c ≠ "_merge")
    (hy0rows : ∀ r ∈ y0.rows, ∀ e ∈ r, e.1 ≠ "_merge")
    (hsx : "source.x" ∉ y0.cols) (htx : "target.x" ∉ y0.cols)
    (hse : "source.x" ∉ attrNamesOf g.eattrs)
    (hte : "target.x" ∉ attrNamesOf g.eattrs)
    (hbad : ∃ (k : Nat) (r : Row), y0.rows[k]? = some r ∧
      (nameToIndex g (rget r "from") = none ∨
        nameToIndex g (rget r "to") = none)) :
    isErr (outer_join ActiveType.EDGES g y0 onv ".x" ".y") = true := by
  cases hX : outer_join ActiveType.EDGES g y0 onv ".x" ".y" with
  | error e => rfl
  | ok g2 =>
      exfalso
      obtain ⟨xm, hxm, htail⟩ := bindOk hX
      have htail2 : outerEdgeTail g (finishTable xm) = Except.ok g2 := htail
      unfold outerMerged at hxm
      simp only [beq_self_eq_true, eq_self_iff_true, if_true] at hxm
      rw [hdir] at hxm
      rw [if_pos (show (!false) = true from rfl)] at hxm
      obtain ⟨newY1, hcomb, hpure⟩ := bindOk hxm
      set xm1 := (explosionIdx (pdMerge (addIndexCol (getEdgeDf g))
        ((augmentEdgesY g y0).append (augmentEdgesY g y0).mirror)
        ["source", "target"] ".x" ".y" true .left)).foldl
        (explosionStepEdge (addIndexCol (getEdgeDf g)))
        (pdMerge (addIndexCol (getEdgeDf g))
          ((augmentEdgesY g y0).append (augmentEdgesY g y0).mirror)
          ["source", "target"] ".x" ".y" true .left) with hxm1def
      set xmm := (xm1.append xm1.mirror).dropCols ["_merge"] with hxmmdef
      set ym := pdMerge (augmentEdgesY g y0) xmm
        ["source", "target"] ".x" ".y" true .left with hymdef
      set newY0 : Table :=
        { cols := ym.cols
          rows := ym.rows.filter (fun r => mergeIs r "left_only") }
        with hnewY0def
      have hcomb2 : (newY0.cols.filter (fun c =>
          strEndsWith c ".x")).foldlM combineStep newY0 =
          Except.ok newY1 := hcomb
      have hxmeq : xm = xm1.append
          ((newY1.keepCols (fun c =>
            (augmentEdgesY g y0).cols.contains c)).setCol "_merge"
            (List.replicate (newY1.keepCols (fun c =>
              (augmentEdgesY g y0).cols.contains c)).rows.length
              (some (Val.str "right_only")))) := by
        have hpure2 : (pure (xm1.append
            ((newY1.keepCols (fun c =>
              (augmentEdgesY g y0).cols.contains c)).setCol "_merge"
              (List.replicate (newY1.keepCols (fun c =>
                (augmentEdgesY g y0).cols.contains c)).rows.length
                (some (Val.str "right_only"))))) : Except String Table) =
            Except.ok xm := hpure
        cases hpure2
        rfl
      -- the unresolved caller row
      obtain ⟨k, r, hk, hbad2⟩ := hbad
      obtain ⟨haug, hsrc, htgt⟩ := @augmentEdgesY_row g _ _ _ hk
      set r3 := rkeep (rset (rset r "source" (nameToIndex g (rget r "from")))
        "target" (nameToIndex g (rget r "to")))
        (fun c => !List.contains ["from", "to"] c) with hr3def
      have hr3mem : r3 ∈ (augmentEdgesY g y0).rows := mem_of_getElem_opt haug
      have hr3bad : rget r3 "source" = none ∨ rget r3 "target" = none := by
        rcases hbad2 with hb | hb
        · exact Or.inl (by rw [hsrc]; exact hb)
        · exact Or.inr (by rw [htgt]; exact hb)
      have hrmem : r ∈ y0.rows := mem_of_getElem_opt hk
      have her3 : ∀ e ∈ r3, e.1 ≠ "_merge" := by
        intro e he
        have h1 := mem_rkeep he
        rcases mem_rset h1 with h2 | ⟨e2, he2, h3⟩
        · rw [h2]
          decide
        · rcases mem_rset he2 with h4 | ⟨e3, he3, h5⟩
          · rw [h3, h4]
            decide
          · rw [h3, h5]
            exact hy0rows r hrmem e3 he3
      -- the unresolved row is unmatched against the doubled merge result
      have hmatches : xmm.rows.filter (fun ry =>
          keyOf ["source", "target"] ry == keyOf ["source", "target"] r3) =
          [] := by
        rw [List.filter_eq_nil_iff]
        intro ry hry
        have hsome := xmm_rows_some
          (explosionIdx (pdMerge (addIndexCol (getEdgeDf g))
            ((augmentEdgesY g y0).append (augmentEdgesY g y0).mirror)
            ["source", "target"] ".x" ".y" true .left)) ry hry
        rcases hr3bad with hb | hb
        · rw [keys_beq_false_src hsome.1 hb]
          exact Bool.false_ne_true
        · rw [keys_beq_false_tgt hsome.2 hb]
          exact Bool.false_ne_true
      set row4 := rowLeftOnly ["source", "target"] (augmentEdgesY g y0).cols
        xmm.cols ".x" ".y" true r3 with hrow4def
      have hrow4mem : row4 ∈ ym.rows := by
        show row4 ∈ mergeRows (augmentEdgesY g y0) xmm
          ["source", "target"] ".x" ".y" true .left
        unfold mergeRows
        apply List.mem_flatMap.mpr
        refine ⟨r3, hr3mem, ?_⟩
        rw [hmatches]
        exact List.mem_singleton.mpr rfl
      have hmg : rget row4 "_merge" = some (Val.str "left_only") := by
        apply rget_rowLeftOnly_merge
        · intro e he
          exact lname_ne_bookkeeping (her3 e he) (by rfl)
        · exact merge_not_mem_dropCols
      have hrow4mem0 : row4 ∈ newY0.rows := by
        show row4 ∈ ym.rows.filter (fun r2 => mergeIs r2 "left_only")
        apply List.mem_filter.mpr
        refine ⟨hrow4mem, ?_⟩
        rw [mergeIs, hmg]
        exact beq_self_eq_true _
      have h4bad : rget row4 "source" = none ∨ rget row4 "target" = none := by
        have hanysrc : r3.any (fun e => e.1 == "source") = true := by
          rw [hr3def]
          rw [any_rkeep_of (show (fun c =>
            !List.contains ["from", "to"] c) "source" = true from rfl)]
          rw [any_rset_ne (show "target" ≠ "source" by decide)]
          exact any_rset_self _ _ _
        have hanytgt : r3.any (fun e => e.1 == "target") = true := by
          rw [hr3def]
          rw [any_rkeep_of (show (fun c =>
            !List.contains ["from", "to"] c) "target" = true from rfl)]
          exact any_rset_self _ _ _
        rcases hr3bad with hb | hb
        · left
          rw [hrow4def]
          unfold rowLeftOnly
          rw [rget_append, if_pos ?hc1, rget_append, if_pos ?hc2]
          · rw [rget_mkLeft_key (by rfl) (by rfl) r3]
            exact hb
          case hc1 =>
            rw [List.any_append,
              any_mkLeft_eq (by rfl) (by rfl) r3, hanysrc]
            rfl
          case hc2 =>
            rw [any_mkLeft_eq (by rfl) (by rfl) r3]
            exact hanysrc
        · right
          rw [hrow4def]
          unfold rowLeftOnly
          rw [rget_append, if_pos ?hc3, rget_append, if_pos ?hc4]
          · rw [rget_mkLeft_key (by rfl) (by rfl) r3]
            exact hb
          case hc3 =>
            rw [List.any_append,
              any_mkLeft_eq (by rfl) (by rfl) r3, hanytgt]
            rfl
          case hc4 =>
            rw [any_mkLeft_eq (by rfl) (by rfl) r3]
            exact hanytgt
      -- the bad row survives the suffix recombination loop
      have hbadY1 : ∃ row ∈ newY1.rows,
          rget row "source" = none ∨ rget row "target" = none := by
        refine foldlM_ok_invariant (fun t => ∃ row ∈ t.rows,
            rget row "source" = none ∨ rget row "target" = none)
          combineStep (newY0.cols.filter (fun c => strEndsWith c ".x"))
          newY0 newY1 hcomb2 ⟨row4, hrow4mem0, h4bad⟩ ?_
        intro u u2 c hc hP hstep
        have hcx := List.of_mem_filter hc
        have hccols : c ∈ newY0.cols := List.mem_of_mem_filter hc
        refine combineStep_pres hstep hcx ?_ ?_ hP
        · intro hceq
          rw [hceq] at hccols
          exact notmem_ym_cols (by decide) (by decide) (by decide)
            (by decide) (by rfl)
            (fun c0 hc0 => by
              rw [str_append_cancel_right
                (show c0 ++ ".x" = "source" ++ ".x" from hc0)]
              rfl)
            hsx hse hccols
        · intro hceq
          rw [hceq] at hccols
          exact notmem_ym_cols (by decide) (by decide) (by decide)
            (by decide) (by rfl)
            (fun c0 hc0 => by
              rw [str_append_cancel_right
                (show c0 ++ ".x" = "target" ++ ".x" from hc0)]
              rfl)
            htx hte hccols
      -- it is tagged new and appended
      obtain ⟨row5, hrow5, h5bad⟩ := hbadY1
      have hrow6 : rset (rkeep row5 (fun c =>
          (augmentEdgesY g y0).cols.contains c)) "_merge"
          (some (Val.str "right_only")) ∈
          ((newY1.keepCols (fun c =>
            (augmentEdgesY g y0).cols.contains c)).setCol "_merge"
            (List.replicate (newY1.keepCols (fun c =>
              (augmentEdgesY g y0).cols.contains c)).rows.length
              (some (Val.str "right_only")))).rows := by
        show _ ∈ (newY1.rows.map (fun r2 => rkeep r2 (fun c =>
          (augmentEdgesY g y0).cols.contains c))).zipWith
          (fun r2 v => rset r2 "_merge" v)
          (List.replicate (newY1.rows.map (fun r2 => rkeep r2 (fun c =>
            (augmentEdgesY g y0).cols.contains c))).length
            (some (Val.str "right_only")))
        rw [zipWith_replicate_right]
        exact List.mem_map_of_mem _ (List.mem_map_of_mem _ hrow5)
      have hfin := @finish_badrow xm ⟨rset (rkeep row5 (fun c =>
          (augmentEdgesY g y0).cols.contains c)) "_merge"
          (some (Val.str "right_only")), by
            rw [hxmeq]
            exact List.mem_append.mpr (Or.inr hrow6),
          rget_rset_self _ _ _, by
            rcases h5bad with hb | hb
            · exact Or.inl (by
                rw [rget_rset_ne _ _ (show "_merge" ≠ "source" by decide)]
                exact rget_rkeep_none _ hb)
            · exact Or.inr (by
                rw [rget_rset_ne _ _ (show "_merge" ≠ "target" by decide)]
                exact rget_rkeep_none _ hb)⟩
      obtain ⟨row2, hrow2, hb2⟩ := hfin
      obtain ⟨gm, hadd, _⟩ := bindOk htail2
      refine addEdges_bad ⟨endpointsOf row2, List.mem_map_of_mem _ hrow2, ?_⟩
        gm hadd
      rcases hb2 with hb | hb
      · exact Or.inl hb
      · exact Or.inr hb

end Tidy

namespace Tidy

theorem tidyJoin_isErr_right {active : ActiveType} {g : Graph} {y : Table}
    {onv : Option (List String)} {ls rs : String}
    (h : isErr (right_join active g y onv ls rs) = true) :
    isErr (tidyJoin active g y onv ls rs "right") = true := by
  unfold tidyJoin
  split
  · rfl
  split
  · rfl
  split
  · rfl
  exact h

theorem tidyJoin_isErr_outer {active : ActiveType} {g : Graph} {y : Table}
    {onv : Option (List String)} {ls rs : String}
    (h : isErr (outer_join active g y onv ls rs) = true) :
    isErr (tidyJoin active g y onv ls rs "outer") = true := by
  unfold tidyJoin
  split
  · rfl
  split
  · rfl
  split
  · rfl
  exact h

/-- C2: an edge-context right or outer join whose caller table names, in its
"from" or "to" column, a vertex that the Identity Resolver cannot find in
the graph, fails: the right join raises its explicit validation error before
touching the graph, and the outer join fails inside the atomic `add_edges`
call, whose whole-list validation rejects the unresolved (missing) endpoint
before any mutation, so no vertex is ever implicitly created.  The caller
table is assumed not to usurp the internal "_merge" tag or the suffixed
"source.x"/"target.x" names that the undirected recombination loop owns. -/
theorem c2_edge_unresolved_vertex_errors (g : Graph) (y0 : Table)
    (onv : Option (List String))
    (hem : ∀ c ∈ attrNamesOf g.eattrs, c ≠ "_merge")
    (hy0rows : ∀ r ∈ y0.rows, ∀ e ∈ r, e.1 ≠ "_merge")
    (hsx : "source.x" ∉ y0.cols) (htx : "target.x" ∉ y0.cols)
    (hse : "source.x" ∉ attrNamesOf g.eattrs)
    (hte : "target.x" ∉ attrNamesOf g.eattrs)
    (hbad : ∃ (k : Nat) (r : Row), y0.rows[k]? = some r ∧
      (((rget r "from").isSome = true ∧
          nameToIndex g (rget r "from") = none) ∨
        ((rget r "to").isSome = true ∧
          nameToIndex g (rget r "to") = none))) :
    isErr (tidyJoin ActiveType.EDGES g y0 onv ".x" ".y" "right") = true ∧
      isErr (tidyJoin ActiveType.EDGES g y0 onv ".x" ".y" "outer") = true := by
  have hbad2 : ∃ (k : Nat) (r : Row), y0.rows[k]? = some r ∧
      (nameToIndex g (rget r "from") = none ∨
        nameToIndex g (rget r "to") = none) := by
    obtain ⟨k, r, hk, hc⟩ := hbad
    rcases hc with ⟨_, h1⟩ | ⟨_, h1⟩
    · exact ⟨k, r, hk, Or.inl h1⟩
    · exact ⟨k, r, hk, Or.inr h1⟩
  constructor
  · exact tidyJoin_isErr_right (c2_right_half hbad2)
  · apply tidyJoin_isErr_outer
    cases hd : g.directed with
    | true => exact c2_outer_directed hd hem hy0rows hbad2
    | false => exact c2_outer_undirected hd hem hy0rows hsx htx hse hte hbad2

theorem c2_edge_unresolved_vertex_errors_witness :
    isErr (tidyJoin ActiveType.EDGES gAB1 (edgeTable [("a", "z")]) none
        ".x" ".y" "right") = true ∧
      isErr (tidyJoin ActiveType.EDGES gAB1 (edgeTable [("a", "z")]) none
        ".x" ".y" "outer") = true :=
  c2_edge_unresolved_vertex_errors gAB1 (edgeTable [("a", "z")]) none
    (by decide) (by decide) (by decide) (by decide) (by decide) (by decide)
    ⟨0, [("from", sv "a"), ("to", sv "z")], rfl, Or.inr ⟨rfl, rfl⟩⟩

end Tidy

namespace Tidy

theorem range_decomp {j n : Nat} (h : j < n) :
    List.range n = List.range j ++ [j] ++
      (List.range (n - j - 1)).map (fun t => j + 1 + t) := by
  have h1 : n = j + (1 + (n - j - 1)) := by omega
  conv_lhs => rw [h1]
  rw [List.range_add, List.range_add]
  rw [List.map_append, List.map_map]
  rw [show List.range 1 = [0] from rfl]
  rw [List.map_cons, List.map_nil, List.append_assoc]
  rw [show j + 0 = j from rfl]
  have h2 : ((List.range (n - j - 1)).map ((fun x => j + x) ∘ fun x => 1 + x)) =
      (List.range (n - j - 1)).map (fun t => j + 1 + t) := by
    apply List.map_congr_left
    intro t _
    show j + (1 + t) = j + 1 + t
    omega
  rw [h2]

theorem flatMap_nil_of {α β : Type} {l : List α} {f : α → List β}
    (h : ∀ a ∈ l, f a = []) : l.flatMap f = [] := by
  induction l with
  | nil => rfl
  | cons a t ih =>
      rw [List.flatMap_cons, h a (List.mem_cons_self a t),
        ih (fun x hx => h x (List.mem_cons_of_mem a hx))]
      rfl

theorem enumFrom_filter_false {α : Type} {p : α → Bool} :
    ∀ (l : List α) (s : Nat), (∀ a ∈ l, p a = false) →
    (l.enumFrom s).filter (fun q => p q.2) = [] := by
  intro l
  induction l with
  | nil => intro s _; rfl
  | cons a t ih =>
      intro s h
      show List.filter _ ((s, a) :: t.enumFrom (s + 1)) = []
      rw [List.filter_cons]
      rw [show (p ((s, a) : Nat × α).2) = false from
        h a (List.mem_cons_self a t)]
      rw [if_neg Bool.false_ne_true]
      exact ih (s + 1) (fun x hx => h x (List.mem_cons_of_mem a hx))

theorem enumFrom_bounds {α : Type} :
    ∀ (l : List α) (s : Nat) (q : Nat × α), q ∈ l.enumFrom s →
    s ≤ q.1 ∧ q.1 < s + l.length := by
  intro l
  induction l with
  | nil => intro s q h; cases h
  | cons a t ih =>
      intro s q h
      rcases List.mem_cons.mp h with rfl | hm
      · constructor
        · exact Nat.le_refl s
        · show s < s + (a :: t).length
          rw [List.length_cons]
          omega
      · obtain ⟨h1, h2⟩ := ih (s + 1) q hm
        constructor
        · omega
        · rw [List.length_cons]
          omega

theorem enumFrom_map_unchanged {α : Type} {f : Nat × α → α} :
    ∀ (l : List α) (s : Nat), (∀ q ∈ l.enumFrom s, f q = q.2) →
    (l.enumFrom s).map f = l := by
  intro l s h
  rw [List.map_congr_left h]
  exact List.enumFrom_map_snd s l

theorem contains_singleton_nat (a b : Nat) :
    ([b] : List Nat).contains a = (a == b) := by
  rw [List.contains_cons]
  rw [show (([] : List Nat).contains a) = false from rfl]
  exact Bool.or_false (a == b)

theorem getD_map_range {α : Type} (f : Nat → α) {n j : Nat} (h : j < n)
    (dflt : α) : ((List.range n).map f).getD j dflt = f j := by
  rw [List.getD_eq_getElem _ dflt (by simpa using h)]
  simp

theorem c4_xrows (d : Bool) (E : List (Nat × Nat)) (ea : AttrStore)
    (names : List Cell) :
    (addIndexCol (getVertexDf
        ⟨d, names.length, E, [("name", names)], ea⟩)).rows =
      (List.range names.length).map (fun i =>
        [("name", names.getD i none), ("_index", some (Val.nat i))]) := by
  show ((List.range names.length).map (fun i =>
      [("name", names.getD i none)])).enum.map
      (fun p => p.2 ++ [("_index", some (Val.nat p.1))]) = _
  rw [enum_map_range, List.map_map]
  rfl

theorem explosionStepNode_eq (x m : Table) (i : Nat) :
    explosionStepNode x m i =
      markRows m
        (((m.rows.enum.filter (fun q =>
            rget q.2 "name" == rget (x.rows.getD i []) "name")).map Prod.fst).drop
          (((m.rows.enum.filter (fun q =>
            rget q.2 "name" == rget (x.rows.getD i []) "name")).map Prod.fst).length -
            (((m.rows.enum.filter (fun q =>
              rget q.2 "name" == rget (x.rows.getD i []) "name")).map Prod.fst).length -
              (x.rows.filter (fun r =>
                rget r "name" == rget (x.rows.getD i []) "name")).length))) := rfl

theorem markRows_eq (m : Table) (ps : List Nat) :
    markRows m ps = ⟨m.cols, m.rows.enum.map (fun q =>
      if ps.contains q.1 then rset q.2 "_merge" (some (Val.str "right_only"))
      else q.2)⟩ := rfl

theorem finishTable_eq (t : Table) :
    finishTable t =
      (dropUnderscoreCols ⟨t.dropAllMissing.cols,
          (t.dropAllMissing.rows.filter (fun r => !mergeIs r "right_only")) ++
          (t.dropAllMissing.rows.filter (fun r => mergeIs r "right_only"))⟩,
        t.dropAllMissing.rows.filter (fun r => mergeIs r "right_only")) := rfl

theorem mem_enumFrom_snd {α : Type} :
    ∀ (l : List α) (s : Nat) (q : Nat × α), q ∈ l.enumFrom s → q.2 ∈ l := by
  intro l
  induction l with
  | nil => intro s q h; cases h
  | cons a t ih =>
      intro s q h
      rcases List.mem_cons.mp h with rfl | hm
      · exact List.mem_cons_self a t
      · exact List.mem_cons_of_mem a (ih (s + 1) q hm)

theorem enumFrom_map_fst {α : Type} :
    ∀ (l : List α) (s : Nat),
    (l.enumFrom s).map Prod.fst =
      (List.range l.length).map (fun t => s + t) := by
  intro l
  induction l with
  | nil => intro s; rfl
  | cons a t ih =>
      intro s
      show s :: (t.enumFrom (s + 1)).map Prod.fst = _
      rw [ih (s + 1)]
      rw [List.length_cons, List.range_succ_eq_map, List.map_cons, List.map_map]
      congr 1
      apply List.map_congr_left
      intro t2 _
      show s + 1 + t2 = s + (t2 + 1)
      omega

theorem enum_filter_middle {p : Row → Bool} (A B C : List Row)
    (hA : ∀ a ∈ A, p a = false) (hC : ∀ a ∈ C, p a = false)
    (hB : ∀ b ∈ B, p b = true) :
    ((A ++ B ++ C).enum.filter (fun q => p q.2)).map Prod.fst =
      (List.range B.length).map (fun t => A.length + t) := by
  have henum : (A ++ B ++ C).enum = (A ++ B ++ C).enumFrom 0 := rfl
  rw [henum, List.enumFrom_append, List.enumFrom_append]
  rw [Nat.zero_add, Nat.zero_add]
  rw [List.filter_append, List.filter_append]
  rw [enumFrom_filter_false A 0 hA]
  rw [enumFrom_filter_false C ((A ++ B).length) hC]
  have hmid : (B.enumFrom A.length).filter (fun q => p q.2) =
      B.enumFrom A.length := by
    apply List.filter_eq_self.mpr
    intro q hq
    exact hB q.2 (mem_enumFrom_snd B A.length q hq)
  rw [hmid, List.nil_append, List.append_nil]
  exact enumFrom_map_fst B A.length

theorem range_map_add_drop_one (j n : Nat) :
    ((List.range (n + 1)).map (fun t => j + t)).drop 1 =
      (List.range n).map (fun t => j + 1 + t) := by
  rw [List.range_succ_eq_map, List.map_cons, List.drop_succ_cons,
    List.drop_zero, List.map_map]
  apply List.map_congr_left
  intro t _
  show j + (t + 1) = j + 1 + t
  omega

theorem foldl_max_replicate (j : Nat) :
    ∀ n, (List.replicate n j).foldl Nat.max j = j := by
  intro n
  induction n with
  | zero => rfl
  | succ m ih =>
      rw [List.replicate_succ, List.foldl_cons]
      rw [show Nat.max j j = j from by show max j j = j; omega]
      exact ih

theorem count_replicate_self_nat (j : Nat) :
    ∀ n, (List.replicate n j).count j = n := by
  intro n
  induction n with
  | zero => rfl
  | succ m ih => rw [List.replicate_succ, List.count_cons_self, ih]

theorem count_replicate_ne_nat {i j : Nat} (h : i ≠ j) :
    ∀ n, (List.replicate n j).count i = 0 := by
  intro n
  induction n with
  | zero => rfl
  | succ m ih => rw [List.replicate_succ, List.count_cons_of_ne h, ih]

theorem mark_middle (A C : List Row) (b1 : Row) (B2 : List Row)
    {ps : List Nat}
    (hps : ∀ i, ps.contains i = true ↔
      (A.length + 1 ≤ i ∧ i < A.length + 1 + B2.length)) :
    (A ++ (b1 :: B2) ++ C).enum.map (fun q =>
      if ps.contains q.1 then
        rset q.2 "_merge" (some (Val.str "right_only")) else q.2) =
      A ++ (b1 :: B2.map (fun r =>
        rset r "_merge" (some (Val.str "right_only")))) ++ C := by
  have hfalse : ∀ i : Nat,
      ¬(A.length + 1 ≤ i ∧ i < A.length + 1 + B2.length) →
      ps.contains i = false := by
    intro i hni
    cases hc : ps.contains i with
    | false => rfl
    | true => exact absurd ((hps i).mp hc) hni
  have henum : (A ++ (b1 :: B2) ++ C).enum =
      (A ++ (b1 :: B2) ++ C).enumFrom 0 := rfl
  rw [henum, List.enumFrom_append, List.enumFrom_append]
  rw [Nat.zero_add, Nat.zero_add]
  rw [List.map_append, List.map_append]
  have hApart : (A.enumFrom 0).map (fun q =>
      if ps.contains q.1 then
        rset q.2 "_merge" (some (Val.str "right_only")) else q.2) = A := by
    apply enumFrom_map_unchanged
    intro q hq
    obtain ⟨hq1, hq2⟩ := enumFrom_bounds A 0 q hq
    show (if ps.contains q.1 = true then
      rset q.2 "_merge" (some (Val.str "right_only")) else q.2) = q.2
    rw [hfalse q.1 (by omega)]
    rw [if_neg Bool.false_ne_true]
  have hCpart : (C.enumFrom ((A ++ (b1 :: B2)).length)).map (fun q =>
      if ps.contains q.1 then
        rset q.2 "_merge" (some (Val.str "right_only")) else q.2) = C := by
    apply enumFrom_map_unchanged
    intro q hq
    obtain ⟨hq1, hq2⟩ := enumFrom_bounds C ((A ++ (b1 :: B2)).length) q hq
    rw [List.length_append, List.length_cons] at hq1
    show (if ps.contains q.1 = true then
      rset q.2 "_merge" (some (Val.str "right_only")) else q.2) = q.2
    rw [hfalse q.1 (by omega)]
    rw [if_neg Bool.false_ne_true]
  have hmidpart : ((b1 :: B2).enumFrom A.length).map (fun q =>
      if ps.contains q.1 then
        rset q.2 "_merge" (some (Val.str "right_only")) else q.2) =
      b1 :: B2.map (fun r =>
        rset r "_merge" (some (Val.str "right_only"))) := by
    show (if ps.contains ((A.length, b1) : Nat × Row).1 = true then
        rset ((A.length, b1) : Nat × Row).2 "_merge"
          (some (Val.str "right_only"))
        else ((A.length, b1) : Nat × Row).2) ::
      (B2.enumFrom (A.length + 1)).map (fun q =>
        if ps.contains q.1 then
          rset q.2 "_merge" (some (Val.str "right_only")) else q.2) =
      b1 :: B2.map (fun r =>
        rset r "_merge" (some (Val.str "right_only")))
    rw [hfalse ((A.length, b1) : Nat × Row).1
      (by show ¬(A.length + 1 ≤ A.length ∧
        A.length < A.length + 1 + B2.length); omega)]
    rw [if_neg Bool.false_ne_true]
    rw [show ((A.length, b1) : Nat × Row).2 = b1 from rfl]
    have hmark : ∀ q ∈ B2.enumFrom (A.length + 1),
        (if ps.contains q.1 = true then
          rset q.2 "_merge" (some (Val.str "right_only")) else q.2) =
        rset q.2 "_merge" (some (Val.str "right_only")) := by
      intro q hq
      obtain ⟨hq1, hq2⟩ := enumFrom_bounds B2 (A.length + 1) q hq
      rw [(hps q.1).mpr ⟨by omega, by omega⟩]
      rw [if_pos rfl]
    rw [List.map_congr_left hmark]
    rw [show (fun (q : Nat × Row) =>
        rset q.2 "_merge" (some (Val.str "right_only"))) =
      ((fun r => rset r "_merge" (some (Val.str "right_only"))) ∘ Prod.snd)
      from rfl]
    rw [← List.map_map]
    rw [List.enumFrom_map_snd]
  rw [hApart, hCpart, hmidpart]

end Tidy

namespace Tidy

theorem c4_merge_rows (d : Bool) (E : List (Nat × Nat)) (ea : AttrStore)
    (names : List Cell) (hnd : names.Nodup) {j : Nat} (hj : j < names.length)
    (w1 : Val) (wrest : List Val) :
    (pdMerge (addIndexCol (getVertexDf
        ⟨d, names.length, E, [("name", names)], ea⟩))
      ⟨["name", "w"], (w1 :: wrest).map (fun w =>
        [("name", names.getD j none), ("w", some w)])⟩
      ["name"] ".x" ".y" true .outer).rows =
    (List.range names.length).flatMap (fun i => if i = j then
      (w1 :: wrest).map (fun w =>
        [("name", names.getD j none), ("_index", some (Val.nat j)),
          ("w", some w), ("_merge", some (Val.str "both"))])
    else
      [[("name", names.getD i none), ("_index", some (Val.nat i)),
        ("w", (none : Cell)), ("_merge", some (Val.str "left_only"))]]) := by
  set G : Graph := ⟨d, names.length, E, [("name", names)], ea⟩ with hGdef
  set YT : Table := ⟨["name", "w"], (w1 :: wrest).map (fun w =>
    [("name", names.getD j none), ("w", some w)])⟩ with hYdef
  have hkey : ∀ i, keyOf ["name"]
      ([("name", names.getD i none), ("_index", some (Val.nat i))]) =
      [names.getD i none] := fun i => rfl
  have hanyw : ∀ ry ∈ YT.rows, (addIndexCol (getVertexDf G)).rows.any
      (fun rx => keyOf ["name"] rx == keyOf ["name"] ry) = true := by
    intro ry hry
    obtain ⟨w, hw, rfl⟩ := List.mem_map.mp hry
    rw [c4_xrows d E ea names, List.any_eq_true]
    refine ⟨[("name", names.getD j none), ("_index", some (Val.nat j))],
      List.mem_map_of_mem _ (List.mem_range.mpr hj), ?_⟩
    show (keyOf ["name"] [("name", names.getD j none),
      ("_index", some (Val.nat j))] ==
      keyOf ["name"] [("name", names.getD j none), ("w", some w)]) = true
    rw [hkey]
    exact beq_self_eq_true _
  have hun : YT.rows.filter (fun ry =>
      !(addIndexCol (getVertexDf G)).rows.any (fun rx =>
        keyOf ["name"] rx == keyOf ["name"] ry)) = [] := by
    rw [List.filter_eq_nil_iff]
    intro ry hry
    rw [hanyw ry hry]
    exact fun hh => Bool.false_ne_true hh
  have hiota : (pdMerge (addIndexCol (getVertexDf G)) YT
      ["name"] ".x" ".y" true .outer).rows =
      ((addIndexCol (getVertexDf G)).rows.flatMap (fun rx =>
        match YT.rows.filter (fun ry =>
            keyOf ["name"] ry == keyOf ["name"] rx) with
        | [] => [rowLeftOnly ["name"] (addIndexCol (getVertexDf G)).cols
            YT.cols ".x" ".y" true rx]
        | ms => ms.map (rowBoth ["name"] (addIndexCol (getVertexDf G)).cols
            YT.cols ".x" ".y" true rx)) ++
        (YT.rows.filter (fun ry =>
          !(addIndexCol (getVertexDf G)).rows.any (fun rx =>
            keyOf ["name"] rx == keyOf ["name"] ry))).map
          (rowRightOnly ["name"] (addIndexCol (getVertexDf G)).cols
            YT.cols ".x" ".y" true)) := rfl
  rw [hiota, hun, List.map_nil, List.append_nil, c4_xrows d E ea names,
    flatMap_map_eq]
  apply flatMap_congr_mem
  intro i hi
  by_cases hij : i = j
  · subst hij
    rw [if_pos rfl]
    have hflt : YT.rows.filter (fun ry => keyOf ["name"] ry ==
        keyOf ["name"] [("name", names.getD i none),
          ("_index", some (Val.nat i))]) = YT.rows := by
      apply List.filter_eq_self.mpr
      intro ry hry
      obtain ⟨w, hw, rfl⟩ := List.mem_map.mp hry
      rw [hkey]
      exact beq_self_eq_true _
    rw [hflt]
    show ((w1 :: wrest).map (fun w =>
        ([("name", names.getD i none), ("w", some w)] : Row))).map
        (rowBoth ["name"] (addIndexCol (getVertexDf G)).cols
          YT.cols ".x" ".y" true
          [("name", names.getD i none), ("_index", some (Val.nat i))]) =
      (w1 :: wrest).map (fun w =>
        [("name", names.getD i none), ("_index", some (Val.nat i)),
          ("w", some w), ("_merge", some (Val.str "both"))])
    rw [List.map_map]
    rfl
  · rw [if_neg hij]
    have hne : (names.getD j none == names.getD i none) = false := by
      rw [beq_eq_false_iff_ne]
      intro heq
      exact hij (nodup_getD_inj hnd hj (List.mem_range.mp hi) heq).symm
    have hflt : YT.rows.filter (fun ry => keyOf ["name"] ry ==
        keyOf ["name"] [("name", names.getD i none),
          ("_index", some (Val.nat i))]) = [] := by
      rw [List.filter_eq_nil_iff]
      intro ry hry
      obtain ⟨w, hw, rfl⟩ := List.mem_map.mp hry
      rw [hkey]
      intro hh
      rw [show (keyOf ["name"] [("name", names.getD j none),
        ("w", (some w : Cell))] == [names.getD i none]) =
        (names.getD j none == names.getD i none) from ?_] at hh
      · rw [hne] at hh
        cases hh
      · show ([names.getD j none] == [names.getD i none]) = _
        rw [show ([names.getD j none] == [names.getD i none]) =
          ((names.getD j none == names.getD i none) &&
            (([] : List Cell) == [])) from rfl]
        rw [show (([] : List Cell) == []) = true from rfl, Bool.and_true]
    rw [hflt]
    rfl

end Tidy

namespace Tidy

theorem c4_rows_split (d : Bool) (E : List (Nat × Nat)) (ea : AttrStore)
    (names : List Cell) (hnd : names.Nodup) {j : Nat} (hj : j < names.length)
    (w1 : Val) (wrest : List Val) :
    (pdMerge (addIndexCol (getVertexDf
        ⟨d, names.length, E, [("name", names)], ea⟩))
      ⟨["name", "w"], (w1 :: wrest).map (fun w =>
        [("name", names.getD j none), ("w", some w)])⟩
      ["name"] ".x" ".y" true .outer).rows =
    (List.range j).map (fun i =>
      [("name", names.getD i none), ("_index", some (Val.nat i)),
        ("w", (none : Cell)), ("_merge", some (Val.str "left_only"))]) ++
    (w1 :: wrest).map (fun w =>
      [("name", names.getD j none), ("_index", some (Val.nat j)),
        ("w", some w), ("_merge", some (Val.str "both"))]) ++
    (List.range (names.length - j - 1)).map (fun t =>
      [("name", names.getD (j + 1 + t) none),
        ("_index", some (Val.nat (j + 1 + t))),
        ("w", (none : Cell)), ("_merge", some (Val.str "left_only"))]) := by
  rw [c4_merge_rows d E ea names hnd hj w1 wrest]
  rw [range_decomp hj]
  rw [List.flatMap_append, List.flatMap_append]
  have h1 : (List.range j).flatMap (fun i => if i = j then
      (w1 :: wrest).map (fun w =>
        [("name", names.getD j none), ("_index", some (Val.nat j)),
          ("w", some w), ("_merge", some (Val.str "both"))])
    else
      [[("name", names.getD i none), ("_index", some (Val.nat i)),
        ("w", (none : Cell)), ("_merge", some (Val.str "left_only"))]]) =
      (List.range j).map (fun i =>
        [("name", names.getD i none), ("_index", some (Val.nat i)),
          ("w", (none : Cell)), ("_merge", some (Val.str "left_only"))]) := by
    apply flatMap_singleton
    intro i hi
    have hlt := List.mem_range.mp hi
    rw [if_neg (by omega)]
  have h2 : ([j] : List Nat).flatMap (fun i => if i = j then
      (w1 :: wrest).map (fun w =>
        [("name", names.getD j none), ("_index", some (Val.nat j)),
          ("w", some w), ("_merge", some (Val.str "both"))])
    else
      [[("name", names.getD i none), ("_index", some (Val.nat i)),
        ("w", (none : Cell)), ("_merge", some (Val.str "left_only"))]]) =
      (w1 :: wrest).map (fun w =>
        [("name", names.getD j none), ("_index", some (Val.nat j)),
          ("w", some w), ("_merge", some (Val.str "both"))]) := by
    rw [List.flatMap_cons, if_pos rfl, List.flatMap_nil, List.append_nil]
  have h3 : ((List.range (names.length - j - 1)).map
      (fun t => j + 1 + t)).flatMap (fun i => if i = j then
      (w1 :: wrest).map (fun w =>
        [("name", names.getD j none), ("_index", some (Val.nat j)),
          ("w", some w), ("_merge", some (Val.str "both"))])
    else
      [[("name", names.getD i none), ("_index", some (Val.nat i)),
        ("w", (none : Cell)), ("_merge", some (Val.str "left_only"))]]) =
      (List.range (names.length - j - 1)).map (fun t =>
        [("name", names.getD (j + 1 + t) none),
          ("_index", some (Val.nat (j + 1 + t))),
          ("w", (none : Cell)), ("_merge", some (Val.str "left_only"))]) := by
    rw [flatMap_map_eq]
    apply flatMap_singleton
    intro t ht
    rw [if_neg (by omega)]
  rw [h1, h2, h3]

end Tidy

namespace Tidy

theorem c4_explosionIdx (d : Bool) (E : List (Nat × Nat)) (ea : AttrStore)
    (names : List Cell) (hnd : names.Nodup) {j : Nat} (hj : j < names.length)
    (w1 : Val) (wrest : List Val) (hw : wrest ≠ []) :
    explosionIdx (pdMerge (addIndexCol (getVertexDf
        ⟨d, names.length, E, [("name", names)], ea⟩))
      ⟨["name", "w"], (w1 :: wrest).map (fun w =>
        [("name", names.getD j none), ("w", some w)])⟩
      ["name"] ".x" ".y" true .outer) = [j] := by
  set xm0 := pdMerge (addIndexCol (getVertexDf
      ⟨d, names.length, E, [("name", names)], ea⟩))
    ⟨["name", "w"], (w1 :: wrest).map (fun w =>
      [("name", names.getD j none), ("w", some w)])⟩
    ["name"] ".x" ".y" true .outer with hxm0
  have hvals : xm0.rows.filterMap (fun r =>
      if mergeIs r "both" then indexVal r else none) =
      List.replicate (wrest.length + 1) j := by
    rw [c4_rows_split d E ea names hnd hj w1 wrest]
    rw [List.filterMap_append, List.filterMap_append]
    have h1 : ((List.range j).map (fun i =>
        [("name", names.getD i none), ("_index", some (Val.nat i)),
          ("w", (none : Cell)),
          ("_merge", some (Val.str "left_only"))])).filterMap (fun r =>
        if mergeIs r "both" then indexVal r else none) = [] := by
      apply filterMap_all_none
      intro r hr
      obtain ⟨i, hi, rfl⟩ := List.mem_map.mp hr
      rfl
    have h3 : ((List.range (names.length - j - 1)).map (fun t =>
        [("name", names.getD (j + 1 + t) none),
          ("_index", some (Val.nat (j + 1 + t))),
          ("w", (none : Cell)),
          ("_merge", some (Val.str "left_only"))])).filterMap (fun r =>
        if mergeIs r "both" then indexVal r else none) = [] := by
      apply filterMap_all_none
      intro r hr
      obtain ⟨i, hi, rfl⟩ := List.mem_map.mp hr
      rfl
    have hB : (((w1 :: wrest)).map (fun w =>
        ([("name", names.getD j none), ("_index", some (Val.nat j)),
          ("w", some w),
          ("_merge", some (Val.str "both"))] : Row))).filterMap (fun r =>
        if mergeIs r "both" then indexVal r else none) =
        List.replicate (wrest.length + 1) j := by
      rw [filterMap_all_some _ _ j]
      · rw [List.length_map, List.length_cons]
      · intro a ha
        obtain ⟨w, hw2, rfl⟩ := List.mem_map.mp ha
        rfl
    rw [h1, h3, hB]
    rw [List.nil_append, List.append_nil]
  show (List.range ((xm0.rows.filterMap (fun r =>
      if mergeIs r "both" then indexVal r else none)).foldl Nat.max 0 +
        1)).filter
    (fun i => (xm0.rows.filterMap (fun r =>
      if mergeIs r "both" then indexVal r else none)).count i > 1) = [j]
  rw [hvals]
  have hfold : (List.replicate (wrest.length + 1) j).foldl Nat.max 0 = j := by
    rw [List.replicate_succ, List.foldl_cons]
    rw [show Nat.max 0 j = j from by show max 0 j = j; omega]
    exact foldl_max_replicate j wrest.length
  rw [hfold]
  have hwpos : 0 < wrest.length := List.length_pos.mpr hw
  have hcongr : ∀ i ∈ List.range (j + 1),
      (decide ((List.replicate (wrest.length + 1) j).count i > 1)) =
      (i == j) := by
    intro i hi
    by_cases hij : i = j
    · subst hij
      rw [beq_self_eq_true]
      rw [count_replicate_self_nat]
      simp only [decide_eq_true_eq]
      omega
    · have hbe : (i == j) = false := by
        rw [beq_eq_false_iff_ne]
        exact hij
      rw [hbe]
      rw [count_replicate_ne_nat hij]
      rfl
  rw [List.filter_congr hcongr]
  exact filter_range_eq_single (by omega)

end Tidy

namespace Tidy

theorem c4_xm1 (d : Bool) (E : List (Nat × Nat)) (ea : AttrStore)
    (names : List Cell) (hnd : names.Nodup) {j : Nat} (hj : j < names.length)
    (w1 : Val) (wrest : List Val) :
    explosionStepNode
      (addIndexCol (getVertexDf ⟨d, names.length, E, [("name", names)], ea⟩))
      (pdMerge (addIndexCol (getVertexDf
          ⟨d, names.length, E, [("name", names)], ea⟩))
        ⟨["name", "w"], (w1 :: wrest).map (fun w =>
          [("name", names.getD j none), ("w", some w)])⟩
        ["name"] ".x" ".y" true .outer) j =
    ⟨["name", "_index", "w", "_merge"],
      (List.range j).map (fun i =>
        [("name", names.getD i none), ("_index", some (Val.nat i)),
          ("w", (none : Cell)), ("_merge", some (Val.str "left_only"))]) ++
      ([("name", names.getD j none), ("_index", some (Val.nat j)),
          ("w", some w1), ("_merge", some (Val.str "both"))] ::
        wrest.map (fun w =>
          [("name", names.getD j none), ("_index", some (Val.nat j)),
            ("w", some w), ("_merge", some (Val.str "right_only"))])) ++
      (List.range (names.length - j - 1)).map (fun t =>
        [("name", names.getD (j + 1 + t) none),
          ("_index", some (Val.nat (j + 1 + t))),
          ("w", (none : Cell)), ("_merge", some (Val.str "left_only"))])⟩ := by
  have hname : rget ((addIndexCol (getVertexDf
      ⟨d, names.length, E, [("name", names)], ea⟩)).rows.getD j []) "name" =
      names.getD j none := by
    rw [c4_xrows d E ea names, getD_map_range _ hj]
    rfl
  have hAlen : ((List.range j).map (fun i =>
      ([("name", names.getD i none), ("_index", some (Val.nat i)),
        ("w", (none : Cell)),
        ("_merge", some (Val.str "left_only"))] : Row))).length = j := by
    rw [List.length_map, List.length_range]
  have hA : ∀ a ∈ (List.range j).map (fun i =>
      ([("name", names.getD i none), ("_index", some (Val.nat i)),
        ("w", (none : Cell)),
        ("_merge", some (Val.str "left_only"))] : Row)),
      (rget a "name" == names.getD j none) = false := by
    intro a ha
    obtain ⟨i, hi, rfl⟩ := List.mem_map.mp ha
    have hlt := List.mem_range.mp hi
    show (names.getD i none == names.getD j none) = false
    rw [beq_eq_false_iff_ne]
    intro heq
    have := nodup_getD_inj hnd (by omega) hj heq
    omega
  have hC : ∀ a ∈ (List.range (names.length - j - 1)).map (fun t =>
      ([("name", names.getD (j + 1 + t) none),
        ("_index", some (Val.nat (j + 1 + t))),
        ("w", (none : Cell)),
        ("_merge", some (Val.str "left_only"))] : Row)),
      (rget a "name" == names.getD j none) = false := by
    intro a ha
    obtain ⟨t, ht, rfl⟩ := List.mem_map.mp ha
    have hlt := List.mem_range.mp ht
    show (names.getD (j + 1 + t) none == names.getD j none) = false
    rw [beq_eq_false_iff_ne]
    intro heq
    have := nodup_getD_inj hnd (by omega) hj heq
    omega
  have hB : ∀ b ∈ (w1 :: wrest).map (fun w =>
      ([("name", names.getD j none), ("_index", some (Val.nat j)),
        ("w", some w), ("_merge", some (Val.str "both"))] : Row)),
      (rget b "name" == names.getD j none) = true := by
    intro b hb
    obtain ⟨w, hw2, rfl⟩ := List.mem_map.mp hb
    show (names.getD j none == names.getD j none) = true
    exact beq_self_eq_true _
  have hposns : ((pdMerge (addIndexCol (getVertexDf
        ⟨d, names.length, E, [("name", names)], ea⟩))
      ⟨["name", "w"], (w1 :: wrest).map (fun w =>
        [("name", names.getD j none), ("w", some w)])⟩
      ["name"] ".x" ".y" true .outer).rows.enum.filter (fun q =>
        rget q.2 "name" == names.getD j none)).map Prod.fst =
      (List.range (wrest.length + 1)).map (fun t => j + t) := by
    rw [c4_rows_split d E ea names hnd hj w1 wrest]
    have h := @enum_filter_middle
      (fun r => rget r "name" == names.getD j none)
      ((List.range j).map (fun i =>
        ([("name", names.getD i none), ("_index", some (Val.nat i)),
          ("w", (none : Cell)),
          ("_merge", some (Val.str "left_only"))] : Row)))
      ((w1 :: wrest).map (fun w =>
        ([("name", names.getD j none), ("_index", some (Val.nat j)),
          ("w", some w), ("_merge", some (Val.str "both"))] : Row)))
      ((List.range (names.length - j - 1)).map (fun t =>
        ([("name", names.getD (j + 1 + t) none),
          ("_index", some (Val.nat (j + 1 + t))),
          ("w", (none : Cell)),
          ("_merge", some (Val.str "left_only"))] : Row)))
      hA hC hB
    rw [hAlen, List.length_map, List.length_cons] at h
    exact h
  have hold : ((addIndexCol (getVertexDf
      ⟨d, names.length, E, [("name", names)], ea⟩)).rows.filter
      (fun r => rget r "name" == names.getD j none)).length = 1 := by
    rw [c4_xrows d E ea names]
    rw [filter_of_map]
    have hcg : ∀ i ∈ List.range names.length,
        ((fun a => rget (([("name", names.getD a none),
          ("_index", some (Val.nat a))]) : Row) "name" ==
            names.getD j none) i) = (i == j) := by
      intro i hi
      have hlt := List.mem_range.mp hi
      show (names.getD i none == names.getD j none) = (i == j)
      by_cases hij : i = j
      · subst hij
        rw [beq_self_eq_true, beq_self_eq_true]
      · have ha : (names.getD i none == names.getD j none) = false := by
          rw [beq_eq_false_iff_ne]
          intro heq
          exact hij (nodup_getD_inj hnd (by omega) hj heq)
        have hb : (i == j) = false := by
          rw [beq_eq_false_iff_ne]
          exact hij
        rw [ha, hb]
    rw [List.filter_congr hcg]
    rw [filter_range_eq_single hj]
    rw [List.length_map]
    rfl
  rw [explosionStepNode_eq]
  rw [hname, hposns, hold]
  have hPlen : ((List.range (wrest.length + 1)).map
      (fun t => j + t)).length = wrest.length + 1 := by
    rw [List.length_map, List.length_range]
  rw [hPlen]
  rw [show wrest.length + 1 - (wrest.length + 1 - 1) = 1 from by omega]
  rw [range_map_add_drop_one j wrest.length]
  rw [markRows_eq]
  rw [show (pdMerge (addIndexCol (getVertexDf
        ⟨d, names.length, E, [("name", names)], ea⟩))
      ⟨["name", "w"], (w1 :: wrest).map (fun w =>
        [("name", names.getD j none), ("w", some w)])⟩
      ["name"] ".x" ".y" true .outer).cols =
    ["name", "_index", "w", "_merge"] from rfl]
  rw [c4_rows_split d E ea names hnd hj w1 wrest]
  rw [List.map_cons]
  have hps : ∀ i, (((List.range wrest.length).map
      (fun t => j + 1 + t)).contains i) = true ↔
      (((List.range j).map (fun i2 =>
        ([("name", names.getD i2 none), ("_index", some (Val.nat i2)),
          ("w", (none : Cell)),
          ("_merge", some (Val.str "left_only"))] : Row))).length + 1 ≤ i ∧
        i < ((List.range j).map (fun i2 =>
          ([("name", names.getD i2 none), ("_index", some (Val.nat i2)),
            ("w", (none : Cell)),
            ("_merge", some (Val.str "left_only"))] : Row))).length + 1 +
          (wrest.map (fun w =>
            ([("name", names.getD j none), ("_index", some (Val.nat j)),
              ("w", some w),
              ("_merge", some (Val.str "both"))] : Row))).length) := by
    intro i
    rw [hAlen, List.length_map]
    constructor
    · intro hc
      have hm : i ∈ (List.range wrest.length).map (fun t => j + 1 + t) :=
        List.mem_of_elem_eq_true hc
      obtain ⟨t, ht, rfl⟩ := List.mem_map.mp hm
      have := List.mem_range.mp ht
      omega
    · intro hb
      apply List.elem_eq_true_of_mem
      apply List.mem_map.mpr
      exact ⟨i - (j + 1), List.mem_range.mpr (by omega), by omega⟩
  have hmark := mark_middle
    ((List.range j).map (fun i =>
      ([("name", names.getD i none), ("_index", some (Val.nat i)),
        ("w", (none : Cell)),
        ("_merge", some (Val.str "left_only"))] : Row)))
    ((List.range (names.length - j - 1)).map (fun t =>
      ([("name", names.getD (j + 1 + t) none),
        ("_index", some (Val.nat (j + 1 + t))),
        ("w", (none : Cell)),
        ("_merge", some (Val.str "left_only"))] : Row)))
    ([("name", names.getD j none), ("_index", some (Val.nat j)),
      ("w", some w1), ("_merge", some (Val.str "both"))])
    (wrest.map (fun w =>
      ([("name", names.getD j none), ("_index", some (Val.nat j)),
        ("w", some w), ("_merge", some (Val.str "both"))] : Row)))
    hps
  rw [hmark]
  rw [List.map_map]
  rfl

end Tidy


namespace Tidy

theorem c4_finish (names : List Cell) {j : Nat} (hj : j < names.length)
    (hsome : ∀ c ∈ names, c.isSome = true) (w1 : Val) (wrest : List Val) :
    finishTable ⟨["name", "_index", "w", "_merge"],
      (List.range j).map (fun i =>
        ([("name", names.getD i none), ("_index", some (Val.nat i)),
          ("w", (none : Cell)),
          ("_merge", some (Val.str "left_only"))] : Row)) ++
      (([("name", names.getD j none), ("_index", some (Val.nat j)),
          ("w", some w1), ("_merge", some (Val.str "both"))] : Row) ::
        wrest.map (fun w =>
        ([("name", names.getD j none), ("_index", some (Val.nat j)),
          ("w", some w),
          ("_merge", some (Val.str "right_only"))] : Row))) ++
      (List.range (names.length - j - 1)).map (fun t =>
        ([("name", names.getD (j + 1 + t) none),
          ("_index", some (Val.nat (j + 1 + t))),
          ("w", (none : Cell)),
          ("_merge", some (Val.str "left_only"))] : Row))⟩ =
    (⟨["name", "w"],
      ((List.range j).map (fun i =>
        [("name", names.getD i none), ("w", (none : Cell))]) ++
      [[("name", names.getD j none), ("w", some w1)]] ++
      (List.range (names.length - j - 1)).map (fun t =>
        [("name", names.getD (j + 1 + t) none), ("w", (none : Cell))])) ++
      wrest.map (fun w => [("name", names.getD j none), ("w", some w)])⟩,
     wrest.map (fun w =>
        ([("name", names.getD j none), ("_index", some (Val.nat j)),
          ("w", some w),
          ("_merge", some (Val.str "right_only"))] : Row))) := by
  have hjs : (names.getD j none).isSome = true := by
    rw [List.getD_eq_getElem names none hj]
    exact hsome _ (List.getElem_mem hj)
  have hB1mem : ([("name", names.getD j none), ("_index", some (Val.nat j)),
          ("w", some w1), ("_merge", some (Val.str "both"))] : Row) ∈
      (List.range j).map (fun i =>
        ([("name", names.getD i none), ("_index", some (Val.nat i)),
          ("w", (none : Cell)),
          ("_merge", some (Val.str "left_only"))] : Row)) ++
      (([("name", names.getD j none), ("_index", some (Val.nat j)),
          ("w", some w1), ("_merge", some (Val.str "both"))] : Row) ::
        wrest.map (fun w =>
        ([("name", names.getD j none), ("_index", some (Val.nat j)),
          ("w", some w),
          ("_merge", some (Val.str "right_only"))] : Row))) ++
      (List.range (names.length - j - 1)).map (fun t =>
        ([("name", names.getD (j + 1 + t) none),
          ("_index", some (Val.nat (j + 1 + t))),
          ("w", (none : Cell)),
          ("_merge", some (Val.str "left_only"))] : Row)) :=
    List.mem_append.mpr (Or.inl (List.mem_append.mpr
      (Or.inr (List.mem_cons_self _ _))))
  have pn : ((List.range j).map (fun i =>
        ([("name", names.getD i none), ("_index", some (Val.nat i)),
          ("w", (none : Cell)),
          ("_merge", some (Val.str "left_only"))] : Row)) ++
      (([("name", names.getD j none), ("_index", some (Val.nat j)),
          ("w", some w1), ("_merge", some (Val.str "both"))] : Row) ::
        wrest.map (fun w =>
        ([("name", names.getD j none), ("_index", some (Val.nat j)),
          ("w", some w),
          ("_merge", some (Val.str "right_only"))] : Row))) ++
      (List.range (names.length - j - 1)).map (fun t =>
        ([("name", names.getD (j + 1 + t) none),
          ("_index", some (Val.nat (j + 1 + t))),
          ("w", (none : Cell)),
          ("_merge", some (Val.str "left_only"))] : Row))).any
      (fun r => (rget r "name").isSome) = true :=
    List.any_eq_true.mpr ⟨_, hB1mem, hjs⟩
  have pi : ((List.range j).map (fun i =>
        ([("name", names.getD i none), ("_index", some (Val.nat i)),
          ("w", (none : Cell)),
          ("_merge", some (Val.str "left_only"))] : Row)) ++
      (([("name", names.getD j none), ("_index", some (Val.nat j)),
          ("w", some w1), ("_merge", some (Val.str "both"))] : Row) ::
        wrest.map (fun w =>
        ([("name", names.getD j none), ("_index", some (Val.nat j)),
          ("w", some w),
          ("_merge", some (Val.str "right_only"))] : Row))) ++
      (List.range (names.length - j - 1)).map (fun t =>
        ([("name", names.getD (j + 1 + t) none),
          ("_index", some (Val.nat (j + 1 + t))),
          ("w", (none : Cell)),
          ("_merge", some (Val.str "left_only"))] : Row))).any
      (fun r => (rget r "_index").isSome) = true :=
    List.any_eq_true.mpr ⟨_, hB1mem, rfl⟩
  have pw : ((List.range j).map (fun i =>
        ([("name", names.getD i none), ("_index", some (Val.nat i)),
          ("w", (none : Cell)),
          ("_merge", some (Val.str "left_only"))] : Row)) ++
      (([("name", names.getD j none), ("_index", some (Val.nat j)),
          ("w", some w1), ("_merge", some (Val.str "both"))] : Row) ::
        wrest.map (fun w =>
        ([("name", names.getD j none), ("_index", some (Val.nat j)),
          ("w", some w),
          ("_merge", some (Val.str "right_only"))] : Row))) ++
      (List.range (names.length - j - 1)).map (fun t =>
        ([("name", names.getD (j + 1 + t) none),
          ("_index", some (Val.nat (j + 1 + t))),
          ("w", (none : Cell)),
          ("_merge", some (Val.str "left_only"))] : Row))).any
      (fun r => (rget r "w").isSome) = true :=
    List.any_eq_true.mpr ⟨_, hB1mem, rfl⟩
  have pm : ((List.range j).map (fun i =>
        ([("name", names.getD i none), ("_index", some (Val.nat i)),
          ("w", (none : Cell)),
          ("_merge", some (Val.str "left_only"))] : Row)) ++
      (([("name", names.getD j none), ("_index", some (Val.nat j)),
          ("w", some w1), ("_merge", some (Val.str "both"))] : Row) ::
        wrest.map (fun w =>
        ([("name", names.getD j none), ("_index", some (Val.nat j)),
          ("w", some w),
          ("_merge", some (Val.str "right_only"))] : Row))) ++
      (List.range (names.length - j - 1)).map (fun t =>
        ([("name", names.getD (j + 1 + t) none),
          ("_index", some (Val.nat (j + 1 + t))),
          ("w", (none : Cell)),
          ("_merge", some (Val.str "left_only"))] : Row))).any
      (fun r => (rget r "_merge").isSome) = true :=
    List.any_eq_true.mpr ⟨_, hB1mem, rfl⟩
  have hdropAM : Table.dropAllMissing ⟨["name", "_index", "w", "_merge"],
      (List.range j).map (fun i =>
        ([("name", names.getD i none), ("_index", some (Val.nat i)),
          ("w", (none : Cell)),
          ("_merge", some (Val.str "left_only"))] : Row)) ++
      (([("name", names.getD j none), ("_index", some (Val.nat j)),
          ("w", some w1), ("_merge", some (Val.str "both"))] : Row) ::
        wrest.map (fun w =>
        ([("name", names.getD j none), ("_index", some (Val.nat j)),
          ("w", some w),
          ("_merge", some (Val.str "right_only"))] : Row))) ++
      (List.range (names.length - j - 1)).map (fun t =>
        ([("name", names.getD (j + 1 + t) none),
          ("_index", some (Val.nat (j + 1 + t))),
          ("w", (none : Cell)),
          ("_merge", some (Val.str "left_only"))] : Row))⟩ =
      ⟨["name", "_index", "w", "_merge"],
      (List.range j).map (fun i =>
        ([("name", names.getD i none), ("_index", some (Val.nat i)),
          ("w", (none : Cell)),
          ("_merge", some (Val.str "left_only"))] : Row)) ++
      (([("name", names.getD j none), ("_index", some (Val.nat j)),
          ("w", some w1), ("_merge", some (Val.str "both"))] : Row) ::
        wrest.map (fun w =>
        ([("name", names.getD j none), ("_index", some (Val.nat j)),
          ("w", some w),
          ("_merge", some (Val.str "right_only"))] : Row))) ++
      (List.range (names.length - j - 1)).map (fun t =>
        ([("name", names.getD (j + 1 + t) none),
          ("_index", some (Val.nat (j + 1 + t))),
          ("w", (none : Cell)),
          ("_merge", some (Val.str "left_only"))] : Row))⟩ := by
    apply keepCols_id
    · intro c hcm
      rcases List.mem_cons.mp hcm with rfl | hcm
      · exact pn
      rcases List.mem_cons.mp hcm with rfl | hcm
      · exact pi
      rcases List.mem_cons.mp hcm with rfl | hcm
      · exact pw
      rcases List.mem_cons.mp hcm with rfl | hcm
      · exact pm
      · cases hcm
    · have hent : ∀ (c1 c2 c3 c4 : Cell),
          ∀ e ∈ ([("name", c1), ("_index", c2), ("w", c3),
            ("_merge", c4)] : Row),
          ((List.range j).map (fun i =>
        ([("name", names.getD i none), ("_index", some (Val.nat i)),
          ("w", (none : Cell)),
          ("_merge", some (Val.str "left_only"))] : Row)) ++
      (([("name", names.getD j none), ("_index", some (Val.nat j)),
          ("w", some w1), ("_merge", some (Val.str "both"))] : Row) ::
        wrest.map (fun w =>
        ([("name", names.getD j none), ("_index", some (Val.nat j)),
          ("w", some w),
          ("_merge", some (Val.str "right_only"))] : Row))) ++
      (List.range (names.length - j - 1)).map (fun t =>
        ([("name", names.getD (j + 1 + t) none),
          ("_index", some (Val.nat (j + 1 + t))),
          ("w", (none : Cell)),
          ("_merge", some (Val.str "left_only"))] : Row))).any
          (fun r => (rget r e.1).isSome) = true := by
        intro c1 c2 c3 c4 e he
        rcases List.mem_cons.mp he with rfl | he
        · exact pn
        rcases List.mem_cons.mp he with rfl | he
        · exact pi
        rcases List.mem_cons.mp he with rfl | he
        · exact pw
        rcases List.mem_cons.mp he with rfl | he
        · exact pm
        · cases he
      intro r hrm e he
      rcases List.mem_append.mp hrm with hrm | hrm
      · rcases List.mem_append.mp hrm with hrm | hrm
        · obtain ⟨i, hi, rfl⟩ := List.mem_map.mp hrm
          exact hent _ _ _ _ e he
        rcases List.mem_cons.mp hrm with rfl | hrm
        · exact hent _ _ _ _ e he
        · obtain ⟨w, hw2, rfl⟩ := List.mem_map.mp hrm
          exact hent _ _ _ _ e he
      · obtain ⟨t, ht, rfl⟩ := List.mem_map.mp hrm
        exact hent _ _ _ _ e he
  have h1new : ((List.range j).map (fun i =>
        ([("name", names.getD i none), ("_index", some (Val.nat i)),
          ("w", (none : Cell)),
          ("_merge", some (Val.str "left_only"))] : Row))).filter
      (fun r => mergeIs r "right_only") = [] := by
    rw [List.filter_eq_nil_iff]
    intro a ha
    obtain ⟨i, hi, rfl⟩ := List.mem_map.mp ha
    intro hcontra
    exact Bool.false_ne_true hcontra
  have h3new : ((List.range (names.length - j - 1)).map (fun t =>
        ([("name", names.getD (j + 1 + t) none),
          ("_index", some (Val.nat (j + 1 + t))),
          ("w", (none : Cell)),
          ("_merge", some (Val.str "left_only"))] : Row))).filter
      (fun r => mergeIs r "right_only") = [] := by
    rw [List.filter_eq_nil_iff]
    intro a ha
    obtain ⟨t, ht, rfl⟩ := List.mem_map.mp ha
    intro hcontra
    exact Bool.false_ne_true hcontra
  have hmidnew : ((([("name", names.getD j none), ("_index", some (Val.nat j)),
          ("w", some w1), ("_merge", some (Val.str "both"))] : Row) ::
      wrest.map (fun w =>
        ([("name", names.getD j none), ("_index", some (Val.nat j)),
          ("w", some w),
          ("_merge", some (Val.str "right_only"))] : Row))) : List Row).filter
      (fun r => mergeIs r "right_only") =
      wrest.map (fun w =>
        ([("name", names.getD j none), ("_index", some (Val.nat j)),
          ("w", some w),
          ("_merge", some (Val.str "right_only"))] : Row)) := by
    rw [List.filter_cons]
    rw [show mergeIs ([("name", names.getD j none), ("_index", some (Val.nat j)),
          ("w", some w1), ("_merge", some (Val.str "both"))] : Row) "right_only" = false from rfl]
    rw [if_neg Bool.false_ne_true]
    apply List.filter_eq_self.mpr
    intro a ha
    obtain ⟨w, hw2, rfl⟩ := List.mem_map.mp ha
    rfl
  have h1kept : ((List.range j).map (fun i =>
        ([("name", names.getD i none), ("_index", some (Val.nat i)),
          ("w", (none : Cell)),
          ("_merge", some (Val.str "left_only"))] : Row))).filter
      (fun r => !mergeIs r "right_only") =
      (List.range j).map (fun i =>
        ([("name", names.getD i none), ("_index", some (Val.nat i)),
          ("w", (none : Cell)),
          ("_merge", some (Val.str "left_only"))] : Row)) := by
    apply List.filter_eq_self.mpr
    intro a ha
    obtain ⟨i, hi, rfl⟩ := List.mem_map.mp ha
    rfl
  have h3kept : ((List.range (names.length - j - 1)).map (fun t =>
        ([("name", names.getD (j + 1 + t) none),
          ("_index", some (Val.nat (j + 1 + t))),
          ("w", (none : Cell)),
          ("_merge", some (Val.str "left_only"))] : Row))).filter
      (fun r => !mergeIs r "right_only") =
      (List.range (names.length - j - 1)).map (fun t =>
        ([("name", names.getD (j + 1 + t) none),
          ("_index", some (Val.nat (j + 1 + t))),
          ("w", (none : Cell)),
          ("_merge", some (Val.str "left_only"))] : Row)) := by
    apply List.filter_eq_self.mpr
    intro a ha
    obtain ⟨t, ht, rfl⟩ := List.mem_map.mp ha
    rfl
  have hmidkept : ((([("name", names.getD j none), ("_index", some (Val.nat j)),
          ("w", some w1), ("_merge", some (Val.str "both"))] : Row) ::
      wrest.map (fun w =>
        ([("name", names.getD j none), ("_index", some (Val.nat j)),
          ("w", some w),
          ("_merge", some (Val.str "right_only"))] : Row))) : List Row).filter
      (fun r => !mergeIs r "right_only") =
      [([("name", names.getD j none), ("_index", some (Val.nat j)),
          ("w", some w1), ("_merge", some (Val.str "both"))] : Row)] := by
    rw [List.filter_cons]
    rw [show (!mergeIs ([("name", names.getD j none), ("_index", some (Val.nat j)),
          ("w", some w1), ("_merge", some (Val.str "both"))] : Row) "right_only") = true from rfl]
    rw [if_pos rfl]
    have htail : (wrest.map (fun w =>
        ([("name", names.getD j none), ("_index", some (Val.nat j)),
          ("w", some w),
          ("_merge", some (Val.str "right_only"))] : Row))).filter
        (fun r => !mergeIs r "right_only") = [] := by
      rw [List.filter_eq_nil_iff]
      intro a ha
      obtain ⟨w, hw2, rfl⟩ := List.mem_map.mp ha
      intro hcontra
      exact Bool.false_ne_true hcontra
    rw [htail]
  rw [finishTable_eq, hdropAM]
  show (dropUnderscoreCols ⟨["name", "_index", "w", "_merge"],
      (((List.range j).map (fun i =>
        ([("name", names.getD i none), ("_index", some (Val.nat i)),
          ("w", (none : Cell)),
          ("_merge", some (Val.str "left_only"))] : Row)) ++
      (([("name", names.getD j none), ("_index", some (Val.nat j)),
          ("w", some w1), ("_merge", some (Val.str "both"))] : Row) ::
        wrest.map (fun w =>
        ([("name", names.getD j none), ("_index", some (Val.nat j)),
          ("w", some w),
          ("_merge", some (Val.str "right_only"))] : Row))) ++
      (List.range (names.length - j - 1)).map (fun t =>
        ([("name", names.getD (j + 1 + t) none),
          ("_index", some (Val.nat (j + 1 + t))),
          ("w", (none : Cell)),
          ("_merge", some (Val.str "left_only"))] : Row))).filter
        (fun r => !mergeIs r "right_only")) ++
      (((List.range j).map (fun i =>
        ([("name", names.getD i none), ("_index", some (Val.nat i)),
          ("w", (none : Cell)),
          ("_merge", some (Val.str "left_only"))] : Row)) ++
      (([("name", names.getD j none), ("_index", some (Val.nat j)),
          ("w", some w1), ("_merge", some (Val.str "both"))] : Row) ::
        wrest.map (fun w =>
        ([("name", names.getD j none), ("_index", some (Val.nat j)),
          ("w", some w),
          ("_merge", some (Val.str "right_only"))] : Row))) ++
      (List.range (names.length - j - 1)).map (fun t =>
        ([("name", names.getD (j + 1 + t) none),
          ("_index", some (Val.nat (j + 1 + t))),
          ("w", (none : Cell)),
          ("_merge", some (Val.str "left_only"))] : Row))).filter
        (fun r => mergeIs r "right_only"))⟩,
    ((List.range j).map (fun i =>
        ([("name", names.getD i none), ("_index", some (Val.nat i)),
          ("w", (none : Cell)),
          ("_merge", some (Val.str "left_only"))] : Row)) ++
      (([("name", names.getD j none), ("_index", some (Val.nat j)),
          ("w", some w1), ("_merge", some (Val.str "both"))] : Row) ::
        wrest.map (fun w =>
        ([("name", names.getD j none), ("_index", some (Val.nat j)),
          ("w", some w),
          ("_merge", some (Val.str "right_only"))] : Row))) ++
      (List.range (names.length - j - 1)).map (fun t =>
        ([("name", names.getD (j + 1 + t) none),
          ("_index", some (Val.nat (j + 1 + t))),
          ("w", (none : Cell)),
          ("_merge", some (Val.str "left_only"))] : Row))).filter
      (fun r => mergeIs r "right_only")) =
    ((⟨["name", "w"],
      ((List.range j).map (fun i =>
        [("name", names.getD i none), ("w", (none : Cell))]) ++
      [[("name", names.getD j none), ("w", some w1)]] ++
      (List.range (names.length - j - 1)).map (fun t =>
        [("name", names.getD (j + 1 + t) none), ("w", (none : Cell))])) ++
      wrest.map (fun w => [("name", names.getD j none), ("w", some w)])⟩ : Table),
     wrest.map (fun w =>
        ([("name", names.getD j none), ("_index", some (Val.nat j)),
          ("w", some w),
          ("_merge", some (Val.str "right_only"))] : Row)))
  rw [List.filter_append, List.filter_append, List.filter_append,
    List.filter_append]
  rw [h1new, h3new, hmidnew, h1kept, h3kept, hmidkept]
  rw [List.nil_append, List.append_nil]
  show ((⟨(["name", "_index", "w", "_merge"] : List String).filter
      (fun c => !strStartsWith c "_"),
    ((((List.range j).map (fun i =>
        ([("name", names.getD i none), ("_index", some (Val.nat i)),
          ("w", (none : Cell)),
          ("_merge", some (Val.str "left_only"))] : Row)) ++
      [([("name", names.getD j none), ("_index", some (Val.nat j)),
          ("w", some w1), ("_merge", some (Val.str "both"))] : Row)]) ++
      (List.range (names.length - j - 1)).map (fun t =>
        ([("name", names.getD (j + 1 + t) none),
          ("_index", some (Val.nat (j + 1 + t))),
          ("w", (none : Cell)),
          ("_merge", some (Val.str "left_only"))] : Row))) ++
      wrest.map (fun w =>
        ([("name", names.getD j none), ("_index", some (Val.nat j)),
          ("w", some w),
          ("_merge", some (Val.str "right_only"))] : Row))).map
      (fun r => rkeep r (fun c => !strStartsWith c "_"))⟩ : Table),
    wrest.map (fun w =>
        ([("name", names.getD j none), ("_index", some (Val.nat j)),
          ("w", some w),
          ("_merge", some (Val.str "right_only"))] : Row))) =
    ((⟨["name", "w"],
      ((List.range j).map (fun i =>
        [("name", names.getD i none), ("w", (none : Cell))]) ++
      [[("name", names.getD j none), ("w", some w1)]] ++
      (List.range (names.length - j - 1)).map (fun t =>
        [("name", names.getD (j + 1 + t) none), ("w", (none : Cell))])) ++
      wrest.map (fun w => [("name", names.getD j none), ("w", some w)])⟩ : Table),
     wrest.map (fun w =>
        ([("name", names.getD j none), ("_index", some (Val.nat j)),
          ("w", some w),
          ("_merge", some (Val.str "right_only"))] : Row)))
  rw [show (["name", "_index", "w", "_merge"] : List String).filter
      (fun c => !strStartsWith c "_") = ["name", "w"] from rfl]
  rw [List.map_append, List.map_append, List.map_append]
  rw [List.map_map, List.map_map, List.map_map]
  rfl

end Tidy

namespace Tidy

theorem c4_apply (d : Bool) (E : List (Nat × Nat)) (ea : AttrStore)
    (names : List Cell) {j : Nat} (hj : j < names.length)
    (w1 : Val) (wrest : List Val) :
    applyAttributes ActiveType.NODES
      (addVertices ⟨d, names.length, E, [("name", names)], ea⟩ wrest.length)
      ⟨["name", "w"],
        ((List.range j).map (fun i =>
          [("name", names.getD i none), ("w", (none : Cell))]) ++
        [[("name", names.getD j none), ("w", some w1)]] ++
        (List.range (names.length - j - 1)).map (fun t =>
          [("name", names.getD (j + 1 + t) none), ("w", (none : Cell))])) ++
        wrest.map (fun w => [("name", names.getD j none), ("w", some w)])⟩ =
    Except.ok ⟨d, names.length + wrest.length, E,
      [("name", names ++ wrest.map (fun w => names.getD j none)),
       ("w", (List.range names.length).map (fun i =>
          if i = j then some w1 else (none : Cell)) ++
        wrest.map (fun w => some w))], ea⟩ := by
  have hassemble : ((List.range j).map (fun i => names.getD i none) ++
      [names.getD j none]) ++
      (List.range (names.length - j - 1)).map (fun t =>
        names.getD (j + 1 + t) none) = names := by
    have h0 : (List.range names.length).map (fun i => names.getD i none) =
        names := map_getD_range rfl
    rw [range_decomp hj] at h0
    rw [List.map_append, List.map_append, List.map_map] at h0
    exact h0
  have hcolname : ((⟨["name", "w"],
        ((List.range j).map (fun i =>
          [("name", names.getD i none), ("w", (none : Cell))]) ++
        [[("name", names.getD j none), ("w", some w1)]] ++
        (List.range (names.length - j - 1)).map (fun t =>
          [("name", names.getD (j + 1 + t) none), ("w", (none : Cell))])) ++
        wrest.map (fun w => [("name", names.getD j none), ("w", some w)])⟩ : Table)).col "name" =
      names ++ wrest.map (fun w => names.getD j none) := by
    show (((List.range j).map (fun i =>
          [("name", names.getD i none), ("w", (none : Cell))]) ++
        [[("name", names.getD j none), ("w", some w1)]] ++
        (List.range (names.length - j - 1)).map (fun t =>
          [("name", names.getD (j + 1 + t) none), ("w", (none : Cell))])) ++
        wrest.map (fun w => [("name", names.getD j none), ("w", some w)])).map
      (fun r => rget r "name") =
      names ++ wrest.map (fun w => names.getD j none)
    rw [List.map_append, List.map_append, List.map_append,
      List.map_map, List.map_map, List.map_map]
    exact congrArg (fun l => l ++ wrest.map
      (fun w => names.getD j none)) hassemble
  have h0w : (List.range names.length).map (fun i =>
      if i = j then some w1 else (none : Cell)) =
      ((List.range j).map (fun i => (none : Cell)) ++ [some w1]) ++
      (List.range (names.length - j - 1)).map (fun t => (none : Cell)) := by
    rw [range_decomp hj]
    rw [List.map_append, List.map_append, List.map_map]
    congr 1
    congr 1
    · apply List.map_congr_left
      intro i hi
      have hlt := List.mem_range.mp hi
      rw [if_neg (by omega)]
    · show [if j = j then some w1 else (none : Cell)] = [some w1]
      rw [if_pos rfl]
    · apply List.map_congr_left
      intro t ht
      show (if j + 1 + t = j then some w1 else (none : Cell)) = none
      rw [if_neg (by omega)]
  have hcolw : ((⟨["name", "w"],
        ((List.range j).map (fun i =>
          [("name", names.getD i none), ("w", (none : Cell))]) ++
        [[("name", names.getD j none), ("w", some w1)]] ++
        (List.range (names.length - j - 1)).map (fun t =>
          [("name", names.getD (j + 1 + t) none), ("w", (none : Cell))])) ++
        wrest.map (fun w => [("name", names.getD j none), ("w", some w)])⟩ : Table)).col "w" =
      (List.range names.length).map (fun i =>
          if i = j then some w1 else (none : Cell)) ++
        wrest.map (fun w => some w) := by
    show (((List.range j).map (fun i =>
          [("name", names.getD i none), ("w", (none : Cell))]) ++
        [[("name", names.getD j none), ("w", some w1)]] ++
        (List.range (names.length - j - 1)).map (fun t =>
          [("name", names.getD (j + 1 + t) none), ("w", (none : Cell))])) ++
        wrest.map (fun w => [("name", names.getD j none), ("w", some w)])).map
      (fun r => rget r "w") =
      (List.range names.length).map (fun i =>
          if i = j then some w1 else (none : Cell)) ++
        wrest.map (fun w => some w)
    rw [List.map_append, List.map_append, List.map_append,
      List.map_map, List.map_map, List.map_map, h0w]
    rfl
  have hlen1 : (names ++ wrest.map (fun w => names.getD j none)).length = names.length + wrest.length := by
    rw [List.length_append, List.length_map]
  have hlenw : ((List.range names.length).map (fun i =>
          if i = j then some w1 else (none : Cell)) ++
        wrest.map (fun w => some w)).length = names.length + wrest.length := by
    rw [List.length_append, List.length_map, List.length_range,
      List.length_map]
  have hndd : ((([] : AttrStore) ++
      [("name", names ++ wrest.map (fun w => names.getD j none)),
       ("w", (List.range names.length).map (fun i =>
          if i = j then some w1 else (none : Cell)) ++
        wrest.map (fun w => some w))]).map
      Prod.fst).Nodup := by
    show (["name", "w"] : List String).Nodup
    decide
  have hsuf : ∀ e ∈ ([("name", names ++ wrest.map (fun w => names.getD j none)),
      ("w", (List.range names.length).map (fun i =>
          if i = j then some w1 else (none : Cell)) ++
        wrest.map (fun w => some w))] : AttrStore),
      (reservedFor ActiveType.NODES).contains e.1 = false ∧
      ((⟨["name", "w"],
        ((List.range j).map (fun i =>
          [("name", names.getD i none), ("w", (none : Cell))]) ++
        [[("name", names.getD j none), ("w", some w1)]] ++
        (List.range (names.length - j - 1)).map (fun t =>
          [("name", names.getD (j + 1 + t) none), ("w", (none : Cell))])) ++
        wrest.map (fun w => [("name", names.getD j none), ("w", some w)])⟩ : Table)).col e.1 = e.2 ∧
      e.2.length = names.length + wrest.length := by
    intro e he
    rcases List.mem_cons.mp he with rfl | he
    · exact ⟨rfl, hcolname, hlen1⟩
    rcases List.mem_cons.mp he with rfl | he
    · exact ⟨rfl, hcolw, hlenw⟩
    · cases he
  have hfold := foldAssemble (⟨["name", "w"],
        ((List.range j).map (fun i =>
          [("name", names.getD i none), ("w", (none : Cell))]) ++
        [[("name", names.getD j none), ("w", some w1)]] ++
        (List.range (names.length - j - 1)).map (fun t =>
          [("name", names.getD (j + 1 + t) none), ("w", (none : Cell))])) ++
        wrest.map (fun w => [("name", names.getD j none), ("w", some w)])⟩ : Table)
    (names.length + wrest.length) (reservedFor ActiveType.NODES)
    [("name", names ++ wrest.map (fun w => names.getD j none)),
     ("w", (List.range names.length).map (fun i =>
          if i = j then some w1 else (none : Cell)) ++
        wrest.map (fun w => some w))]
    [] hndd hsuf
  have hfold2 : (["name", "w"] : List String).foldlM (fun (s : AttrStore) c =>
      if (reservedFor ActiveType.NODES).contains c then pure s
      else
        if (((⟨["name", "w"],
        ((List.range j).map (fun i =>
          [("name", names.getD i none), ("w", (none : Cell))]) ++
        [[("name", names.getD j none), ("w", some w1)]] ++
        (List.range (names.length - j - 1)).map (fun t =>
          [("name", names.getD (j + 1 + t) none), ("w", (none : Cell))])) ++
        wrest.map (fun w => [("name", names.getD j none), ("w", some w)])⟩ : Table)).col c).length ==
            names.length + wrest.length then
          pure (setAttr s c (((⟨["name", "w"],
        ((List.range j).map (fun i =>
          [("name", names.getD i none), ("w", (none : Cell))]) ++
        [[("name", names.getD j none), ("w", some w1)]] ++
        (List.range (names.length - j - 1)).map (fun t =>
          [("name", names.getD (j + 1 + t) none), ("w", (none : Cell))])) ++
        wrest.map (fun w => [("name", names.getD j none), ("w", some w)])⟩ : Table)).col c))
        else Except.error "attribute assignment length mismatch")
      ([] : AttrStore) =
      Except.ok [("name", names ++ wrest.map (fun w => names.getD j none)),
        ("w", (List.range names.length).map (fun i =>
          if i = j then some w1 else (none : Cell)) ++
        wrest.map (fun w => some w))] := hfold
  show ((["name", "w"] : List String).foldlM (fun (s : AttrStore) c =>
      if (reservedFor ActiveType.NODES).contains c then pure s
      else
        if (((⟨["name", "w"],
        ((List.range j).map (fun i =>
          [("name", names.getD i none), ("w", (none : Cell))]) ++
        [[("name", names.getD j none), ("w", some w1)]] ++
        (List.range (names.length - j - 1)).map (fun t =>
          [("name", names.getD (j + 1 + t) none), ("w", (none : Cell))])) ++
        wrest.map (fun w => [("name", names.getD j none), ("w", some w)])⟩ : Table)).col c).length ==
            names.length + wrest.length then
          pure (setAttr s c (((⟨["name", "w"],
        ((List.range j).map (fun i =>
          [("name", names.getD i none), ("w", (none : Cell))]) ++
        [[("name", names.getD j none), ("w", some w1)]] ++
        (List.range (names.length - j - 1)).map (fun t =>
          [("name", names.getD (j + 1 + t) none), ("w", (none : Cell))])) ++
        wrest.map (fun w => [("name", names.getD j none), ("w", some w)])⟩ : Table)).col c))
        else Except.error "attribute assignment length mismatch")
      ([] : AttrStore)) >>= (fun s =>
      pure (putStore
        (addVertices ⟨d, names.length, E, [("name", names)], ea⟩
          wrest.length)
        ActiveType.NODES s)) =
    Except.ok ⟨d, names.length + wrest.length, E,
      [("name", names ++ wrest.map (fun w => names.getD j none)),
       ("w", (List.range names.length).map (fun i =>
          if i = j then some w1 else (none : Cell)) ++
        wrest.map (fun w => some w))], ea⟩
  rw [hfold2]
  rfl

end Tidy

namespace Tidy

/-- C4: for a node outer join in which one existing vertex key is matched
by k > 1 rows of the caller table (the k rows carrying the attribute values
w1, w2, ..., wk), the first matching row is the continuation of the
existing vertex — the vertex keeps its identity and row position j, and
receives w1 — while each of the remaining k - 1 matching rows becomes a
new, distinct vertex appended after all existing ones in the caller's row
order, carrying that row's attribute value; every other vertex keeps its
name with a missing value in the new column, so the result has exactly
k - 1 more vertices than before.  The witness instantiates the spec's
literal scenario: vertices a, b, c and a two-row caller table keyed on a
give exactly 4 vertices. -/
theorem c4_node_outer_explosion (d : Bool) (E : List (Nat × Nat))
    (ea : AttrStore) (names : List Cell) (hnd : names.Nodup) {j : Nat}
    (hj : j < names.length) (hsome : ∀ c ∈ names, c.isSome = true)
    (w1 : Val) (wrest : List Val) (hw : wrest ≠ []) :
    tidyJoin ActiveType.NODES ⟨d, names.length, E, [("name", names)], ea⟩
      ⟨["name", "w"], (w1 :: wrest).map (fun w =>
        [("name", names.getD j none), ("w", some w)])⟩
      none ".x" ".y" "outer" =
    Except.ok ⟨d, names.length + wrest.length, E,
      [("name", names ++ wrest.map (fun w => names.getD j none)),
       ("w", (List.range names.length).map (fun i =>
          if i = j then some w1 else (none : Cell)) ++
        wrest.map (fun w => some w))], ea⟩ := by
  have hmerged : outerMerged ActiveType.NODES
      ⟨d, names.length, E, [("name", names)], ea⟩
      ⟨["name", "w"], (w1 :: wrest).map (fun w =>
        [("name", names.getD j none), ("w", some w)])⟩
      none ".x" ".y" =
      Except.ok (explosionStepNode
        (addIndexCol (getVertexDf ⟨d, names.length, E, [("name", names)], ea⟩))
        (pdMerge (addIndexCol (getVertexDf
            ⟨d, names.length, E, [("name", names)], ea⟩))
          ⟨["name", "w"], (w1 :: wrest).map (fun w =>
        [("name", names.getD j none), ("w", some w)])⟩
          ["name"] ".x" ".y" true .outer) j) := by
    show Except.ok ((explosionIdx (pdMerge (addIndexCol (getVertexDf
            ⟨d, names.length, E, [("name", names)], ea⟩))
          ⟨["name", "w"], (w1 :: wrest).map (fun w =>
        [("name", names.getD j none), ("w", some w)])⟩
          ["name"] ".x" ".y" true .outer)).foldl
        (explosionStepNode (addIndexCol (getVertexDf ⟨d, names.length, E, [("name", names)], ea⟩)))
        (pdMerge (addIndexCol (getVertexDf
            ⟨d, names.length, E, [("name", names)], ea⟩))
          ⟨["name", "w"], (w1 :: wrest).map (fun w =>
        [("name", names.getD j none), ("w", some w)])⟩
          ["name"] ".x" ".y" true .outer)) =
      Except.ok (explosionStepNode
        (addIndexCol (getVertexDf ⟨d, names.length, E, [("name", names)], ea⟩))
        (pdMerge (addIndexCol (getVertexDf
            ⟨d, names.length, E, [("name", names)], ea⟩))
          ⟨["name", "w"], (w1 :: wrest).map (fun w =>
        [("name", names.getD j none), ("w", some w)])⟩
          ["name"] ".x" ".y" true .outer) j)
    rw [c4_explosionIdx d E ea names hnd hj w1 wrest hw]
    rfl
  show (outerMerged ActiveType.NODES
      ⟨d, names.length, E, [("name", names)], ea⟩
      ⟨["name", "w"], (w1 :: wrest).map (fun w =>
        [("name", names.getD j none), ("w", some w)])⟩
      none ".x" ".y") >>= (fun xm =>
      outerNodeTail ⟨d, names.length, E, [("name", names)], ea⟩
        (finishTable xm)) =
    Except.ok ⟨d, names.length + wrest.length, E,
      [("name", names ++ wrest.map (fun w => names.getD j none)),
       ("w", (List.range names.length).map (fun i =>
          if i = j then some w1 else (none : Cell)) ++
        wrest.map (fun w => some w))], ea⟩
  rw [hmerged]
  show outerNodeTail ⟨d, names.length, E, [("name", names)], ea⟩
      (finishTable (explosionStepNode
        (addIndexCol (getVertexDf ⟨d, names.length, E, [("name", names)], ea⟩))
        (pdMerge (addIndexCol (getVertexDf
            ⟨d, names.length, E, [("name", names)], ea⟩))
          ⟨["name", "w"], (w1 :: wrest).map (fun w =>
        [("name", names.getD j none), ("w", some w)])⟩
          ["name"] ".x" ".y" true .outer) j)) =
    Except.ok ⟨d, names.length + wrest.length, E,
      [("name", names ++ wrest.map (fun w => names.getD j none)),
       ("w", (List.range names.length).map (fun i =>
          if i = j then some w1 else (none : Cell)) ++
        wrest.map (fun w => some w))], ea⟩
  rw [c4_xm1 d E ea names hnd hj w1 wrest]
  rw [c4_finish names hj hsome w1 wrest]
  show applyAttributes ActiveType.NODES
      (addVertices ⟨d, names.length, E, [("name", names)], ea⟩
        (wrest.map (fun w =>
      ([("name", names.getD j none), ("_index", some (Val.nat j)),
        ("w", some w), ("_merge", some (Val.str "right_only"))] : Row))).length)
      ⟨["name", "w"],
        ((List.range j).map (fun i =>
          [("name", names.getD i none), ("w", (none : Cell))]) ++
        [[("name", names.getD j none), ("w", some w1)]] ++
        (List.range (names.length - j - 1)).map (fun t =>
          [("name", names.getD (j + 1 + t) none), ("w", (none : Cell))])) ++
        wrest.map (fun w => [("name", names.getD j none), ("w", some w)])⟩ =
    Except.ok ⟨d, names.length + wrest.length, E,
      [("name", names ++ wrest.map (fun w => names.getD j none)),
       ("w", (List.range names.length).map (fun i =>
          if i = j then some w1 else (none : Cell)) ++
        wrest.map (fun w => some w))], ea⟩
  rw [List.length_map]
  exact c4_apply d E ea names hj w1 wrest

end Tidy

namespace Tidy

theorem c4_node_outer_explosion_witness :
    tidyJoin ActiveType.NODES
      ⟨false, 3, [], [("name", [sv "a", sv "b", sv "c"])], []⟩
      ⟨["name", "w"], [[("name", sv "a"), ("w", some (Val.nat 1))],
        [("name", sv "a"), ("w", some (Val.nat 2))]]⟩
      none ".x" ".y" "outer" =
    Except.ok ⟨false, 4, [],
      [("name", [sv "a", sv "b", sv "c", sv "a"]),
       ("w", [some (Val.nat 1), none, none, some (Val.nat 2)])], []⟩ :=
  @c4_node_outer_explosion false [] [] [sv "a", sv "b", sv "c"]
    (by decide) 0 (by decide) (by decide) (Val.nat 1) [Val.nat 2]
    (by decide)

end Tidy
